import Mathlib

/-! # speed-crawler: the drainable work queue and the crawl workers

A shallow embedding of `crawl.c`.

* The queue is embedded at pointer level: `struct path_queue` nodes live in a
  heap of malloc'd cells (`Nat → Option path_queue`), `queue_head` and
  `queue_tail` are nullable addresses (`Option Nat`, `none` is `NULL`) and
  `queue_length` is the C `int`, read as a mathematical integer: the model
  follows the program while the counter stays in the range of `int`, that is
  while fewer than `2^31` items are live. For a tree with at most `INT_MAX`
  directories it stays there in every reachable state
  (`queue_length_in_range`), and the theorems about one call on an arbitrary
  queue state carry the range as a hypothesis.
* A `char *` is an `Option String` (`none` is `NULL`); the bytes of a string
  buffer are a `List Char` ended by the NUL character. The `int total_length`
  of `join_path` is converted from the `size_t` sum in `join_path_at`.
* The file system is the function `opendir`, giving for a path either `none`
  (the call failed) or the entries that successive `readdir` calls return. It
  does not change while the program runs.
* Every critical section (the code between `pthread_mutex_lock` and
  `pthread_mutex_unlock`) is one atomic step. A thread that finds its
  condition false under the lock waits and leaves the shared state as it is;
  when it runs again it re-evaluates the condition, which is what happens after
  a signalled or a spurious wake-up.
* The program state `Sys` says what the threads have done; there a waiting
  thread may re-evaluate its condition at any time. The process `Proc` adds the
  threads blocked on each of the two condition variables: a thread that waits
  takes no step until a `pthread_cond_signal` or a spurious wake-up unblocks
  it. The claims on waking and on termination are proved on `Proc`.
-/

namespace Crawl

/-! ## Strings -/

/-- The NUL byte that ends a C string. -/
def NUL : Char := Char.ofNat 0

/-- The C string stored at the start of a buffer: the bytes before the first NUL. -/
def cstr (buf : List Char) : List Char := buf.takeWhile (fun c => c != NUL)

/-- The function `strlen`. -/
def strlen (buf : List Char) : Nat := (cstr buf).length

/-- The call `memset(p, 0, n)` on a fresh buffer of `n` bytes. -/
def memset0 (n : Nat) : List Char := List.replicate n NUL

/-- The call `strcat(dst, src)`: the bytes of `src` and a closing NUL are
written over `dst` from its first NUL on; `none` when they do not fit in the
buffer. -/
def strcat (dst src : List Char) : Option (List Char) :=
  let d := strlen dst
  let s := cstr src
  if d + s.length + 1 ≤ dst.length then
    some (dst.take d ++ s ++ [NUL] ++ dst.drop (d + s.length + 1))
  else none

/-- The buffer of `join_path`: `base + "/" + name + \0`, built with `memset`
and three `strcat`s in `strlen(base) + 1 + strlen(name) + 1` bytes. Each of the
three `strcat` calls fits in that buffer, so no `getD` default is ever used
(`join_path_buf_eq`). The number of bytes is taken as it is: this is the buffer
of a call whose `int total_length` holds the sum, that is for a sum up to
`INT_MAX`; `join_path_at` has the conversion and the abort beyond it. -/
def join_path_buf (base name : List Char) : List Char :=
  let total_length := strlen base + 1 + strlen name + 1
  let full_path := memset0 total_length
  let full_path := (strcat full_path base).getD full_path
  let full_path := (strcat full_path ['/']).getD full_path
  let full_path := (strcat full_path name).getD full_path
  full_path

/-- The string that `join_path` returns. -/
def join_path (base name : String) : String :=
  String.mk (cstr (join_path_buf base.data name.data))

/-! ## Machine integers -/

/-- The largest value of an `int`. -/
def INT_MAX : Int := 2147483647

/-- The smallest value of an `int`. -/
def INT_MIN : Int := -2147483648

/-- The `int` that a `size_t` becomes when it is stored in one: the value
itself up to `INT_MAX`, and beyond it the value reduced modulo `2^32` into the
range of `int`. -/
def int_of_size_t (n : Nat) : Int :=
  ((n : Int) + 2147483648) % 4294967296 - 2147483648

/-! ## The queue -/

/-- The node type `struct path_queue`. -/
structure path_queue where
  next : Option Nat
  path : Option String
deriving DecidableEq

/-- The globals `queue_head`, `queue_tail`, `queue_length` and the malloc'd nodes. -/
structure Queue where
  heap : Nat → Option path_queue
  queue_head : Option Nat
  queue_tail : Option Nat
  queue_length : Int

/-- The static initialisers: no node, `NULL`, `NULL`, `0`. -/
def Queue.init : Queue :=
  { heap := fun _ => none, queue_head := none, queue_tail := none, queue_length := 0 }

/-- The call `enqueue(path)`, where `to_add` is what `malloc` returned. `none`
is an abort: one of the two assertions failed, or `queue_tail` dangles. The
count `queue_length + 1` is what the `int` holds after `queue_length += 1` as
long as that does not overflow, that is from a count below `INT_MAX`. -/
def enqueue (path : Option String) (to_add : Option Nat) (q : Queue) : Option Queue :=
  match path with
  | none => none
  | some p =>
    match to_add with
    | none => none
    | some a =>
      let heap0 := Function.update q.heap a (some { next := none, path := some p })
      let len := q.queue_length + 1
      let heap1 : Option (Nat → Option path_queue) :=
        match q.queue_tail with
        | none => some heap0
        | some t =>
          match heap0 t with
          | none => none
          | some n => some (Function.update heap0 t (some { n with next := some a }))
      match heap1 with
      | none => none
      | some h =>
        some { heap := h
               queue_head := if q.queue_head = none then some a else q.queue_head
               queue_tail := some a
               queue_length := len }

/-- What a call of `dequeue` does. -/
inductive DequeueResult where
  /-- with `queue_head == NULL` the caller waits on `queue_cond`; nothing is written -/
  | blocks
  /-- the call returns `path` and leaves the queue `q` -/
  | returns (path : Option String) (q : Queue)
  /-- the `assert(0)` after the sanity check fires, or `queue_head` dangles -/
  | fails

/-- The call `dequeue()`. -/
def dequeue (q : Queue) : DequeueResult :=
  match q.queue_head with
  | none => .blocks
  | some item =>
    match q.heap item with
    | none => .fails
    | some node =>
      let tail := if q.queue_tail = some item then none else q.queue_tail
      let head := node.next
      if head = some item ∨ tail = some item then .fails
      else
        .returns node.path
          { heap := Function.update q.heap item none
            queue_head := head
            queue_tail := tail
            queue_length := q.queue_length }

/-- The call `queue_processed()`: the state it leaves. The count
`queue_length - 1` is what the `int` holds after `queue_length -= 1` as long as
that does not overflow, that is from a count above `INT_MIN`. -/
def queue_processed (q : Queue) : Queue :=
  { q with queue_length := q.queue_length - 1 }

/-- One pass through the `for(;;)` of `wait_for_all_processed`, under the lock:
`true` is the `break`, `false` is the `pthread_cond_wait`. -/
def wait_for_all_processed_pass (q : Queue) : Bool :=
  decide (q.queue_length = 0)

/-- The call `wait_for_all_processed()` against the queue states it finds under the lock,
the first at entry and one more at each wake-up: the index of the pass at which
it returns, `none` while it is still waiting after the last of them. -/
def wait_for_all_processed : List Queue → Option Nat
  | [] => none
  | q :: later =>
    if wait_for_all_processed_pass q then some 0
    else (wait_for_all_processed later).map (fun k => k + 1)

/-! ## Directory processing -/

/-- The entry type `struct dirent`, the two fields read. -/
structure dirent where
  d_name : String
  d_type : Nat
deriving DecidableEq

/-- The `d_type` of a directory. -/
def DT_DIR : Nat := 4

/-- What `process_directory` does to the world outside its own frame. -/
inductive Effect where
  /-- a line on the visited stream: `printf("%s\n", line)` -/
  | stdout (line : String)
  /-- a line on the diagnostic stream: `fprintf(stderr, "%s\n", line)` -/
  | stderr (line : String)
  /-- a call `enqueue(path)` -/
  | enqueue (path : String)
deriving DecidableEq

/-- The `readdir` loop of `process_directory` over the entries still to be read. -/
def readdir_loop (path : String) : List dirent → List Effect
  | [] => []
  | ent :: rest =>
    if ent.d_name = "." ∨ ent.d_name = ".." then readdir_loop path rest
    else if ent.d_type = DT_DIR then
      .enqueue (join_path path ent.d_name) :: readdir_loop path rest
    else readdir_loop path rest

/-- The call `process_directory(path)`: its effects, in program order. -/
def process_directory (opendir : String → Option (List dirent)) (path : String) :
    List Effect :=
  .stdout path ::
    match opendir path with
    | none => [.stderr ("failed to opendir: " ++ path)]
    | some entries => readdir_loop path entries

/-! ## The threads -/

/-- Where one `crawl` thread stands. -/
inductive Worker where
  /-- at the top of the loop, calling `dequeue()` (or waiting inside it) -/
  | idle
  /-- inside `process_directory(path)` with the effects `todo` still to come;
  with `todo = []` the call has returned and `free(path); queue_processed()`
  is next -/
  | busy (path : String) (todo : List Effect)
deriving DecidableEq

/-- Where `main` stands. -/
inductive MainPc where
  /-- before `enqueue(strdup(root))` -/
  | start
  /-- in the `for` loop that creates the threads, with counter `i` -/
  | spawn (i : Nat)
  /-- inside `wait_for_all_processed()` -/
  | waiting
  /-- after `wait_for_all_processed()` has returned, and `main` with it -/
  | returned
deriving DecidableEq

/-- A completed call of one of the three queue operations. -/
inductive Call where
  | enqueue (path : String)
  | dequeue (path : Option String)
  | queue_processed
deriving DecidableEq

/-- What the program is run on: the file system, the root path that `main`
seeds and the number of threads it creates. -/
structure Config where
  opendir : String → Option (List dirent)
  root : String
  pool : Nat

/-- The values written into `main`: `"/usr"` and `64`. -/
def main_config (opendir : String → Option (List dirent)) : Config :=
  { opendir := opendir, root := "/usr", pool := 64 }

/-- The whole program state: the queue, the threads, the two output streams
and the calls of the queue operations completed so far. -/
structure Sys where
  q : Queue
  main : MainPc
  workers : List Worker
  out : List String
  err : List String
  calls : List Call

/-- The state in which `main` is entered. -/
def Sys.init : Sys :=
  { q := Queue.init, main := .start, workers := [], out := [], err := [], calls := [] }

/-- One scheduling decision: which thread runs its next atomic step, and the
address `malloc` hands out if that step allocates a node. -/
inductive Action where
  | main (malloc : Nat)
  | worker (i : Nat) (malloc : Nat)
deriving DecidableEq

/-- A call `enqueue(path)` in which `malloc` returns the address `a`; `none` if
`a` is in use (no allocator returns it) or the call aborts. -/
def Sys.enqueue (s : Sys) (path : String) (a : Nat) : Option Sys :=
  if (s.q.heap a).isSome then none
  else
    (Crawl.enqueue (some path) (some a) s.q).map fun q1 =>
      { s with q := q1, calls := s.calls ++ [.enqueue path] }

/-- The next atomic step of `main`: the `enqueue` of the root, one
`pthread_create`, or one pass of `wait_for_all_processed`. -/
def main_step (cfg : Config) (s : Sys) (a : Nat) : Option Sys :=
  match s.main with
  | .start => (s.enqueue cfg.root a).map fun s1 => { s1 with main := .spawn 0 }
  | .spawn i =>
    if i < cfg.pool then
      some { s with workers := s.workers ++ [.idle], main := .spawn (i + 1) }
    else some { s with main := .waiting }
  | .waiting =>
    if wait_for_all_processed_pass s.q then some { s with main := .returned }
    else some s
  | .returned => none

/-- The next atomic step of the `i`-th thread running `crawl`: the `dequeue`
(with `continue` on a `NULL` path), the next effect of `process_directory`, or
`free(path); queue_processed()`. The exit guarded by `0 && queue_length == 0`
is never taken and has no step. -/
def crawl_step (cfg : Config) (s : Sys) (i a : Nat) : Option Sys :=
  match s.workers[i]? with
  | none => none
  | some .idle =>
    match dequeue s.q with
    | .blocks => some s
    | .fails => none
    | .returns none q1 =>
      some { s with q := q1, calls := s.calls ++ [.dequeue none] }
    | .returns (some p) q1 =>
      some { s with
        q := q1
        workers := s.workers.set i (.busy p (process_directory cfg.opendir p))
        calls := s.calls ++ [.dequeue (some p)] }
  | some (.busy p (.stdout l :: todo)) =>
    some { s with out := s.out ++ [l], workers := s.workers.set i (.busy p todo) }
  | some (.busy p (.stderr l :: todo)) =>
    some { s with err := s.err ++ [l], workers := s.workers.set i (.busy p todo) }
  | some (.busy p (.enqueue c :: todo)) =>
    (s.enqueue c a).map fun s1 => { s1 with workers := s1.workers.set i (.busy p todo) }
  | some (.busy _ []) =>
    some { s with
      q := queue_processed s.q
      workers := s.workers.set i .idle
      calls := s.calls ++ [.queue_processed] }

/-- One step of the program; `none` when the action is not possible (no such
thread, the process has exited, the address is in use) or the process aborts. -/
def step (cfg : Config) (s : Sys) : Action → Option Sys
  | .main a => main_step cfg s a
  | .worker i a => if s.main = .returned then none else crawl_step cfg s i a

/-- The state after a schedule. -/
def run (cfg : Config) : Sys → List Action → Option Sys
  | s, [] => some s
  | s, act :: rest => (step cfg s act).bind fun s1 => run cfg s1 rest

/-- The states the program can be in. -/
def Reachable (cfg : Config) (s : Sys) : Prop :=
  ∃ sched : List Action, run cfg Sys.init sched = some s

/-! ## What the queue holds -/

/-- The list segment from `p` up to `e`: following `next` from `p` passes
through exactly the nodes listed, each with the path listed, and arrives
at `e`. -/
def lseg (heap : Nat → Option path_queue) :
    Option Nat → List (Nat × Option String) → Option Nat → Bool
  | p, [], e => decide (p = e)
  | p, (a, s) :: rest, e =>
    decide (p = some a) &&
      match heap a with
      | some n => decide (n.path = s) && lseg heap n.next rest e
      | none => false

/-- The queue is well formed and holds `nodes`, head first: they are linked
from `queue_head` to `NULL`, `queue_tail` is the last of them (`NULL` if there
is none) and no node occurs twice. -/
def Queue.Holds (q : Queue) (nodes : List (Nat × Option String)) : Prop :=
  lseg q.heap q.queue_head nodes none = true ∧
    q.queue_tail = (nodes.getLast?).map Prod.fst ∧
    (nodes.map Prod.fst).Nodup

instance Queue.Holds.decidable (q : Queue) (nodes : List (Nat × Option String)) :
    Decidable (q.Holds nodes) :=
  inferInstanceAs (Decidable (lseg q.heap q.queue_head nodes none = true ∧
    q.queue_tail = (nodes.getLast?).map Prod.fst ∧ (nodes.map Prod.fst).Nodup))

/-- The number of threads that hold an item: dequeued, `queue_processed` not
yet called for it. -/
def in_flight (ws : List Worker) : Nat :=
  (ws.filter fun w => decide (w ≠ .idle)).length

/-- The number of completed `enqueue` calls. -/
def enqueue_calls (cs : List Call) : Nat :=
  (cs.filter fun c => match c with | .enqueue _ => true | _ => false).length

/-- The number of completed `queue_processed` calls. -/
def queue_processed_calls (cs : List Call) : Nat :=
  (cs.filter fun c => decide (c = .queue_processed)).length

/-! ## The directories of a tree -/

/-- An entry that names a subdirectory: its type is `DT_DIR` and it is neither
the self nor the parent pseudo-entry. -/
def is_subdir (e : dirent) : Bool :=
  decide (e.d_type = DT_DIR) && !(decide (e.d_name = ".") || decide (e.d_name = ".."))

/-- The paths of the subdirectories of `p`, in listing order. -/
def dir_children (opendir : String → Option (List dirent)) (p : String) : List String :=
  match opendir p with
  | none => []
  | some entries => (entries.filter is_subdir).map fun e => join_path p e.d_name

/-- A path is reachable from `R` through directory-typed entries. -/
inductive Reach (opendir : String → Option (List dirent)) (R : String) : String → Prop where
  | root : Reach opendir R R
  | child {p c : String} : Reach opendir R p → c ∈ dir_children opendir p → Reach opendir R c

/-- The directories of the tree under `p`, down to `n` levels, parents first. -/
def reachable_dirs (opendir : String → Option (List dirent)) : Nat → String → List String
  | 0, _ => []
  | n + 1, p => p :: (dir_children opendir p).flatMap (reachable_dirs opendir n)

/-- The tree under `p` has at most `n` levels. -/
def depth_le (opendir : String → Option (List dirent)) : Nat → String → Bool
  | 0, _ => false
  | n + 1, p => (dir_children opendir p).all (depth_le opendir n)

/-- The subdirectory names of every listing are those of a directory tree: no
name occurs twice in a listing, and no name contains a separator or a NUL. -/
def well_named (opendir : String → Option (List dirent)) : Prop :=
  ∀ p entries, opendir p = some entries →
    ((entries.filter is_subdir).map fun e => e.d_name).Nodup ∧
      ∀ e ∈ entries.filter is_subdir, '/' ∉ e.d_name.data ∧ NUL ∉ e.d_name.data

/-! ## Work still to be done -/

/-- The visited lines that an effect not yet performed stands for: the line
itself for a `printf`, the whole tree under the path for an `enqueue`. -/
def Effect.pending (opendir : String → Option (List dirent)) (D : Nat) :
    Effect → Multiset String
  | .stdout l => {l}
  | .stderr _ => 0
  | .enqueue c => (reachable_dirs opendir D c : Multiset String)

/-- The visited lines still to come from the item a thread holds. -/
def Worker.pending (opendir : String → Option (List dirent)) (D : Nat) :
    Worker → Multiset String
  | .idle => 0
  | .busy _ todo => (todo.map (Effect.pending opendir D)).sum

/-- The visited lines still to come, when the queue holds `nodes`. -/
def Sys.pending (cfg : Config) (D : Nat) (s : Sys) (nodes : List (Nat × String)) :
    Multiset String :=
  (nodes.map fun n => (reachable_dirs cfg.opendir D n.2 : Multiset String)).sum +
    (s.workers.map (Worker.pending cfg.opendir D)).sum +
    (if s.main = .start then (reachable_dirs cfg.opendir D cfg.root : Multiset String) else 0)

/-- The invariant of the program, for a queue holding `nodes`: once `main` has
returned the live count is zero, `dequeue` has never returned `NULL`, the queue
is well formed, the live count is the linked nodes plus the items held, it is
the enqueue calls minus the `queue_processed` calls, and, when the tree under
the root has at most `D` levels, the lines printed together with the lines
still to come are the directories of the tree. -/
structure Inv (cfg : Config) (D : Nat) (s : Sys) (nodes : List (Nat × String)) : Prop where
  returned : s.main = .returned → s.q.queue_length = 0
  no_null : Call.dequeue none ∉ s.calls
  holds : s.q.Holds (nodes.map fun n => (n.1, some n.2))
  live : s.q.queue_length = (nodes.length : Int) + (in_flight s.workers : Int)
  conserve : s.q.queue_length =
    (enqueue_calls s.calls : Int) - (queue_processed_calls s.calls : Int)
  visited : depth_le cfg.opendir D cfg.root = true →
    (s.out : Multiset String) + s.pending cfg D nodes =
      (reachable_dirs cfg.opendir D cfg.root : Multiset String)
  fits_queue : depth_le cfg.opendir D cfg.root = true →
    ∀ n ∈ nodes, depth_le cfg.opendir D n.2 = true
  fits_todo : depth_le cfg.opendir D cfg.root = true →
    ∀ p todo c, Worker.busy p todo ∈ s.workers → Effect.enqueue c ∈ todo →
      depth_le cfg.opendir D c = true

/-! ## Sequences of queue operations -/

/-- A call of one of the two operations that relink the queue: `enqueue(path)`
with the address that `malloc` returns in it, or `dequeue()`. -/
inductive QueueOp where
  | enqueue (path : Option String) (to_add : Nat)
  | dequeue
deriving DecidableEq

/-- The queue after a sequence of calls, and what the `dequeue` calls returned,
in order. `none` if a call does not return (a `dequeue` that blocks, an abort)
or `malloc` is given an address in use. -/
def run_ops : Queue → List QueueOp → Option (Queue × List (Option String))
  | q, [] => some (q, [])
  | q, .enqueue path a :: rest =>
    if (q.heap a).isSome then none
    else (enqueue path (some a) q).bind fun q1 => run_ops q1 rest
  | q, .dequeue :: rest =>
    match dequeue q with
    | .returns path q1 => (run_ops q1 rest).map fun r => (r.1, path :: r.2)
    | .blocks => none
    | .fails => none

/-- The paths passed to `enqueue`, in call order. -/
def enqueued : List QueueOp → List (Option String)
  | [] => []
  | .enqueue path _ :: rest => path :: enqueued rest
  | .dequeue :: rest => enqueued rest

/-! ## The two output streams -/

/-- The lines that a run of effects puts on the visited stream. -/
def visited_events : List Effect → List String
  | [] => []
  | .stdout l :: rest => l :: visited_events rest
  | _ :: rest => visited_events rest

/-- The lines that a run of effects puts on the diagnostic stream. -/
def diagnostic_events : List Effect → List String
  | [] => []
  | .stderr l :: rest => l :: diagnostic_events rest
  | _ :: rest => diagnostic_events rest

/-! ## Scenario A

The root `/tmp/testA` holds the directories `b` and `c` and the file `f`, and
`b` holds the directory `d`. -/

/-- The `d_type` of a regular file. -/
def DT_REG : Nat := 8

/-- The file system of Scenario A. -/
def opendir_A (p : String) : Option (List dirent) :=
  if p = "/tmp/testA" then
    some [⟨".", DT_DIR⟩, ⟨"..", DT_DIR⟩, ⟨"b", DT_DIR⟩, ⟨"f", DT_REG⟩, ⟨"c", DT_DIR⟩]
  else if p = "/tmp/testA/b" then some [⟨".", DT_DIR⟩, ⟨"..", DT_DIR⟩, ⟨"d", DT_DIR⟩]
  else if p = "/tmp/testA/c" then some [⟨".", DT_DIR⟩, ⟨"..", DT_DIR⟩]
  else if p = "/tmp/testA/b/d" then some [⟨".", DT_DIR⟩, ⟨"..", DT_DIR⟩]
  else none

/-- Scenario A with a pool of four threads. -/
def config_A : Config := { opendir := opendir_A, root := "/tmp/testA", pool := 4 }

/-- A schedule of Scenario A: `main` seeds the root and creates two threads,
the first thread takes the root, `main` creates the other two and starts to
wait, and the four threads share the work until `main` finds the live count at
zero. The node of the root, at address 1, is handed out again by `malloc` for
the node of `/tmp/testA/c`. -/
def schedule_A : List Action :=
  [.main 1, .main 0, .main 0, .worker 0 0, .main 0, .main 0, .main 0,
   .worker 0 0, .worker 2 0, .worker 0 2, .worker 3 0, .worker 0 1, .worker 3 0,
   .worker 1 0, .worker 3 0, .worker 0 0, .worker 1 0, .worker 3 5, .main 0,
   .worker 2 0, .worker 1 0, .worker 3 0, .worker 2 0, .worker 0 0, .worker 2 0,
   .worker 0 0, .worker 0 0, .main 0]

/-- The state of Scenario A after `schedule_A`. -/
def final_A : Sys := (run config_A Sys.init schedule_A).getD Sys.init

/-- The first thirteen steps of `schedule_A`: one item is linked in the queue
and two are held by threads. -/
def schedule_A_mid : List Action := schedule_A.take 13

/-- The state of Scenario A after `schedule_A_mid`. -/
def mid_A : Sys := (run config_A Sys.init schedule_A_mid).getD Sys.init

/-! ## Small queue states -/

/-- The queue after `main` has seeded `/usr` in a node at address 1. -/
def queue_seeded : Queue :=
  { heap := fun x => if x = 1 then some { next := none, path := some "/usr" } else none
    queue_head := some 1
    queue_tail := some 1
    queue_length := 1 }

/-- Two `enqueue`s, a `dequeue`, an `enqueue` in the node just freed and
another `dequeue`. -/
def ops_example : List QueueOp :=
  [.enqueue (some "/usr") 1, .enqueue (some "/usr/bin") 2, .dequeue,
   .enqueue (some "/usr/lib") 1, .dequeue]

/-- The queue after `ops_example`. -/
def queue_after_ops_example : Queue :=
  ((run_ops Queue.init ops_example).getD (Queue.init, [])).1

/-! ## Strings in memory -/

/-- The call `strcat(dst, src)` on a memory of string buffers, for the buffer at
address `dst` and the bytes `src` read from the source; `none` when `dst` or the
source is no buffer of the memory or the bytes do not fit. -/
def strcat_at (mem : Nat → Option (List Char)) (dst : Nat) (src : Option (List Char)) :
    Option (Nat → Option (List Char)) :=
  match mem dst, src with
  | some d, some s => (strcat d s).map fun r => Function.update mem dst (some r)
  | _, _ => none

/-- The call `join_path(base, name)` on a memory of string buffers, where
`full_path` is what `malloc` returned: the memory after the call and the address
returned. The sum of the lengths is stored in the `int total_length`; when that
is negative, `malloc` is asked for more than `2^63` bytes, returns `NULL`, and
the assertion fails. `none` is a call that does not return: the assertion
failed, a pointer dangles, or a `strcat` writes past the end of the buffer. -/
def join_path_at (mem : Nat → Option (List Char)) (base name : Nat) (full_path : Option Nat) :
    Option ((Nat → Option (List Char)) × Nat) :=
  match mem base, mem name, full_path with
  | some b, some n, some f =>
    let total_length : Int := int_of_size_t (strlen b + 1 + strlen n + 1)
    if total_length < 0 then none
    else
      let mem1 := Function.update mem f (some (memset0 total_length.toNat))
      (strcat_at mem1 f (mem1 base)).bind fun mem2 =>
        (strcat_at mem2 f (some ['/'])).bind fun mem3 =>
          (strcat_at mem3 f (mem3 name)).map fun mem4 => (mem4, f)
  | _, _, _ => none

/-- A memory with the buffers of `/usr` at address 10 and of `bin` at address 20. -/
def memory_example (x : Nat) : Option (List Char) :=
  if x = 10 then some ("/usr".data ++ [NUL])
  else if x = 20 then some ("bin".data ++ NUL :: "junk".data)
  else none

/-! ## What one thread does with one item -/

/-- The paths that a run of effects passes to `enqueue`, in order. -/
def enqueue_events : List Effect → List String
  | [] => []
  | .enqueue c :: rest => c :: enqueue_events rest
  | _ :: rest => enqueue_events rest

/-- The number of steps of the `i`-th thread in a schedule. -/
def own_steps (i : Nat) : List Action → Nat
  | [] => 0
  | .worker j _ :: rest => (if j = i then 1 else 0) + own_steps i rest
  | .main _ :: rest => own_steps i rest

/-- The number of `queue_processed` calls completed in the steps of the `i`-th
thread along a schedule from `s`. -/
def queue_processed_by (cfg : Config) (i : Nat) : Sys → List Action → Nat
  | _, [] => 0
  | s, act :: rest =>
    match step cfg s act with
    | none => 0
    | some s1 =>
      (match act with
        | .worker j _ =>
          if j = i then queue_processed_calls s1.calls - queue_processed_calls s.calls else 0
        | .main _ => 0) + queue_processed_by cfg i s1 rest

/-! ## Scenario B

The root `/tmp/testB` holds the directory `locked`, which cannot be opened. -/

/-- The file system of Scenario B. -/
def opendir_B (p : String) : Option (List dirent) :=
  if p = "/tmp/testB" then some [⟨".", DT_DIR⟩, ⟨"..", DT_DIR⟩, ⟨"locked", DT_DIR⟩]
  else none

/-- Scenario B with a pool of one thread. -/
def config_B : Config := { opendir := opendir_B, root := "/tmp/testB", pool := 1 }

/-- A schedule of Scenario B up to the `dequeue` that returns `/tmp/testB/locked`. -/
def schedule_B : List Action :=
  [.main 1, .main 0, .worker 0 0, .worker 0 0, .worker 0 2, .worker 0 0, .worker 0 0]

/-- The state of Scenario B after `schedule_B`: the thread holds
`/tmp/testB/locked` and has not started on it. -/
def held_B : Sys := (run config_B Sys.init schedule_B).getD Sys.init

/-- The three steps of the thread on `/tmp/testB/locked`. -/
def schedule_B_item : List Action := [.worker 0 0, .worker 0 0, .worker 0 0]

/-- The state of Scenario B after `schedule_B` and `schedule_B_item`. -/
def done_B : Sys := (run config_B held_B schedule_B_item).getD Sys.init

/-! ## The history of a run -/

/-- The queue nodes of the program: a non-`NULL` path in each. -/
def lift_nodes (nodes : List (Nat × String)) : List (Nat × Option String) :=
  nodes.map fun n => (n.1, some n.2)

/-- The steps of the program that change the state, told by what they do to
it, for a queue holding `nodes` before and `nodes1` after the step. -/
inductive Trans (cfg : Config) (s : Sys) (nodes : List (Nat × String)) :
    Sys → List (Nat × String) → Prop where
  /-- the seeding `enqueue` of `main` -/
  | seed (a : Nat) (q1 : Queue) :
    s.main = .start → q1.Holds (lift_nodes (nodes ++ [(a, cfg.root)])) →
    (∀ x, q1.heap x ≠ none → x = a ∨ s.q.heap x ≠ none) →
    Trans cfg s nodes
      { s with q := q1, calls := s.calls ++ [.enqueue cfg.root], main := .spawn 0 }
      (nodes ++ [(a, cfg.root)])
  /-- a `pthread_create` of `main` -/
  | create (k : Nat) :
    s.main = .spawn k → k < cfg.pool →
    Trans cfg s nodes { s with workers := s.workers ++ [.idle], main := .spawn (k + 1) } nodes
  /-- the call of `wait_for_all_processed` by `main` -/
  | wait (k : Nat) :
    s.main = .spawn k → ¬ k < cfg.pool →
    Trans cfg s nodes { s with main := .waiting } nodes
  /-- the return of `wait_for_all_processed` -/
  | finish :
    s.main = .waiting → s.q.queue_length = 0 →
    Trans cfg s nodes { s with main := .returned } nodes
  /-- a thread dequeues the head item -/
  | take (i b : Nat) (p : String) (rest : List (Nat × String)) (q1 : Queue) :
    s.main ≠ .returned → s.workers[i]? = some .idle → nodes = (b, p) :: rest →
    q1.Holds (lift_nodes rest) → q1.heap = Function.update s.q.heap b none →
    Trans cfg s nodes
      { s with
        q := q1
        workers := s.workers.set i (.busy p (process_directory cfg.opendir p))
        calls := s.calls ++ [.dequeue (some p)] }
      rest
  /-- a thread prints a visited line -/
  | print (i : Nat) (p l : String) (todo : List Effect) :
    s.main ≠ .returned → s.workers[i]? = some (.busy p (.stdout l :: todo)) →
    Trans cfg s nodes
      { s with out := s.out ++ [l], workers := s.workers.set i (.busy p todo) } nodes
  /-- a thread prints a diagnostic line -/
  | complain (i : Nat) (p l : String) (todo : List Effect) :
    s.main ≠ .returned → s.workers[i]? = some (.busy p (.stderr l :: todo)) →
    Trans cfg s nodes
      { s with err := s.err ++ [l], workers := s.workers.set i (.busy p todo) } nodes
  /-- a thread enqueues a subdirectory -/
  | discover (i a : Nat) (p c : String) (todo : List Effect) (q1 : Queue) :
    s.main ≠ .returned → s.workers[i]? = some (.busy p (.enqueue c :: todo)) →
    q1.Holds (lift_nodes (nodes ++ [(a, c)])) →
    (∀ x, q1.heap x ≠ none → x = a ∨ s.q.heap x ≠ none) →
    Trans cfg s nodes
      { s with
        q := q1
        calls := s.calls ++ [.enqueue c]
        workers := s.workers.set i (.busy p todo) }
      (nodes ++ [(a, c)])
  /-- a thread calls `queue_processed` -/
  | acknowledge (i : Nat) (p : String) :
    s.main ≠ .returned → s.workers[i]? = some (.busy p []) →
    Trans cfg s nodes
      { s with
        q := queue_processed s.q
        workers := s.workers.set i .idle
        calls := s.calls ++ [.queue_processed] }
      nodes

/-- The path `x` is the root or has a parent directory whose line is on the
visited stream `out`. -/
def justified (cfg : Config) (out : List String) (x : String) : Prop :=
  x = cfg.root ∨ ∃ p ∈ out, x ∈ dir_children cfg.opendir p

/-- The number of completed `dequeue` calls, each followed by one call of
`process_directory` on the path returned. -/
def dequeue_calls (cs : List Call) : Nat :=
  (cs.filter fun c => match c with | .dequeue _ => true | _ => false).length

/-- The effects still to come hold a visited line. -/
def has_stdout : List Effect → Bool
  | [] => false
  | .stdout _ :: _ => true
  | _ :: rest => has_stdout rest

/-- One for a thread that holds an item whose visited line is not printed yet. -/
def Worker.unprinted : Worker → Nat
  | .idle => 0
  | .busy _ todo => if has_stdout todo then 1 else 0

/-- The number of steps taken so far that changed the state, each of which
added one entry to the call log or one line to an output stream: the seeding
`enqueue` of `main` and the steps of the threads. -/
def steps_done (s : Sys) : Nat :=
  s.calls.length + s.out.length + s.err.length

/-- The number of steps that the threads take on the tree under `p`, down to
`D` levels: for each directory the `dequeue`, the effects of
`process_directory` and the `queue_processed`. -/
def cost (opendir : String → Option (List dirent)) (D : Nat) (p : String) : Nat :=
  ((reachable_dirs opendir D p).map fun x => (process_directory opendir x).length + 2).sum

/-- The steps that an effect not yet performed stands for: itself, and for an
`enqueue` the steps on the tree under the path. -/
def Effect.cost (opendir : String → Option (List dirent)) (D : Nat) : Effect → Nat
  | .enqueue c => 1 + Crawl.cost opendir D c
  | _ => 1

/-- The steps still to come from the item a thread holds, its
`queue_processed` included. -/
def Worker.cost (opendir : String → Option (List dirent)) (D : Nat) : Worker → Nat
  | .idle => 0
  | .busy _ todo => (todo.map (Effect.cost opendir D)).sum + 1

/-- The steps still to come, when the queue holds `nodes`. -/
def Sys.cost (cfg : Config) (D : Nat) (s : Sys) (nodes : List (Nat × String)) : Nat :=
  (nodes.map fun n => Crawl.cost cfg.opendir D n.2).sum +
    (s.workers.map (Worker.cost cfg.opendir D)).sum +
    (if s.main = .start then 1 + Crawl.cost cfg.opendir D cfg.root else 0)

/-- The number of state-changing steps of a whole crawl: the seeding `enqueue`
and the steps of the threads on the tree under the root. -/
def steps_total (cfg : Config) (D : Nat) : Nat :=
  1 + cost cfg.opendir D cfg.root

/-- The history invariant of the program, for a queue holding `nodes`: only
linked nodes are allocated; the threads are those `main` has created; a thread
inside `process_directory(p)` has a final part of its effects still to come,
took `p` by a `dequeue`, and either has the visited line of `p` still to print
or has printed it; every queued path and every path being started is the root
or a subdirectory of a directory already printed; the visited stream and the
call log are in causal order; and the counts of calls, lines and steps add
up. -/
structure Hist (cfg : Config) (D : Nat) (s : Sys) (nodes : List (Nat × String)) : Prop where
  alloc : ∀ a, s.q.heap a ≠ none → a ∈ nodes.map Prod.fst
  spawned_start : s.main = .start → s.workers = []
  spawned_count : ∀ k, s.main = .spawn k → s.workers.length = k ∧ k ≤ cfg.pool
  spawned_all : s.main = .waiting ∨ s.main = .returned → s.workers.length = cfg.pool
  suffix : ∀ p todo, Worker.busy p todo ∈ s.workers →
    todo <:+ process_directory cfg.opendir p
  taken : ∀ p todo, Worker.busy p todo ∈ s.workers → Call.dequeue (some p) ∈ s.calls
  parent_busy : ∀ p todo, Worker.busy p todo ∈ s.workers → has_stdout todo = true →
    justified cfg s.out p
  printed_busy : ∀ p todo, Worker.busy p todo ∈ s.workers → has_stdout todo = false →
    p ∈ s.out
  parent_queue : ∀ n ∈ nodes, justified cfg s.out n.2
  order_out : ∀ (j : Nat) (x : String), s.out[j]? = some x →
    x = cfg.root ∨
      ∃ (i : Nat) (p : String), i < j ∧ s.out[i]? = some p ∧ x ∈ dir_children cfg.opendir p
  order_calls : ∀ (k : Nat) (c : String), s.calls[k]? = some (.enqueue c) →
    c = cfg.root ∨
      ∃ (j : Nat) (p : String), j < k ∧ s.calls[j]? = some (.dequeue (some p)) ∧
        c ∈ dir_children cfg.opendir p
  n_deq : dequeue_calls s.calls + nodes.length = enqueue_calls s.calls
  n_out : s.out.length + (s.workers.map Worker.unprinted).sum = dequeue_calls s.calls
  steps : depth_le cfg.opendir D cfg.root = true →
    steps_done s + s.cost cfg D nodes = steps_total cfg D

/-! ## Scenario C

The root `/tmp/testC` is an empty directory. -/

/-- The file system of Scenario C. -/
def opendir_C (p : String) : Option (List dirent) :=
  if p = "/tmp/testC" then some [⟨".", DT_DIR⟩, ⟨"..", DT_DIR⟩] else none

/-- Scenario C with a pool of one thread. -/
def config_C : Config := { opendir := opendir_C, root := "/tmp/testC", pool := 1 }

/-! ## The condition variables

The program state together with the threads blocked in `pthread_cond_wait` on
each of the two condition variables. A blocked thread takes no step until a
`pthread_cond_signal` or a spurious wake-up unblocks it. -/

/-- A thread of the process: `main`, or the `i`-th thread running `crawl`. -/
inductive Thread where
  | main
  | crawl (i : Nat)
deriving DecidableEq

/-- The thread that an action runs. -/
def Action.thread : Action → Thread
  | .main _ => .main
  | .worker i _ => .crawl i

/-- The address that `malloc` hands out in an action. -/
def Action.malloc : Action → Nat
  | .main a => a
  | .worker _ a => a

/-- The contract of `pthread_cond_signal` on a condition variable on which the
threads `waiters` are blocked: `woken` can be the threads that the call
unblocks when they are among the waiters and, if there is a waiter, at least
one thread is unblocked. -/
def pthread_cond_signal (waiters woken : List Thread) : Prop :=
  (∀ t ∈ woken, t ∈ waiters) ∧ (waiters ≠ [] → woken ≠ [])

instance pthread_cond_signal.decidable (waiters woken : List Thread) :
    Decidable (pthread_cond_signal waiters woken) :=
  inferInstanceAs (Decidable ((∀ t ∈ woken, t ∈ waiters) ∧ (waiters ≠ [] → woken ≠ [])))

/-- What an atomic step does with the condition variables. -/
inductive Sync where
  /-- no call on a condition variable -/
  | nothing
  /-- the `pthread_cond_wait(&queue_cond, &queue_lock)` of `dequeue` -/
  | wait_queue_cond
  /-- the `pthread_cond_wait(&finish_cond, &queue_lock)` of `wait_for_all_processed` -/
  | wait_finish_cond
  /-- the `pthread_cond_signal(&queue_cond)` of `enqueue` -/
  | signal_queue_cond
  /-- the `pthread_cond_signal(&finish_cond)` of `queue_processed` -/
  | signal_finish_cond
deriving DecidableEq

/-- The call on a condition variable in the next atomic step of a thread:
`enqueue` signals `queue_cond`; `dequeue` waits on it when `queue_head` is
`NULL`; `queue_processed` signals `finish_cond` when it has brought
`queue_length` to zero; a pass of `wait_for_all_processed` waits on it when
`queue_length` is not zero. -/
def sync (s : Sys) : Action → Sync
  | .main _ =>
    match s.main with
    | .start => .signal_queue_cond
    | .spawn _ => .nothing
    | .waiting => if wait_for_all_processed_pass s.q then .nothing else .wait_finish_cond
    | .returned => .nothing
  | .worker i _ =>
    match s.workers[i]? with
    | some .idle =>
      match dequeue s.q with
      | .blocks => .wait_queue_cond
      | _ => .nothing
    | some (.busy _ (.enqueue _ :: _)) => .signal_queue_cond
    | some (.busy _ []) =>
      if (queue_processed s.q).queue_length = 0 then .signal_finish_cond else .nothing
    | _ => .nothing

/-- The process: the program state and, for each condition variable, the
threads blocked on it. -/
structure Proc where
  sys : Sys
  queue_cond : List Thread
  finish_cond : List Thread

/-- The process when `main` is entered: no thread is blocked. -/
def Proc.init : Proc := { sys := Sys.init, queue_cond := [], finish_cond := [] }

/-- What happens next in the process. -/
inductive Event where
  /-- a thread that is not blocked takes its next atomic step; if the step
  calls `pthread_cond_signal`, `woken` are the threads that the call unblocks -/
  | run (act : Action) (woken : List Thread)
  /-- a spurious wake-up of a thread -/
  | spurious (t : Thread)
deriving DecidableEq

/-- The waiters of a condition variable once the threads `woken` are unblocked. -/
def unblock (waiters woken : List Thread) : List Thread :=
  waiters.filter fun t => decide (t ∉ woken)

/-- One event of the process; `none` when it is not possible: the thread is
blocked, its step is not possible or aborts, the threads `woken` are not what a
`pthread_cond_signal` can unblock, or the process has exited. -/
def proc_step (cfg : Config) (c : Proc) : Event → Option Proc
  | .spurious t =>
    if c.sys.main = .returned then none
    else some { c with
      queue_cond := unblock c.queue_cond [t]
      finish_cond := unblock c.finish_cond [t] }
  | .run act woken =>
    if act.thread ∈ c.queue_cond ∨ act.thread ∈ c.finish_cond then none
    else
      match step cfg c.sys act with
      | none => none
      | some s1 =>
        match sync c.sys act with
        | .nothing => some { c with sys := s1 }
        | .wait_queue_cond => some { c with sys := s1, queue_cond := act.thread :: c.queue_cond }
        | .wait_finish_cond =>
          some { c with sys := s1, finish_cond := act.thread :: c.finish_cond }
        | .signal_queue_cond =>
          if pthread_cond_signal c.queue_cond woken then
            some { c with sys := s1, queue_cond := unblock c.queue_cond woken }
          else none
        | .signal_finish_cond =>
          if pthread_cond_signal c.finish_cond woken then
            some { c with sys := s1, finish_cond := unblock c.finish_cond woken }
          else none

/-- The process after a sequence of events. -/
def proc_run (cfg : Config) : Proc → List Event → Option Proc
  | c, [] => some c
  | c, e :: rest => (proc_step cfg c e).bind fun c1 => proc_run cfg c1 rest

/-- The states the process can be in. -/
def ProcReachable (cfg : Config) (c : Proc) : Prop :=
  ∃ events : List Event, proc_run cfg Proc.init events = some c

/-- The process after the first `n` events of an unending sequence of events. -/
def proc_trace (cfg : Config) (σ : Nat → Event) : Nat → Option Proc
  | 0 => some Proc.init
  | n + 1 => (proc_trace cfg σ n).bind fun c => proc_step cfg c (σ n)

/-- The thread has been created. -/
def Proc.created (c : Proc) : Thread → Bool
  | .main => true
  | .crawl i => decide (i < c.sys.workers.length)

/-- The thread is blocked on a condition variable. -/
def Proc.blocked (c : Proc) (t : Thread) : Bool :=
  decide (t ∈ c.queue_cond ∨ t ∈ c.finish_cond)

/-- The event is the next step of the thread `t`. -/
def Event.runs (t : Thread) : Event → Bool
  | .run act _ => decide (act.thread = t)
  | .spurious _ => false

/-- What the environment may do in the state `c`: run a thread that exists and
is not blocked, where the address that `malloc` returns in an `enqueue` is free
and the threads that a `pthread_cond_signal` unblocks are as its contract
allows; or wake a thread spuriously. The steps with an `enqueue` are those that
signal `queue_cond`. -/
def Event.admissible (c : Proc) : Event → Bool
  | .spurious _ => true
  | .run act woken =>
    c.created act.thread && !c.blocked act.thread &&
      match sync c.sys act with
      | .signal_queue_cond =>
        decide (c.sys.q.heap act.malloc = none) &&
          decide (pthread_cond_signal c.queue_cond woken)
      | .signal_finish_cond => decide (pthread_cond_signal c.finish_cond woken)
      | _ => true

/-- The thread can be scheduled: it has been created and is not blocked. -/
def Proc.runnable (c : Proc) (t : Thread) : Bool :=
  c.created t && !c.blocked t

/-- The next step of the thread changes the program state: `main` before and
while it creates the threads, and inside `wait_for_all_processed` once
`queue_length` is zero; a thread that holds an item, and a thread at `dequeue`
while an item is linked in the queue. -/
def ready (s : Sys) : Thread → Bool
  | .main =>
    match s.main with
    | .start => true
    | .spawn _ => true
    | .waiting => decide (s.q.queue_length = 0)
    | .returned => false
  | .crawl i =>
    match s.workers[i]? with
    | some (.busy _ _) => true
    | some .idle => decide (s.q.queue_head ≠ none)
    | none => false

/-- The steps that `main` still has to take. -/
def main_left (cfg : Config) : MainPc → Nat
  | .start => cfg.pool + 3
  | .spawn k => cfg.pool - k + 2
  | .waiting => 1
  | .returned => 0

/-- A bound on the number of steps that still change the program state. -/
def fuel (cfg : Config) (D : Nat) (s : Sys) : Nat :=
  steps_total cfg D - steps_done s + main_left cfg s.main

/-- The invariant of the condition variables: only threads at the top of the
`crawl` loop are blocked on `queue_cond`; only `main` is blocked on
`finish_cond`, and only inside `wait_for_all_processed` while `queue_length` is
not zero; and while an item is linked in the queue, some thread created is not
blocked on `queue_cond`. -/
structure ProcInv (cfg : Config) (c : Proc) : Prop where
  reach : Reachable cfg c.sys
  queue_waiters : ∀ t ∈ c.queue_cond, ∃ i, t = .crawl i ∧ c.sys.workers[i]? = some .idle
  finish_waiters : ∀ t ∈ c.finish_cond,
    t = .main ∧ c.sys.main = .waiting ∧ c.sys.q.queue_length ≠ 0
  awake : c.sys.q.queue_head ≠ none → c.sys.workers ≠ [] →
    ∃ i, i < c.sys.workers.length ∧ Thread.crawl i ∉ c.queue_cond

/-! ## Scenario C with the condition variables -/

/-- The events of a run of Scenario C: `main` seeds the root, creates the
thread, calls `wait_for_all_processed` and blocks in it on a live count of one;
the thread takes the root, prints it and calls `queue_processed`, whose signal
unblocks `main`; `main` finds the live count at zero and returns. -/
def events_C : List Event :=
  [.run (.main 1) [], .run (.main 0) [], .run (.main 0) [], .run (.main 0) [],
   .run (.worker 0 0) [], .run (.worker 0 0) [], .run (.worker 0 0) [.main],
   .run (.main 0) []]

/-- The events of Scenario C as an unending sequence: after `events_C`, when
the process has exited, nothing more happens. -/
def sigma_C (n : Nat) : Event := events_C.getD n (.spurious .main)

/-- Scenario C after the first six of `events_C`: `main` is blocked on
`finish_cond` and the thread is about to call `queue_processed`. -/
def blocked_C : Proc := (proc_run config_C Proc.init (events_C.take 6)).getD Proc.init

/-- Scenario C after the first `n` events of `sigma_C`. -/
def state_C (n : Nat) : Proc := (proc_trace config_C sigma_C n).getD Proc.init

/-! # Proofs -/

/-! ## Lemmas on string buffers -/

theorem cstr_no_nul (buf : List Char) : ∀ c ∈ cstr buf, c ≠ NUL := by
  intro c hc
  have := List.mem_takeWhile_imp hc
  simpa using this

theorem cstr_append_nuls (pre : List Char) (n : Nat) (hpre : ∀ c ∈ pre, c ≠ NUL) :
    cstr (pre ++ List.replicate n NUL) = pre := by
  induction pre with
  | nil =>
    cases n with
    | zero => rfl
    | succ n => simp [cstr, List.replicate_succ]
  | cons c rest ih =>
    have hc : c ≠ NUL := hpre c (by simp)
    have hrest := ih (fun x hx => hpre x (List.mem_cons_of_mem _ hx))
    unfold cstr at hrest ⊢
    rw [List.cons_append, List.takeWhile_cons_of_pos (by simpa using hc), hrest]

theorem cstr_of_no_nul (s : List Char) (hs : ∀ c ∈ s, c ≠ NUL) : cstr s = s := by
  have := cstr_append_nuls s 0 hs
  simpa using this

theorem strcat_fits (pre src : List Char) (n : Nat) (hpre : ∀ c ∈ pre, c ≠ NUL)
    (hn : (cstr src).length + 1 ≤ n) :
    strcat (pre ++ List.replicate n NUL) src =
      some ((pre ++ cstr src) ++ List.replicate (n - (cstr src).length) NUL) := by
  unfold strcat strlen
  rw [cstr_append_nuls pre n hpre]
  simp only [List.length_append, List.length_replicate]
  rw [if_pos (by omega)]
  congr 1
  have htake : List.take pre.length (pre ++ List.replicate n NUL) = pre := by
    rw [List.take_left']
    rfl
  have hdrop : List.drop (pre.length + (cstr src).length + 1) (pre ++ List.replicate n NUL) =
      List.replicate (n - (cstr src).length - 1) NUL := by
    rw [show pre.length + (cstr src).length + 1 = pre.length + ((cstr src).length + 1) by omega,
      ← List.drop_drop, List.drop_left', List.drop_replicate]
    · congr 1
    · rfl
  rw [htake, hdrop]
  have hrep : List.replicate (n - (cstr src).length) NUL =
      NUL :: List.replicate (n - (cstr src).length - 1) NUL := by
    rw [← List.replicate_succ]
    congr 1
    omega
  rw [hrep]
  simp

theorem join_path_buf_eq (base name : List Char) :
    join_path_buf base name = cstr base ++ '/' :: cstr name ++ [NUL] := by
  have hslash : cstr ['/'] = ['/'] := by decide
  unfold join_path_buf memset0 strlen
  simp only []
  have h1 := strcat_fits [] base ((cstr base).length + 1 + (cstr name).length + 1)
    (by simp) (by omega)
  rw [List.nil_append] at h1
  rw [h1]
  simp only [Option.getD_some, List.nil_append]
  have h2 := strcat_fits (cstr base) ['/']
    ((cstr base).length + 1 + (cstr name).length + 1 - (cstr base).length)
    (cstr_no_nul base) (by rw [hslash]; simp; omega)
  rw [h2]
  simp only [Option.getD_some]
  have h3 := strcat_fits (cstr base ++ cstr ['/']) name
    ((cstr base).length + 1 + (cstr name).length + 1 - (cstr base).length - (cstr ['/']).length)
    (by
      intro c hc
      rw [List.mem_append] at hc
      rcases hc with hc | hc
      · exact cstr_no_nul base c hc
      · exact cstr_no_nul _ c hc)
    (by rw [hslash]; simp; omega)
  rw [h3]
  simp only [Option.getD_some, hslash, List.length_singleton]
  rw [show (cstr base).length + 1 + (cstr name).length + 1 - (cstr base).length - 1 -
      (cstr name).length = 1 by omega]
  simp

theorem join_path_eq (base name : String) :
    join_path base name = String.mk (cstr base.data ++ '/' :: cstr name.data) := by
  unfold join_path
  rw [join_path_buf_eq]
  congr 1
  have h := cstr_append_nuls (cstr base.data ++ '/' :: cstr name.data) 1 (by
    intro c hc
    rw [List.mem_append, List.mem_cons] at hc
    rcases hc with hc | rfl | hc
    · exact cstr_no_nul _ c hc
    · decide
    · exact cstr_no_nul _ c hc)
  simpa using h

theorem join_path_eq_append (base name : String) (hb : ∀ c ∈ base.data, c ≠ NUL)
    (hn : ∀ c ∈ name.data, c ≠ NUL) : join_path base name = base ++ "/" ++ name := by
  rw [join_path_eq, cstr_of_no_nul _ hb, cstr_of_no_nul _ hn]
  apply String.ext
  simp [String.data_append]

/-! ## Lemmas on list segments -/

theorem lseg_nil (heap : Nat → Option path_queue) (p e : Option Nat) :
    lseg heap p [] e = true ↔ p = e := by
  simp [lseg]

theorem lseg_cons (heap : Nat → Option path_queue) (p e : Option Nat) (a : Nat)
    (s : Option String) (rest : List (Nat × Option String)) :
    lseg heap p ((a, s) :: rest) e = true ↔
      p = some a ∧ ∃ nx, heap a = some ⟨nx, s⟩ ∧ lseg heap nx rest e = true := by
  rw [lseg]
  cases h : heap a with
  | none => simp
  | some n =>
    obtain ⟨nx, pth⟩ := n
    simp only [Bool.and_eq_true, decide_eq_true_eq, Option.some.injEq, path_queue.mk.injEq]
    constructor
    · rintro ⟨h1, h2, h3⟩
      exact ⟨h1, nx, ⟨rfl, h2⟩, h3⟩
    · rintro ⟨h1, nx2, ⟨h2, h3⟩, h4⟩
      subst h2
      exact ⟨h1, h3, h4⟩

theorem lseg_frame (heap : Nat → Option path_queue) (x : Nat) (v : Option path_queue) :
    ∀ (nodes : List (Nat × Option String)) (p e : Option Nat),
      x ∉ nodes.map Prod.fst →
      lseg (Function.update heap x v) p nodes e = lseg heap p nodes e := by
  intro nodes
  induction nodes with
  | nil => intro p e _; simp [lseg]
  | cons n rest ih =>
    intro p e hx
    obtain ⟨a, s⟩ := n
    simp only [List.map_cons, List.mem_cons, not_or] at hx
    have hax : a ≠ x := fun h => hx.1 h.symm
    rw [lseg, lseg, Function.update_noteq hax]
    cases heap a with
    | none => rfl
    | some n => simp only [ih _ _ hx.2]

theorem lseg_append (heap : Nat → Option path_queue) :
    ∀ (l1 l2 : List (Nat × Option String)) (p e : Option Nat),
      lseg heap p (l1 ++ l2) e = true ↔
        ∃ m, lseg heap p l1 m = true ∧ lseg heap m l2 e = true := by
  intro l1
  induction l1 with
  | nil => intro l2 p e; simp [lseg_nil]
  | cons n rest ih =>
    intro l2 p e
    obtain ⟨a, s⟩ := n
    simp only [List.cons_append, lseg_cons, ih]
    constructor
    · rintro ⟨h1, nx, h2, m, h3, h4⟩
      exact ⟨m, ⟨h1, nx, h2, h3⟩, h4⟩
    · rintro ⟨m, ⟨h1, nx, h2, h3⟩, h4⟩
      exact ⟨h1, nx, h2, m, h3, h4⟩

theorem lseg_allocated (heap : Nat → Option path_queue) :
    ∀ (nodes : List (Nat × Option String)) (p e : Option Nat),
      lseg heap p nodes e = true → ∀ x ∈ nodes.map Prod.fst, heap x ≠ none := by
  intro nodes
  induction nodes with
  | nil => intro p e _ x hx; simp at hx
  | cons n rest ih =>
    intro p e h x hx
    obtain ⟨a, s⟩ := n
    rw [lseg_cons] at h
    obtain ⟨_, nx, h2, h3⟩ := h
    simp only [List.map_cons, List.mem_cons] at hx
    rcases hx with rfl | hx
    · simp [h2]
    · exact ih _ _ h3 x hx

theorem lseg_unique (heap : Nat → Option path_queue) :
    ∀ (l1 l2 : List (Nat × Option String)) (p : Option Nat),
      lseg heap p l1 none = true → lseg heap p l2 none = true → l1 = l2 := by
  intro l1
  induction l1 with
  | nil =>
    intro l2 p h1 h2
    rw [lseg_nil] at h1
    subst h1
    cases l2 with
    | nil => rfl
    | cons n r => obtain ⟨a, s⟩ := n; rw [lseg_cons] at h2; simp at h2
  | cons n rest ih =>
    intro l2 p h1 h2
    obtain ⟨a, s⟩ := n
    rw [lseg_cons] at h1
    obtain ⟨hp, nx, hn, hr⟩ := h1
    cases l2 with
    | nil => rw [lseg_nil] at h2; simp [hp] at h2
    | cons n2 r2 =>
      obtain ⟨a2, s2⟩ := n2
      rw [lseg_cons] at h2
      obtain ⟨hp2, nx2, hn2, hr2⟩ := h2
      rw [hp] at hp2
      cases hp2
      rw [hn] at hn2
      cases hn2
      rw [ih r2 nx hr hr2]

theorem Queue.Holds.head_none_iff {q : Queue} {nodes : List (Nat × Option String)}
    (h : q.Holds nodes) : q.queue_head = none ↔ nodes = [] := by
  obtain ⟨h1, _, _⟩ := h
  cases nodes with
  | nil => rw [lseg_nil] at h1; simp [h1]
  | cons n r => obtain ⟨a, s⟩ := n; rw [lseg_cons] at h1; simp [h1.1]

theorem Queue.Holds.unique {q : Queue} {l1 l2 : List (Nat × Option String)}
    (h1 : q.Holds l1) (h2 : q.Holds l2) : l1 = l2 :=
  lseg_unique q.heap l1 l2 q.queue_head h1.1 h2.1

theorem Queue.init_holds : Queue.init.Holds [] := by decide

/-- On a well-formed queue `enqueue` appends the new node. -/
theorem enqueue_holds {q : Queue} {nodes : List (Nat × Option String)} (h : q.Holds nodes)
    (p : String) (a : Nat) (ha : q.heap a = none) :
    ∃ q1, enqueue (some p) (some a) q = some q1 ∧ q1.Holds (nodes ++ [(a, some p)]) ∧
      q1.queue_length = q.queue_length + 1 := by
  obtain ⟨hseg, htail, hnd⟩ := h
  have hfresh : a ∉ nodes.map Prod.fst := fun hm => lseg_allocated _ _ _ _ hseg a hm ha
  rcases List.eq_nil_or_concat nodes with hnil | ⟨init, ⟨t, s⟩, hcat⟩
  · subst hnil
    rw [lseg_nil] at hseg
    simp only [List.getLast?_nil, Option.map_none'] at htail
    refine ⟨{ heap := Function.update q.heap a (some ⟨none, some p⟩), queue_head := some a,
              queue_tail := some a, queue_length := q.queue_length + 1 }, ?_, ?_, ?_⟩
    · simp only [enqueue, htail, hseg]
      rfl
    · refine ⟨?_, ?_, ?_⟩
      · simp [lseg_cons, lseg_nil]
      · simp
      · simp
    · rfl
  · subst hcat
    simp only [List.concat_eq_append] at *
    rw [lseg_append] at hseg
    obtain ⟨m, hinit, hlast⟩ := hseg
    rw [lseg_cons] at hlast
    obtain ⟨hm, nx, hheap, hnx⟩ := hlast
    rw [lseg_nil] at hnx
    subst hnx hm
    simp at htail
    have hta : t ≠ a := by
      rintro rfl
      rw [ha] at hheap
      cases hheap
    have htinit : t ∉ init.map Prod.fst := by
      intro hm
      rw [List.map_append, List.nodup_append] at hnd
      exact hnd.2.2 hm (by simp)
    have hainit : a ∉ init.map Prod.fst := by
      intro hm
      exact hfresh (by simp only [List.map_append, List.mem_append]; exact Or.inl hm)
    have hhead : q.queue_head ≠ none := by
      intro hh
      rw [hh] at hinit
      cases init with
      | nil => rw [lseg_nil] at hinit; cases hinit
      | cons n r => obtain ⟨b, sb⟩ := n; rw [lseg_cons] at hinit; simp at hinit
    refine ⟨{ heap := Function.update (Function.update q.heap a (some ⟨none, some p⟩)) t
                (some ⟨some a, s⟩),
              queue_head := q.queue_head, queue_tail := some a,
              queue_length := q.queue_length + 1 }, ?_, ?_, ?_⟩
    · simp only [enqueue, htail, Function.update_noteq hta, hheap, if_neg hhead]
    · refine ⟨?_, ?_, ?_⟩
      · show lseg _ _ ((init ++ [(t, s)]) ++ [(a, some p)]) none = true
        rw [lseg_append]
        refine ⟨some a, ?_, ?_⟩
        · rw [lseg_append]
          refine ⟨some t, ?_, ?_⟩
          · rw [lseg_frame _ _ _ _ _ _ htinit, lseg_frame _ _ _ _ _ _ hainit]
            exact hinit
          · rw [lseg_cons]
            refine ⟨rfl, some a, ?_, ?_⟩
            · simp
            · simp [lseg_nil]
        · rw [lseg_cons]
          refine ⟨rfl, none, ?_, ?_⟩
          · show Function.update (Function.update q.heap a _) t _ a = _
            rw [Function.update_noteq hta.symm]
            simp
          · simp [lseg_nil]
      · simp
      · rw [List.map_append, List.nodup_append]
        refine ⟨hnd, by simp, ?_⟩
        intro x hx hx2
        simp only [List.map_cons, List.map_nil, List.mem_singleton] at hx2
        subst hx2
        exact hfresh hx
    · rfl

/-- On a well-formed non-empty queue `dequeue` unlinks and returns the head. -/
theorem dequeue_holds {q : Queue} {a : Nat} {s : Option String}
    {rest : List (Nat × Option String)} (h : q.Holds ((a, s) :: rest)) :
    ∃ q1, dequeue q = .returns s q1 ∧ q1.Holds rest ∧ q1.queue_length = q.queue_length := by
  obtain ⟨hseg, htail, hnd⟩ := h
  rw [lseg_cons] at hseg
  obtain ⟨hhead, nx, hheap, hrest⟩ := hseg
  simp only [List.map_cons, List.nodup_cons] at hnd
  have hnx : nx ≠ some a := by
    rintro rfl
    cases rest with
    | nil => rw [lseg_nil] at hrest; cases hrest
    | cons n r =>
      obtain ⟨b, sb⟩ := n
      rw [lseg_cons] at hrest
      obtain ⟨hb, _⟩ := hrest
      cases hb
      exact hnd.1 (by simp)
  have htl : (if q.queue_tail = some a then none else q.queue_tail) ≠ some a := by
    split
    · simp
    · assumption
  refine ⟨{ heap := Function.update q.heap a none, queue_head := nx,
            queue_tail := if q.queue_tail = some a then none else q.queue_tail,
            queue_length := q.queue_length }, ?_, ?_, ?_⟩
  · simp only [dequeue, hhead, hheap]
    rw [if_neg (by simp only [not_or]; exact ⟨hnx, htl⟩)]
  · refine ⟨?_, ?_, hnd.2⟩
    · show lseg (Function.update q.heap a none) nx rest none = true
      rw [lseg_frame _ _ _ _ _ _ hnd.1]
      exact hrest
    · show (if q.queue_tail = some a then none else q.queue_tail) = _
      cases rest with
      | nil => simp [htail]
      | cons n r =>
        rw [List.getLast?_cons_cons] at htail
        rw [htail]
        have : (n :: r).getLast?.map Prod.fst ≠ some a := by
          intro hc
          rw [Option.map_eq_some'] at hc
          obtain ⟨x, hx, hxa⟩ := hc
          have := List.mem_of_getLast?_eq_some hx
          exact hnd.1 (by rw [← hxa]; exact List.mem_map_of_mem _ this)
        rw [if_neg this]
  · rfl

/-! ## Lemmas on the directories of a tree -/

theorem readdir_loop_eq (p : String) (entries : List dirent) :
    readdir_loop p entries =
      (entries.filter is_subdir).map fun e => Effect.enqueue (join_path p e.d_name) := by
  induction entries with
  | nil => rfl
  | cons e rest ih =>
    rw [readdir_loop]
    by_cases hdot : e.d_name = "." ∨ e.d_name = ".."
    · have hs : is_subdir e = false := by
        simp only [is_subdir]
        rcases hdot with h | h <;> simp [h]
      rw [if_pos hdot, List.filter_cons_of_neg (by simp [hs]), ih]
    · rw [if_neg hdot]
      by_cases hdir : e.d_type = DT_DIR
      · have hs : is_subdir e = true := by
          simp only [is_subdir, Bool.and_eq_true, decide_eq_true_eq]
          exact ⟨hdir, by simpa using hdot⟩
        rw [if_pos hdir, List.filter_cons_of_pos hs, ih, List.map_cons]
      · have hs : is_subdir e = false := by
          simp [is_subdir, hdir]
        rw [if_neg hdir, List.filter_cons_of_neg (by simp [hs]), ih]

theorem enqueue_mem_process_directory (opendir : String → Option (List dirent))
    (p c : String) :
    Effect.enqueue c ∈ process_directory opendir p ↔ c ∈ dir_children opendir p := by
  unfold process_directory dir_children
  cases opendir p with
  | none => simp
  | some entries =>
    simp only [List.mem_cons, readdir_loop_eq, List.mem_map]
    constructor
    · rintro (h | ⟨e, he, h⟩)
      · cases h
      · cases h
        exact ⟨e, he, rfl⟩
    · rintro ⟨e, he, h⟩
      exact Or.inr ⟨e, he, by rw [h]⟩

theorem coe_flatMap_sum {α β : Type} (f : α → List β) (l : List α) :
    ((l.flatMap f : List β) : Multiset β) = (l.map fun x => (f x : Multiset β)).sum := by
  induction l with
  | nil => rfl
  | cons x rest ih =>
    rw [List.flatMap_cons, List.map_cons, List.sum_cons, ← ih, Multiset.coe_add]

theorem depth_le_succ (opendir : String → Option (List dirent)) :
    ∀ (n : Nat) (p : String), depth_le opendir n p = true →
      depth_le opendir (n + 1) p = true := by
  intro n
  induction n with
  | zero => intro p h; simp [depth_le] at h
  | succ n ih =>
    intro p h
    rw [depth_le, List.all_eq_true] at h ⊢
    intro c hc
    exact ih c (h c hc)

theorem depth_le_child (opendir : String → Option (List dirent)) (D : Nat) (p c : String)
    (h : depth_le opendir D p = true) (hc : c ∈ dir_children opendir p) :
    depth_le opendir D c = true := by
  cases D with
  | zero => simp [depth_le] at h
  | succ n =>
    rw [depth_le, List.all_eq_true] at h
    exact depth_le_succ opendir n c (h c hc)

theorem reachable_dirs_succ (opendir : String → Option (List dirent)) :
    ∀ (n : Nat) (p : String), depth_le opendir n p = true →
      reachable_dirs opendir (n + 1) p = reachable_dirs opendir n p := by
  intro n
  induction n with
  | zero => intro p h; simp [depth_le] at h
  | succ n ih =>
    intro p h
    rw [depth_le, List.all_eq_true] at h
    simp only [reachable_dirs]
    congr 1
    have : ∀ l : List String, (∀ c ∈ l, depth_le opendir n c = true) →
        l.flatMap (reachable_dirs opendir (n + 1)) = l.flatMap (reachable_dirs opendir n) := by
      intro l
      induction l with
      | nil => intro _; rfl
      | cons c rest ihl =>
        intro hl
        rw [List.flatMap_cons, List.flatMap_cons, ih c (hl c (by simp)),
          ihl (fun d hd => hl d (by simp [hd]))]
    exact this _ h

theorem process_directory_pending (opendir : String → Option (List dirent)) (D : Nat)
    (p : String) (h : depth_le opendir D p = true) :
    ((process_directory opendir p).map (Effect.pending opendir D)).sum =
      (reachable_dirs opendir D p : Multiset String) := by
  cases D with
  | zero => simp [depth_le] at h
  | succ n =>
    rw [depth_le, List.all_eq_true] at h
    rw [reachable_dirs, ← Multiset.cons_coe, coe_flatMap_sum]
    have hsum : ∀ l : List String, (∀ c ∈ l, depth_le opendir n c = true) →
        (l.map fun c => Effect.pending opendir (n + 1) (Effect.enqueue c)).sum =
          (l.map fun c => (reachable_dirs opendir n c : Multiset String)).sum := by
      intro l
      induction l with
      | nil => intro _; rfl
      | cons c rest ihl =>
        intro hl
        rw [List.map_cons, List.map_cons, List.sum_cons, List.sum_cons,
          ihl (fun d hd => hl d (by simp [hd]))]
        simp only [Effect.pending]
        rw [reachable_dirs_succ opendir n c (hl c (by simp))]
    rw [← hsum _ h]
    unfold process_directory dir_children
    cases opendir p with
    | none => simp [Effect.pending]
    | some entries =>
      simp only [List.map_cons, List.sum_cons, Effect.pending, readdir_loop_eq, List.map_map]
      rw [Multiset.singleton_add]
      rfl

theorem Reach.trans {opendir : String → Option (List dirent)} {R p c : String}
    (h1 : Reach opendir R p) (h2 : Reach opendir p c) : Reach opendir R c := by
  induction h2 with
  | root => exact h1
  | child _ hc ih => exact Reach.child ih hc

theorem reach_of_mem_reachable_dirs (opendir : String → Option (List dirent)) :
    ∀ (n : Nat) (R p : String), p ∈ reachable_dirs opendir n R → Reach opendir R p := by
  intro n
  induction n with
  | zero => intro R p h; simp [reachable_dirs] at h
  | succ n ih =>
    intro R p h
    rw [reachable_dirs, List.mem_cons, List.mem_flatMap] at h
    rcases h with rfl | ⟨c, hc, hp⟩
    · exact Reach.root
    · exact Reach.trans (Reach.child Reach.root hc) (ih c p hp)

theorem mem_reachable_dirs_self (opendir : String → Option (List dirent)) (n : Nat)
    (p : String) (h : depth_le opendir n p = true) : p ∈ reachable_dirs opendir n p := by
  cases n with
  | zero => simp [depth_le] at h
  | succ n => simp [reachable_dirs]

theorem mem_reachable_dirs_child (opendir : String → Option (List dirent)) :
    ∀ (n : Nat) (R p c : String), depth_le opendir n R = true →
      p ∈ reachable_dirs opendir n R → c ∈ dir_children opendir p →
      c ∈ reachable_dirs opendir n R := by
  intro n
  induction n with
  | zero => intro R p c h; simp [depth_le] at h
  | succ n ih =>
    intro R p c h hp hc
    rw [depth_le, List.all_eq_true] at h
    rw [reachable_dirs, List.mem_cons, List.mem_flatMap] at hp ⊢
    right
    rcases hp with rfl | ⟨d, hd, hp⟩
    · exact ⟨c, hc, mem_reachable_dirs_self opendir n c (h c hc)⟩
    · exact ⟨d, hd, ih d p c (h d hd) hp hc⟩

theorem mem_reachable_dirs_iff (opendir : String → Option (List dirent)) (D : Nat)
    (R p : String) (h : depth_le opendir D R = true) :
    p ∈ reachable_dirs opendir D R ↔ Reach opendir R p := by
  constructor
  · exact reach_of_mem_reachable_dirs opendir D R p
  · intro hr
    induction hr with
    | root => exact mem_reachable_dirs_self opendir D R h
    | child _ hc ih => exact mem_reachable_dirs_child opendir D R _ _ h ih hc

/-! ## Lemmas on the thread table -/

theorem sum_map_set {α M : Type} [AddCommMonoid M] (f : α → M) :
    ∀ (l : List α) (i : Nat) (x y : α), l[i]? = some x →
      ((l.set i y).map f).sum + f x = (l.map f).sum + f y := by
  intro l
  induction l with
  | nil => intro i x y h; simp at h
  | cons a rest ih =>
    intro i x y h
    cases i with
    | zero =>
      simp only [List.getElem?_cons_zero, Option.some.injEq] at h
      subst h
      simp only [List.set_cons_zero, List.map_cons, List.sum_cons]
      abel
    | succ i =>
      simp only [List.getElem?_cons_succ] at h
      simp only [List.set_cons_succ, List.map_cons, List.sum_cons]
      rw [add_assoc, ih i x y h, add_assoc]

theorem in_flight_eq_sum (ws : List Worker) :
    in_flight ws = (ws.map fun w => if w = Worker.idle then 0 else 1).sum := by
  induction ws with
  | nil => rfl
  | cons w rest ih =>
    unfold in_flight at ih ⊢
    by_cases hw : w = Worker.idle
    · rw [List.filter_cons_of_neg (by simp [hw]), ih]
      simp [hw]
    · rw [List.filter_cons_of_pos (by simp [hw]), List.length_cons, ih]
      simp [hw]
      omega

theorem in_flight_set (ws : List Worker) (i : Nat) (x y : Worker) (h : ws[i]? = some x) :
    in_flight (ws.set i y) + (if x = Worker.idle then 0 else 1) =
      in_flight ws + (if y = Worker.idle then 0 else 1) := by
  rw [in_flight_eq_sum, in_flight_eq_sum]
  exact sum_map_set (fun w => if w = Worker.idle then 0 else 1) ws i x y h

theorem in_flight_append_idle (ws : List Worker) :
    in_flight (ws ++ [Worker.idle]) = in_flight ws := by
  simp [in_flight]

/-! ## The invariant -/

theorem Sys.enqueue_spec {s s1 : Sys} {nodes : List (Nat × Option String)} {c : String}
    {a : Nat} (h : s.q.Holds nodes) (hs : s.enqueue c a = some s1) :
    ∃ q1, s1 = { s with q := q1, calls := s.calls ++ [.enqueue c] } ∧
      q1.Holds (nodes ++ [(a, some c)]) ∧ q1.queue_length = s.q.queue_length + 1 := by
  unfold Sys.enqueue at hs
  split at hs
  · cases hs
  · rename_i hfree
    have ha : s.q.heap a = none := by
      cases hq : s.q.heap a with
      | none => rfl
      | some n => simp [hq] at hfree
    obtain ⟨q1, he, hh, hl⟩ := enqueue_holds h c a ha
    rw [he] at hs
    simp only [Option.map_some', Option.some.injEq] at hs
    exact ⟨q1, hs.symm, hh, hl⟩

theorem enqueue_calls_append (cs : List Call) (c : Call) :
    enqueue_calls (cs ++ [c]) =
      enqueue_calls cs + (match c with | .enqueue _ => 1 | _ => 0) := by
  unfold enqueue_calls
  rw [List.filter_append, List.length_append]
  cases c <;> simp

theorem queue_processed_calls_append (cs : List Call) (c : Call) :
    queue_processed_calls (cs ++ [c]) =
      queue_processed_calls cs + (if c = .queue_processed then 1 else 0) := by
  unfold queue_processed_calls
  rw [List.filter_append, List.length_append]
  by_cases h : c = .queue_processed <;> simp [h]

theorem no_null_append {cs : List Call} {c : Call} (h : Call.dequeue none ∉ cs)
    (hc : c ≠ Call.dequeue none) : Call.dequeue none ∉ cs ++ [c] := by
  simp only [List.mem_append, List.mem_singleton, not_or]
  exact ⟨h, fun e => hc e.symm⟩

theorem Inv.init (cfg : Config) (D : Nat) : Inv cfg D Sys.init [] where
  returned := by intro _; rfl
  no_null := by simp [Sys.init]
  holds := by decide
  live := by decide
  conserve := by decide
  visited := by intro _; simp [Sys.init, Sys.pending]
  fits_queue := by intro _ n hn; cases hn
  fits_todo := by intro _ p todo c hw; simp [Sys.init] at hw

theorem main_step_inv {cfg : Config} {D : Nat} {s s1 : Sys} {nodes : List (Nat × String)}
    {a : Nat} (h : Inv cfg D s nodes) (hs : main_step cfg s a = some s1) :
    ∃ nodes1, Inv cfg D s1 nodes1 := by
  unfold main_step at hs
  split at hs
  · rename_i hmain
    cases he : s.enqueue cfg.root a with
    | none => rw [he] at hs; cases hs
    | some s2 =>
      rw [he] at hs
      simp only [Option.map_some', Option.some.injEq] at hs
      obtain ⟨q1, hs2, hh, hl⟩ := Sys.enqueue_spec h.holds he
      subst hs2
      subst hs
      refine ⟨nodes ++ [(a, cfg.root)], ?_⟩
      constructor
      · (intro hr; cases hr)
      · exact no_null_append h.no_null (by simp)
      · simpa using hh
      · simp only [hl, h.live, List.length_append, List.length_singleton]
        push_cast
        ring
      · simp only [hl, h.conserve, enqueue_calls_append, queue_processed_calls_append]
        simp
        ring
      · intro hd
        have hv := h.visited hd
        simp only [Sys.pending, hmain, if_true] at hv
        simp only [Sys.pending, List.map_append, List.sum_append, List.map_cons, List.map_nil,
          List.sum_cons, List.sum_nil, add_zero]
        rw [if_neg (by simp)]
        refine Eq.trans ?_ hv
        abel
      · intro hd n hn
        rw [List.mem_append, List.mem_singleton] at hn
        rcases hn with hn | rfl
        · exact h.fits_queue hd n hn
        · exact hd
      · exact h.fits_todo
  · rename_i i hmain
    split at hs
    · cases hs
      refine ⟨nodes, ?_⟩
      constructor
      · (intro hr; cases hr)
      · exact h.no_null
      · exact h.holds
      · simp only [in_flight_append_idle]
        exact h.live
      · exact h.conserve
      · intro hd
        have hv := h.visited hd
        simp only [Sys.pending, hmain] at hv
        simp only [Sys.pending, List.map_append, List.sum_append, List.map_cons, List.map_nil,
          List.sum_cons, List.sum_nil, Worker.pending]
        rw [if_neg (by simp)] at hv ⊢
        refine Eq.trans ?_ hv
        abel
      · exact h.fits_queue
      · intro hd p todo c hw
        rw [List.mem_append, List.mem_singleton] at hw
        rcases hw with hw | hw
        · exact h.fits_todo hd p todo c hw
        · cases hw
    · cases hs
      refine ⟨nodes, ?_⟩
      constructor
      · (intro hr; cases hr)
      · exact h.no_null
      · exact h.holds
      · exact h.live
      · exact h.conserve
      · intro hd
        have hv := h.visited hd
        simp only [Sys.pending, hmain] at hv
        simp only [Sys.pending]
        rw [if_neg (by simp)] at hv ⊢
        exact hv
      · exact h.fits_queue
      · exact h.fits_todo
  · rename_i hmain
    split at hs
    · rename_i hpass
      cases hs
      refine ⟨nodes, ?_⟩
      constructor
      · (intro _; simpa [wait_for_all_processed_pass] using hpass)
      · exact h.no_null
      · exact h.holds
      · exact h.live
      · exact h.conserve
      · intro hd
        have hv := h.visited hd
        simp only [Sys.pending, hmain] at hv
        simp only [Sys.pending]
        rw [if_neg (by simp)] at hv ⊢
        exact hv
      · exact h.fits_queue
      · exact h.fits_todo
    · cases hs
      exact ⟨nodes, h⟩
  · cases hs

theorem visited_step {M : Type} [AddCancelCommMonoid M] {O A B C R O1 A1 B1 X Y : M}
    (hv : O + (A + B + C) = R) (hb : B1 + X = B + Y) (hbal : O1 + A1 + Y = O + A + X) :
    O1 + (A1 + B1 + C) = R := by
  apply add_right_cancel (b := X)
  calc O1 + (A1 + B1 + C) + X = (O1 + A1 + C) + (B1 + X) := by abel
    _ = (O1 + A1 + C) + (B + Y) := by rw [hb]
    _ = (O1 + A1 + Y) + (B + C) := by abel
    _ = (O + A + X) + (B + C) := by rw [hbal]
    _ = (O + (A + B + C)) + X := by abel
    _ = R + X := by rw [hv]

theorem fits_todo_set {cfg : Config} {D : Nat} {ws : List Worker} {i : Nat}
    {p : String} {todo todo1 : List Effect}
    (hget : ws[i]? = some (Worker.busy p todo))
    (hsub : ∀ c, Effect.enqueue c ∈ todo1 → Effect.enqueue c ∈ todo)
    (h : ∀ p todo c, Worker.busy p todo ∈ ws → Effect.enqueue c ∈ todo →
      depth_le cfg.opendir D c = true) :
    ∀ p2 todo2 c, Worker.busy p2 todo2 ∈ ws.set i (Worker.busy p todo1) →
      Effect.enqueue c ∈ todo2 → depth_le cfg.opendir D c = true := by
  intro p2 todo2 c hw hc
  rcases List.mem_or_eq_of_mem_set hw with hw | hw
  · exact h p2 todo2 c hw hc
  · cases hw
    exact h p todo c (List.getElem?_mem hget) (hsub c hc)

theorem crawl_step_inv {cfg : Config} {D : Nat} {s s1 : Sys} {nodes : List (Nat × String)}
    {i a : Nat} (h : Inv cfg D s nodes) (hmain : s.main ≠ .returned)
    (hs : crawl_step cfg s i a = some s1) :
    ∃ nodes1, Inv cfg D s1 nodes1 := by
  unfold crawl_step at hs
  cases hget : s.workers[i]? with
  | none => rw [hget] at hs; cases hs
  | some w =>
    rw [hget] at hs
    cases w with
    | idle =>
      simp only at hs
      cases nodes with
      | nil =>
        have hhead : s.q.queue_head = none := h.holds.head_none_iff.mpr rfl
        have hb : dequeue s.q = .blocks := by simp [dequeue, hhead]
        rw [hb] at hs
        cases hs
        exact ⟨[], h⟩
      | cons n rest =>
        obtain ⟨b, p⟩ := n
        obtain ⟨q1, hdeq, hh, hl⟩ := dequeue_holds (h.holds)
        rw [hdeq] at hs
        cases hs
        refine ⟨rest, ?_⟩
        have hset := in_flight_set s.workers i Worker.idle
          (Worker.busy p (process_directory cfg.opendir p)) hget
        constructor
        · intro hr
          exact absurd hr hmain
        · exact no_null_append h.no_null (by simp)
        · exact hh
        · simp only [hl, h.live, List.length_cons]
          simp only [if_true, add_zero] at hset
          rw [hset]
          simp
          ring
        · simp only [hl, h.conserve, enqueue_calls_append, queue_processed_calls_append]
          simp
        · intro hd
          have hv := h.visited hd
          have hp : depth_le cfg.opendir D p = true := h.fits_queue hd (b, p) (by simp)
          have hsum := sum_map_set (Worker.pending cfg.opendir D) s.workers i Worker.idle
            (Worker.busy p (process_directory cfg.opendir p)) hget
          simp only [Sys.pending, List.map_cons, List.sum_cons] at hv ⊢
          refine visited_step hv hsum ?_
          simp only [Worker.pending, process_directory_pending cfg.opendir D p hp]
          abel
        · intro hd n hn
          exact h.fits_queue hd n (List.mem_cons_of_mem _ hn)
        · intro hd p2 todo2 c hw hc
          rcases List.mem_or_eq_of_mem_set hw with hw | hw
          · exact h.fits_todo hd p2 todo2 c hw hc
          · cases hw
            have hp : depth_le cfg.opendir D p = true := h.fits_queue hd (b, p) (by simp)
            exact depth_le_child cfg.opendir D p c hp
              ((enqueue_mem_process_directory cfg.opendir p c).mp hc)
    | busy p todo =>
      cases todo with
      | nil =>
        simp only at hs
        cases hs
        refine ⟨nodes, ?_⟩
        have hset := in_flight_set s.workers i (Worker.busy p []) Worker.idle hget
        constructor
        · intro hr
          exact absurd hr hmain
        · exact no_null_append h.no_null (by simp)
        · exact h.holds
        · simp only [queue_processed, h.live]
          simp only [if_true, add_zero] at hset
          rw [if_neg (by simp)] at hset
          rw [← hset]
          push_cast
          ring
        · simp only [queue_processed, h.conserve, enqueue_calls_append,
            queue_processed_calls_append]
          simp
          ring
        · intro hd
          have hv := h.visited hd
          have hsum := sum_map_set (Worker.pending cfg.opendir D) s.workers i
            (Worker.busy p []) Worker.idle hget
          simp only [Sys.pending] at hv ⊢
          refine visited_step hv hsum ?_
          simp only [Worker.pending, List.map_nil, List.sum_nil]
        · exact h.fits_queue
        · intro hd p2 todo2 c hw hc
          rcases List.mem_or_eq_of_mem_set hw with hw | hw
          · exact h.fits_todo hd p2 todo2 c hw hc
          · cases hw
      | cons eff todo =>
        cases eff with
        | stdout l =>
          simp only at hs
          cases hs
          refine ⟨nodes, ?_⟩
          have hset := in_flight_set s.workers i (Worker.busy p (.stdout l :: todo))
            (Worker.busy p todo) hget
          constructor
          · intro hr
            exact absurd hr hmain
          · exact h.no_null
          · exact h.holds
          · simp only [h.live]
            rw [if_neg (by simp), if_neg (by simp)] at hset
            have : in_flight (s.workers.set i (Worker.busy p todo)) = in_flight s.workers := by
              omega
            rw [this]
          · exact h.conserve
          · intro hd
            have hv := h.visited hd
            have hsum := sum_map_set (Worker.pending cfg.opendir D) s.workers i
              (Worker.busy p (.stdout l :: todo)) (Worker.busy p todo) hget
            simp only [Sys.pending] at hv ⊢
            refine visited_step hv hsum ?_
            simp only [Worker.pending, List.map_cons, List.sum_cons, Effect.pending,
              ← Multiset.coe_add]
            rw [show (↑[l] : Multiset String) = {l} from rfl]
            abel
          · exact h.fits_queue
          · intro hd
            exact fits_todo_set hget (fun c hc => List.mem_cons_of_mem _ hc) (h.fits_todo hd)
        | stderr l =>
          simp only at hs
          cases hs
          refine ⟨nodes, ?_⟩
          have hset := in_flight_set s.workers i (Worker.busy p (.stderr l :: todo))
            (Worker.busy p todo) hget
          constructor
          · intro hr
            exact absurd hr hmain
          · exact h.no_null
          · exact h.holds
          · simp only [h.live]
            rw [if_neg (by simp), if_neg (by simp)] at hset
            have : in_flight (s.workers.set i (Worker.busy p todo)) = in_flight s.workers := by
              omega
            rw [this]
          · exact h.conserve
          · intro hd
            have hv := h.visited hd
            have hsum := sum_map_set (Worker.pending cfg.opendir D) s.workers i
              (Worker.busy p (.stderr l :: todo)) (Worker.busy p todo) hget
            simp only [Sys.pending] at hv ⊢
            refine visited_step hv hsum ?_
            simp only [Worker.pending, List.map_cons, List.sum_cons, Effect.pending]
            abel
          · exact h.fits_queue
          · intro hd
            exact fits_todo_set hget (fun c hc => List.mem_cons_of_mem _ hc) (h.fits_todo hd)
        | enqueue c =>
          simp only at hs
          cases he : s.enqueue c a with
          | none => rw [he] at hs; cases hs
          | some s2 =>
            rw [he] at hs
            simp only [Option.map_some', Option.some.injEq] at hs
            obtain ⟨q1, hs2, hh, hl⟩ := Sys.enqueue_spec h.holds he
            subst hs2
            subst hs
            refine ⟨nodes ++ [(a, c)], ?_⟩
            have hset := in_flight_set s.workers i (Worker.busy p (.enqueue c :: todo))
              (Worker.busy p todo) hget
            constructor
            · intro hr
              exact absurd hr hmain
            · exact no_null_append h.no_null (by simp)
            · simpa using hh
            · simp only [hl, h.live, List.length_append, List.length_singleton]
              rw [if_neg (by simp), if_neg (by simp)] at hset
              have : in_flight (s.workers.set i (Worker.busy p todo)) = in_flight s.workers := by
                omega
              rw [this]
              push_cast
              ring
            · simp only [hl, h.conserve, enqueue_calls_append, queue_processed_calls_append]
              simp
              ring
            · intro hd
              have hv := h.visited hd
              have hsum := sum_map_set (Worker.pending cfg.opendir D) s.workers i
                (Worker.busy p (.enqueue c :: todo)) (Worker.busy p todo) hget
              simp only [Sys.pending] at hv ⊢
              refine visited_step hv hsum ?_
              simp only [Worker.pending, List.map_cons, List.sum_cons, Effect.pending,
                List.map_append, List.sum_append, List.map_nil, List.sum_nil]
              abel
            · intro hd n hn
              rw [List.mem_append, List.mem_singleton] at hn
              rcases hn with hn | rfl
              · exact h.fits_queue hd n hn
              · exact h.fits_todo hd p (.enqueue c :: todo) c (List.getElem?_mem hget)
                  (by simp)
            · intro hd
              exact fits_todo_set hget (fun c hc => List.mem_cons_of_mem _ hc) (h.fits_todo hd)

theorem step_inv {cfg : Config} {D : Nat} {s s1 : Sys} {nodes : List (Nat × String)}
    {act : Action} (h : Inv cfg D s nodes) (hs : step cfg s act = some s1) :
    ∃ nodes1, Inv cfg D s1 nodes1 := by
  cases act with
  | main a => exact main_step_inv h hs
  | worker i a =>
    simp only [step] at hs
    split at hs
    · cases hs
    · rename_i hmain
      exact crawl_step_inv h hmain hs

theorem run_inv {cfg : Config} {D : Nat} :
    ∀ (sched : List Action) {s s1 : Sys} {nodes : List (Nat × String)},
      Inv cfg D s nodes → run cfg s sched = some s1 → ∃ nodes1, Inv cfg D s1 nodes1 := by
  intro sched
  induction sched with
  | nil =>
    intro s s1 nodes h hs
    simp only [run, Option.some.injEq] at hs
    subst hs
    exact ⟨nodes, h⟩
  | cons act rest ih =>
    intro s s1 nodes h hs
    simp only [run] at hs
    cases hstep : step cfg s act with
    | none => rw [hstep] at hs; cases hs
    | some s2 =>
      rw [hstep] at hs
      obtain ⟨nodes2, h2⟩ := step_inv h hstep
      exact ih h2 hs

theorem reachable_inv {cfg : Config} {s : Sys} (D : Nat) (h : Reachable cfg s) :
    ∃ nodes, Inv cfg D s nodes := by
  obtain ⟨sched, hs⟩ := h
  exact run_inv sched (Inv.init cfg D) hs

/-! ## Drained states -/

theorem in_flight_eq_zero {ws : List Worker} (h : in_flight ws = 0) :
    ∀ w ∈ ws, w = Worker.idle := by
  intro w hw
  by_contra hne
  have : w ∈ ws.filter fun w => decide (w ≠ Worker.idle) := by
    rw [List.mem_filter]
    exact ⟨hw, by simpa using hne⟩
  unfold in_flight at h
  rw [List.length_eq_zero] at h
  rw [h] at this
  cases this

theorem pending_all_idle (opendir : String → Option (List dirent)) (D : Nat)
    {ws : List Worker} (h : ∀ w ∈ ws, w = Worker.idle) :
    (ws.map (Worker.pending opendir D)).sum = 0 := by
  induction ws with
  | nil => rfl
  | cons w rest ih =>
    rw [List.map_cons, List.sum_cons, ih (fun x hx => h x (List.mem_cons_of_mem _ hx)),
      h w (by simp)]
    rfl

theorem Inv.drained {cfg : Config} {D : Nat} {s : Sys} {nodes : List (Nat × String)}
    (h : Inv cfg D s nodes) (h0 : s.q.queue_length = 0) :
    nodes = [] ∧ ∀ w ∈ s.workers, w = Worker.idle := by
  have hl := h.live
  rw [h0] at hl
  have h1 : nodes.length = 0 := by omega
  have h2 : in_flight s.workers = 0 := by omega
  exact ⟨List.length_eq_zero.mp h1, in_flight_eq_zero h2⟩

/-! ## Sequences of queue operations -/

theorem run_ops_fifo :
    ∀ (ops : List QueueOp) (q q1 : Queue) (nodes : List (Nat × Option String))
      (outs : List (Option String)),
      q.Holds nodes → run_ops q ops = some (q1, outs) →
      ∃ nodes1, q1.Holds nodes1 ∧
        outs ++ nodes1.map Prod.snd = nodes.map Prod.snd ++ enqueued ops := by
  intro ops
  induction ops with
  | nil =>
    intro q q1 nodes outs h hr
    simp only [run_ops, Option.some.injEq, Prod.mk.injEq] at hr
    obtain ⟨rfl, rfl⟩ := hr
    exact ⟨nodes, h, by simp [enqueued]⟩
  | cons op rest ih =>
    intro q q1 nodes outs h hr
    cases op with
    | enqueue path a =>
      simp only [run_ops] at hr
      split at hr
      · cases hr
      · rename_i hfree
        have ha : q.heap a = none := by
          cases hq : q.heap a with
          | none => rfl
          | some n => simp [hq] at hfree
        cases path with
        | none => simp [enqueue] at hr
        | some p =>
          obtain ⟨q2, he, hh, _⟩ := enqueue_holds h p a ha
          rw [he] at hr
          simp only [Option.some_bind] at hr
          obtain ⟨nodes1, h1, heq⟩ := ih q2 q1 _ outs hh hr
          refine ⟨nodes1, h1, ?_⟩
          rw [heq]
          simp [enqueued]
    | dequeue =>
      simp only [run_ops] at hr
      cases nodes with
      | nil =>
        have hhead : q.queue_head = none := h.head_none_iff.mpr rfl
        have hb : dequeue q = .blocks := by simp [dequeue, hhead]
        rw [hb] at hr
        cases hr
      | cons n nodes2 =>
        obtain ⟨b, s⟩ := n
        obtain ⟨q2, hd, hh, _⟩ := dequeue_holds h
        rw [hd] at hr
        simp only [Option.map_eq_some'] at hr
        obtain ⟨⟨q3, outs3⟩, hr3, heq3⟩ := hr
        simp only [Prod.mk.injEq] at heq3
        obtain ⟨rfl, rfl⟩ := heq3
        obtain ⟨nodes1, h1, heq⟩ := ih q2 q3 nodes2 outs3 hh hr3
        refine ⟨nodes1, h1, ?_⟩
        simp only [List.cons_append, List.map_cons, enqueued]
        rw [heq]

/-! ## Distinct directories have distinct paths -/

theorem data_eq_cstr_append (p : String) :
    ∃ r, p.data = cstr p.data ++ r ∧ (r = [] ∨ ∃ r1, r = NUL :: r1) := by
  refine ⟨p.data.dropWhile (fun c => c != NUL), ?_, ?_⟩
  · exact (List.takeWhile_append_dropWhile _ _).symm
  · cases h : p.data.dropWhile (fun c => c != NUL) with
    | nil => exact Or.inl rfl
    | cons c r1 =>
      right
      have hc := List.head_dropWhile_not (fun c => c != NUL) p.data (by simp [h])
      simp only [h, List.head_cons] at hc
      refine ⟨r1, ?_⟩
      have : c = NUL := by simpa using hc
      rw [this]

theorem join_path_data (p name : String) (hn : NUL ∉ name.data) :
    (join_path p name).data = cstr p.data ++ '/' :: name.data := by
  rw [join_path_eq, cstr_of_no_nul name.data (fun c hc h => hn (h ▸ hc))]

theorem join_path_no_nul (p name : String) : ∀ c ∈ (join_path p name).data, c ≠ NUL := by
  intro c hc
  rw [join_path_eq] at hc
  simp only [List.mem_append, List.mem_cons] at hc
  rcases hc with hc | rfl | hc
  · exact cstr_no_nul _ c hc
  · decide
  · exact cstr_no_nul _ c hc

/-- Every directory under `c` has a path that is `c` or continues `c` with a
separator. -/
theorem reachable_dirs_extend (opendir : String → Option (List dirent))
    (hnames : well_named opendir) :
    ∀ (n : Nat) (c x : String), x ∈ reachable_dirs opendir n c →
      x = c ∨ ∃ t, x.data = cstr c.data ++ '/' :: t := by
  intro n
  induction n with
  | zero => intro c x h; simp [reachable_dirs] at h
  | succ n ih =>
    intro c x h
    rw [reachable_dirs, List.mem_cons, List.mem_flatMap] at h
    rcases h with h | ⟨d, hd, hx⟩
    · exact Or.inl h
    · right
      unfold dir_children at hd
      cases hop : opendir c with
      | none => rw [hop] at hd; cases hd
      | some entries =>
        rw [hop] at hd
        simp only [List.mem_map] at hd
        obtain ⟨e, he, rfl⟩ := hd
        have hnul := ((hnames c entries hop).2 e he).2
        have hdata := join_path_data c e.d_name hnul
        rcases ih _ x hx with rfl | ⟨t, ht⟩
        · exact ⟨e.d_name.data, hdata⟩
        · refine ⟨e.d_name.data ++ '/' :: t, ?_⟩
          rw [ht, cstr_of_no_nul _ (join_path_no_nul c e.d_name), hdata]
          simp

theorem name_eq_of_append_eq :
    ∀ (l1 l2 t1 t2 : List Char), '/' ∉ l1 → '/' ∉ l2 →
      (t1 = [] ∨ ∃ r, t1 = '/' :: r) → (t2 = [] ∨ ∃ r, t2 = '/' :: r) →
      l1 ++ t1 = l2 ++ t2 → l1 = l2 := by
  intro l1
  induction l1 with
  | nil =>
    intro l2 t1 t2 _ h2 ht1 _ heq
    cases l2 with
    | nil => rfl
    | cons b l2 =>
      rcases ht1 with rfl | ⟨r, rfl⟩
      · simp at heq
      · simp only [List.nil_append, List.cons_append, List.cons.injEq] at heq
        exact absurd (heq.1 ▸ List.mem_cons_self b l2) h2
  | cons a l1 ih =>
    intro l2 t1 t2 h1 h2 ht1 ht2 heq
    cases l2 with
    | nil =>
      rcases ht2 with rfl | ⟨r, rfl⟩
      · simp at heq
      · simp only [List.nil_append, List.cons_append, List.cons.injEq] at heq
        exact absurd (heq.1 ▸ List.mem_cons_self a l1) h1
    | cons b l2 =>
      simp only [List.cons_append, List.cons.injEq] at heq
      rw [heq.1, ih l2 t1 t2 (fun h => h1 (List.mem_cons_of_mem _ h))
        (fun h => h2 (List.mem_cons_of_mem _ h)) ht1 ht2 heq.2]

theorem reachable_dirs_nodup (opendir : String → Option (List dirent))
    (hnames : well_named opendir) :
    ∀ (n : Nat) (p : String), (reachable_dirs opendir n p).Nodup := by
  intro n
  induction n with
  | zero => intro p; simp [reachable_dirs]
  | succ n ih =>
    intro p
    rw [reachable_dirs, List.nodup_cons, List.nodup_flatMap]
    refine ⟨?_, fun c _ => ih c, ?_⟩
    · intro hp
      rw [List.mem_flatMap] at hp
      obtain ⟨c, hc, hpc⟩ := hp
      unfold dir_children at hc
      cases hop : opendir p with
      | none => rw [hop] at hc; cases hc
      | some entries =>
        rw [hop] at hc
        simp only [List.mem_map] at hc
        obtain ⟨e, he, rfl⟩ := hc
        have hnul := ((hnames p entries hop).2 e he).2
        have hdata := join_path_data p e.d_name hnul
        obtain ⟨r, hr, hr2⟩ := data_eq_cstr_append p
        have hlong : ∃ t, p.data = cstr p.data ++ '/' :: t := by
          rcases reachable_dirs_extend opendir hnames n _ p hpc with h | ⟨t, ht⟩
          · exact ⟨e.d_name.data, by rw [← hdata, ← h]⟩
          · refine ⟨e.d_name.data ++ '/' :: t, ?_⟩
            rw [cstr_of_no_nul _ (join_path_no_nul p e.d_name), hdata] at ht
            exact ht.trans (by simp)
        obtain ⟨t, ht⟩ := hlong
        have hrt : r = '/' :: t := List.append_cancel_left (hr.symm.trans ht)
        rcases hr2 with h | ⟨r1, h⟩
        · rw [h] at hrt; cases hrt
        · rw [h] at hrt
          have : NUL = '/' := (List.cons.inj hrt).1
          exact absurd this (by decide)
    · unfold dir_children
      cases hop : opendir p with
      | none => exact List.Pairwise.nil
      | some entries =>
        obtain ⟨hnd, hwf⟩ := hnames p entries hop
        simp only []
        rw [List.pairwise_map]
        have hpw : (entries.filter is_subdir).Pairwise (fun e1 e2 => e1.d_name ≠ e2.d_name) := by
          have := hnd
          unfold List.Nodup at this
          rwa [List.pairwise_map] at this
        refine hpw.imp_of_mem ?_
        intro e1 e2 he1 he2 hne
        rw [Function.onFun, List.disjoint_left]
        intro x hx1 hx2
        have hd1 := join_path_data p e1.d_name (hwf e1 he1).2
        have hd2 := join_path_data p e2.d_name (hwf e2 he2).2
        have hform : ∀ (e : dirent), NUL ∉ e.d_name.data →
            x ∈ reachable_dirs opendir n (join_path p e.d_name) →
            ∃ t, x.data = cstr p.data ++ '/' :: (e.d_name.data ++ t) ∧
              (t = [] ∨ ∃ r, t = '/' :: r) := by
          intro e hnul hx
          have hd := join_path_data p e.d_name hnul
          rcases reachable_dirs_extend opendir hnames n _ x hx with h | ⟨t, ht⟩
          · exact ⟨[], by rw [h, hd]; simp, Or.inl rfl⟩
          · refine ⟨'/' :: t, ?_, Or.inr ⟨t, rfl⟩⟩
            rw [ht, cstr_of_no_nul _ (join_path_no_nul p e.d_name), hd]
            simp
        obtain ⟨t1, h1, ht1⟩ := hform e1 (hwf e1 he1).2 hx1
        obtain ⟨t2, h2, ht2⟩ := hform e2 (hwf e2 he2).2 hx2
        have heq : e1.d_name.data ++ t1 = e2.d_name.data ++ t2 := by
          have := h1.symm.trans h2
          exact List.cons.inj (List.append_cancel_left this) |>.2
        have := name_eq_of_append_eq _ _ t1 t2 (hwf e1 he1).1 (hwf e2 he2).1 ht1 ht2 heq
        exact hne (String.ext this)

/-! ## Completeness of the crawl -/

/-- C1. Completeness: for a file system whose tree under `root` has at most `D`
levels (a finite tree) in which no directory is reached twice, for every pool
size and every schedule, in every reachable state in which the root has been
seeded and `queue_length` is zero, the lines on the visited stream are, as a
multiset, exactly the directories reachable from the root through
directory-typed entries: each one is printed once and nothing else is printed.
The right-hand side does not mention the pool size, so the visited multiset is
the same for pools of 1, 4 and 64 threads. Symbolic links are entries of another
type and are not followed; that every directory can be opened is not needed.
No directory is reached twice whenever the names in each listing are distinct
and free of separators (`reachable_dirs_nodup`). -/
theorem crawl_visits_each_directory_once (opendir : String → Option (List dirent))
    (root : String) (pool D : Nat)
    (hfinite : depth_le opendir D root = true)
    (htree : (reachable_dirs opendir D root).Nodup)
    (s : Sys) (hreach : Reachable { opendir := opendir, root := root, pool := pool } s)
    (hseeded : s.main ≠ .start) (hdrained : s.q.queue_length = 0) :
    (s.out : Multiset String) = (reachable_dirs opendir D root : Multiset String) ∧
      (∀ p, Reach opendir root p → s.out.count p = 1) ∧
      (∀ p, ¬ Reach opendir root p → s.out.count p = 0) := by
  obtain ⟨nodes, hinv⟩ := reachable_inv D hreach
  obtain ⟨hnil, hidle⟩ := hinv.drained hdrained
  have hv := hinv.visited hfinite
  subst hnil
  simp only [Sys.pending, List.map_nil, List.sum_nil, pending_all_idle opendir D hidle,
    if_neg hseeded, add_zero] at hv
  have hperm : s.out.Perm (reachable_dirs opendir D root) := Multiset.coe_eq_coe.mp hv
  refine ⟨hv, ?_, ?_⟩
  · intro p hp
    rw [hperm.count_eq]
    exact List.count_eq_one_of_mem htree
      ((mem_reachable_dirs_iff opendir D root p hfinite).mpr hp)
  · intro p hp
    rw [hperm.count_eq]
    exact List.count_eq_zero_of_not_mem
      (fun hm => hp ((mem_reachable_dirs_iff opendir D root p hfinite).mp hm))

/-- Scenario A under C1: after `schedule_A` with a pool of four the live count
is zero and the visited lines are the root, `b`, `d` and `c`, once each. -/
theorem scenario_A_visits_four_directories :
    final_A.q.queue_length = 0 ∧
      (final_A.out : Multiset String) =
        (["/tmp/testA", "/tmp/testA/b", "/tmp/testA/b/d", "/tmp/testA/c"] : List String) :=
  ⟨by decide,
    (crawl_visits_each_directory_once opendir_A "/tmp/testA" 4 3 (by decide) (by decide)
      final_A ⟨schedule_A, rfl⟩ (by decide) (by decide)).1⟩

/-! ## The live count -/

/-- C2. Live-count invariant: in every reachable state `queue_length` is not
negative and equals the number of nodes linked in the queue plus the number of
threads that hold an item not yet acknowledged with `queue_processed`. -/
theorem live_count_invariant (cfg : Config) (s : Sys) (hreach : Reachable cfg s) :
    0 ≤ s.q.queue_length ∧
      ∃ nodes, s.q.Holds nodes ∧
        s.q.queue_length = (nodes.length : Int) + (in_flight s.workers : Int) := by
  obtain ⟨nodes, hinv⟩ := reachable_inv 0 hreach
  refine ⟨?_, nodes.map (fun n => (n.1, some n.2)), hinv.holds, ?_⟩
  · rw [hinv.live]
    omega
  · rw [hinv.live, List.length_map]

/-- C2 on Scenario A, thirteen steps into `schedule_A`: one linked node, two
items held, live count three. -/
theorem live_count_scenario_A :
    0 ≤ mid_A.q.queue_length ∧
      ∃ nodes, mid_A.q.Holds nodes ∧
        mid_A.q.queue_length = (nodes.length : Int) + (in_flight mid_A.workers : Int) :=
  live_count_invariant config_A mid_A ⟨schedule_A_mid, rfl⟩

/-- C3. Drain soundness: in every reachable state with `queue_length == 0` the
queue is empty (`queue_head` and `queue_tail` are `NULL`) and no thread holds an
item. -/
theorem drained_queue_is_empty_and_idle (cfg : Config) (s : Sys) (hreach : Reachable cfg s)
    (hzero : s.q.queue_length = 0) :
    s.q.queue_head = none ∧ s.q.queue_tail = none ∧ ∀ w ∈ s.workers, w = Worker.idle := by
  obtain ⟨nodes, hinv⟩ := reachable_inv 0 hreach
  obtain ⟨hnil, hidle⟩ := hinv.drained hzero
  subst hnil
  have hh := hinv.holds
  exact ⟨hh.head_none_iff.mpr rfl, by simpa using hh.2.1, hidle⟩

/-- C3 on Scenario A: the state after `schedule_A`. -/
theorem drained_scenario_A :
    final_A.q.queue_head = none ∧ final_A.q.queue_tail = none ∧
      ∀ w ∈ final_A.workers, w = Worker.idle :=
  drained_queue_is_empty_and_idle config_A final_A ⟨schedule_A, rfl⟩ (by decide)

/-- C4. Conservation: in every reachable state `queue_length` is the number of
`enqueue` calls minus the number of `queue_processed` calls, and in a state in
which `wait_for_all_processed` has returned the two numbers are equal and
`queue_length` is zero. -/
theorem conservation (cfg : Config) (s : Sys) (hreach : Reachable cfg s) :
    s.q.queue_length =
        (enqueue_calls s.calls : Int) - (queue_processed_calls s.calls : Int) ∧
      (s.main = .returned →
        enqueue_calls s.calls = queue_processed_calls s.calls ∧ s.q.queue_length = 0) := by
  obtain ⟨nodes, hinv⟩ := reachable_inv 0 hreach
  refine ⟨hinv.conserve, fun hret => ?_⟩
  have h0 := hinv.returned hret
  have hc := hinv.conserve
  rw [h0] at hc
  exact ⟨by omega, h0⟩

/-- C4 on Scenario A: `main` has returned after `schedule_A`, with four calls of
each kind. -/
theorem conservation_scenario_A :
    final_A.main = .returned ∧ enqueue_calls final_A.calls = 4 ∧
      (final_A.q.queue_length =
          (enqueue_calls final_A.calls : Int) - (queue_processed_calls final_A.calls : Int) ∧
        (final_A.main = .returned →
          enqueue_calls final_A.calls = queue_processed_calls final_A.calls ∧
            final_A.q.queue_length = 0)) :=
  ⟨by decide, by decide, conservation config_A final_A ⟨schedule_A, rfl⟩⟩

/-! ## The queue operations -/

/-- C5. FIFO: for every sequence of `enqueue` and non-blocked `dequeue` calls
from the empty queue, the paths returned by `dequeue` are, in order, the first
paths passed to `enqueue` (the k-th returned is the k-th enqueued), and the
queue is well formed and holds the remaining enqueued paths in enqueue order. -/
theorem queue_is_fifo (ops : List QueueOp) (q : Queue) (outs : List (Option String))
    (hrun : run_ops Queue.init ops = some (q, outs)) :
    outs = (enqueued ops).take outs.length ∧
      ∃ nodes, q.Holds nodes ∧ nodes.map Prod.snd = (enqueued ops).drop outs.length := by
  obtain ⟨nodes, hh, heq⟩ := run_ops_fifo ops Queue.init q [] outs Queue.init_holds hrun
  simp only [List.map_nil, List.nil_append] at heq
  refine ⟨?_, nodes, hh, ?_⟩
  · rw [← heq, List.take_left']
    rfl
  · rw [← heq, List.drop_left']
    rfl

/-- C5 on `ops_example`: the two `dequeue`s return `/usr` and `/usr/bin`, and
`/usr/lib` stays in the queue. -/
theorem queue_is_fifo_example :
    [some "/usr", some "/usr/bin"] = (enqueued ops_example).take 2 ∧
      ∃ nodes, queue_after_ops_example.Holds nodes ∧
        nodes.map Prod.snd = (enqueued ops_example).drop 2 :=
  queue_is_fifo ops_example queue_after_ops_example [some "/usr", some "/usr/bin"] rfl

/-- C6. `enqueue` postcondition: on a well-formed queue holding `nodes`,
whatever the length of `nodes`, with a live count `n` in the range of `int` and
below `INT_MAX`, `enqueue(p)` with a non-`NULL` path and a fresh node from
`malloc` returns, and leaves a well-formed queue that holds `nodes` followed by
the new node with path `p`, with live count `n + 1`, which an `int` holds. -/
theorem enqueue_appends_at_tail (q : Queue) (nodes : List (Nat × Option String))
    (p : String) (a : Nat) (hwf : q.Holds nodes) (hfresh : q.heap a = none)
    (hrange : INT_MIN ≤ q.queue_length ∧ q.queue_length < INT_MAX) :
    ∃ q1, enqueue (some p) (some a) q = some q1 ∧
      q1.Holds (nodes ++ [(a, some p)]) ∧ q1.queue_length = q.queue_length + 1 ∧
      INT_MIN ≤ q1.queue_length ∧ q1.queue_length ≤ INT_MAX := by
  obtain ⟨q1, he, hh, hl⟩ := enqueue_holds hwf p a hfresh
  refine ⟨q1, he, hh, hl, ?_, ?_⟩
  · rw [hl]
    have := hrange.1
    omega
  · rw [hl]
    have := hrange.2
    omega

/-- C6 on the seeded queue: `enqueue("/usr/bin")` with the node at address 2. -/
theorem enqueue_appends_at_tail_example :
    ∃ q1, enqueue (some "/usr/bin") (some 2) queue_seeded = some q1 ∧
      q1.Holds ([(1, some "/usr")] ++ [(2, some "/usr/bin")]) ∧
      q1.queue_length = queue_seeded.queue_length + 1 ∧
      INT_MIN ≤ q1.queue_length ∧ q1.queue_length ≤ INT_MAX :=
  enqueue_appends_at_tail queue_seeded [(1, some "/usr")] "/usr/bin" 2 (by decide) (by decide)
    (by decide)

/-- C7. `dequeue` never yields a missing result: in every reachable state, if
the queue is empty `dequeue` blocks and the step of a thread waiting in it
leaves the state as it is; if the queue is not empty `dequeue` returns a
non-`NULL` path; whenever it returns, the path is not `NULL`; and no completed
`dequeue` call has returned `NULL`, so the `path == NULL` branch of `crawl` has
never been taken. -/
theorem dequeue_never_returns_null (cfg : Config) (s : Sys) (hreach : Reachable cfg s) :
    (s.q.queue_head = none →
        dequeue s.q = .blocks ∧
          ∀ i a, s.main ≠ .returned → s.workers[i]? = some Worker.idle →
            step cfg s (.worker i a) = some s) ∧
      (s.q.queue_head ≠ none → ∃ p q1, dequeue s.q = .returns (some p) q1) ∧
      (∀ path q1, dequeue s.q = .returns path q1 → path ≠ none) ∧
      Call.dequeue none ∉ s.calls := by
  obtain ⟨nodes, hinv⟩ := reachable_inv 0 hreach
  have hne : s.q.queue_head ≠ none → ∃ p q1, dequeue s.q = .returns (some p) q1 := by
    intro hhead
    cases nodes with
    | nil => exact absurd (hinv.holds.head_none_iff.mpr rfl) hhead
    | cons n rest =>
      obtain ⟨q1, hd, _, _⟩ := dequeue_holds hinv.holds
      exact ⟨n.2, q1, hd⟩
  refine ⟨?_, hne, ?_, hinv.no_null⟩
  · intro hhead
    have hb : dequeue s.q = .blocks := by simp [dequeue, hhead]
    refine ⟨hb, ?_⟩
    intro i a hmain hidle
    simp only [step, if_neg hmain, crawl_step, hidle, hb]
  · intro path q1 hd
    by_cases hhead : s.q.queue_head = none
    · simp [dequeue, hhead] at hd
    · obtain ⟨p, q2, hd2⟩ := hne hhead
      rw [hd2] at hd
      cases hd
      simp

/-- C7 on Scenario A, thirteen steps into `schedule_A`: the queue is not empty
and `dequeue` returns a path. -/
theorem dequeue_never_returns_null_scenario_A :
    mid_A.q.queue_head ≠ none ∧ ∃ p q1, dequeue mid_A.q = .returns (some p) q1 :=
  ⟨by decide,
    (dequeue_never_returns_null config_A mid_A ⟨schedule_A_mid, rfl⟩).2.1 (by decide)⟩

/-- C8. `queue_processed` postcondition: from a live count `n` in the range of
`int` and above `INT_MIN`, the live count goes to `n - 1`, which an `int`
holds; `queue_head`, `queue_tail` and every node are as they were, so the queue
holds the same items. -/
theorem queue_processed_decrements (q : Queue)
    (hrange : INT_MIN < q.queue_length ∧ q.queue_length ≤ INT_MAX) :
    (queue_processed q).queue_length = q.queue_length - 1 ∧
      INT_MIN ≤ (queue_processed q).queue_length ∧
      (queue_processed q).queue_length ≤ INT_MAX ∧
      (queue_processed q).queue_head = q.queue_head ∧
      (queue_processed q).queue_tail = q.queue_tail ∧
      (queue_processed q).heap = q.heap ∧
      ∀ nodes, (queue_processed q).Holds nodes ↔ q.Holds nodes := by
  have h1 := hrange.1
  have h2 := hrange.2
  have hl : (queue_processed q).queue_length = q.queue_length - 1 := rfl
  refine ⟨hl, ?_, ?_, rfl, rfl, rfl, fun _ => Iff.rfl⟩
  · rw [hl]
    omega
  · rw [hl]
    omega

/-- C8 on the seeded queue: the live count goes from one to zero and the node
of `/usr` stays linked. -/
theorem queue_processed_decrements_example :
    (queue_processed queue_seeded).queue_length = queue_seeded.queue_length - 1 ∧
      INT_MIN ≤ (queue_processed queue_seeded).queue_length ∧
      (queue_processed queue_seeded).queue_length ≤ INT_MAX ∧
      (queue_processed queue_seeded).queue_head = queue_seeded.queue_head ∧
      (queue_processed queue_seeded).queue_tail = queue_seeded.queue_tail ∧
      (queue_processed queue_seeded).heap = queue_seeded.heap ∧
      ∀ nodes, (queue_processed queue_seeded).Holds nodes ↔ queue_seeded.Holds nodes :=
  queue_processed_decrements queue_seeded (by decide)

/-- C9. `wait_for_all_processed` never returns early: it returns at its `k`-th
pass under the lock if and only if that pass finds `queue_length == 0` and every
earlier pass, entered at the call or after a wake-up of any kind, found
`queue_length != 0` and went back to waiting. -/
theorem wait_returns_only_at_zero (obs : List Queue) (k : Nat) :
    wait_for_all_processed obs = some k ↔
      (∃ q, obs[k]? = some q ∧ q.queue_length = 0) ∧
        ∀ j, j < k → ∀ q, obs[j]? = some q → q.queue_length ≠ 0 := by
  induction obs generalizing k with
  | nil => simp [wait_for_all_processed]
  | cons q0 later ih =>
    rw [wait_for_all_processed]
    by_cases h0 : q0.queue_length = 0
    · rw [if_pos (by simp [wait_for_all_processed_pass, h0])]
      constructor
      · intro hk
        cases hk
        exact ⟨⟨q0, List.getElem?_cons_zero, h0⟩, fun j hj => absurd hj (Nat.not_lt_zero j)⟩
      · rintro ⟨_, hall⟩
        cases k with
        | zero => rfl
        | succ k => exact absurd h0 (hall 0 (Nat.succ_pos k) q0 List.getElem?_cons_zero)
    · rw [if_neg (by simp [wait_for_all_processed_pass, h0])]
      cases k with
      | zero =>
        simp only [Option.map_eq_some', List.getElem?_cons_zero, Option.some.injEq]
        constructor
        · rintro ⟨_, _, hk⟩
          cases hk
        · rintro ⟨⟨q, hq, hz⟩, _⟩
          subst hq
          exact absurd hz h0
      | succ k =>
        simp only [Option.map_eq_some', Nat.add_right_cancel_iff, exists_eq_right,
          List.getElem?_cons_succ, ih k]
        constructor
        · rintro ⟨hk, hall⟩
          refine ⟨hk, ?_⟩
          intro j hj q hq
          cases j with
          | zero =>
            simp only [List.getElem?_cons_zero, Option.some.injEq] at hq
            subst hq
            exact h0
          | succ j =>
            simp only [List.getElem?_cons_succ] at hq
            exact hall j (Nat.lt_of_succ_lt_succ hj) q hq
        · rintro ⟨hk, hall⟩
          refine ⟨hk, ?_⟩
          intro j hj q hq
          exact hall (j + 1) (Nat.succ_lt_succ hj) q (by simpa using hq)

/-! ## The two output streams -/

/-- C10, as stated, fails: when `opendir` fails for `/x`, `process_directory`
still puts `/x` on the visited stream, next to the line on the diagnostic
stream. -/
theorem visited_event_on_open_failure :
    (fun _ : String => (none : Option (List dirent))) "/x" = none ∧
      visited_events (process_directory (fun _ => none) "/x") ≠ [] ∧
      visited_events (process_directory (fun _ => none) "/x") = ["/x"] ∧
      diagnostic_events (process_directory (fun _ => none) "/x") =
        ["failed to opendir: /x"] := by
  decide

/-- C10, amended: for every path given to `process_directory` exactly one
visited event, the path, is emitted, whether or not the directory could be
opened; a path that cannot be opened puts one line on the diagnostic stream
as well, and a path that can be opened puts none. -/
theorem one_visited_event_per_path (opendir : String → Option (List dirent))
    (path : String) :
    visited_events (process_directory opendir path) = [path] ∧
      diagnostic_events (process_directory opendir path) =
        match opendir path with
        | none => ["failed to opendir: " ++ path]
        | some _ => [] := by
  have hv : ∀ entries, visited_events (readdir_loop path entries) = [] := by
    intro entries
    rw [readdir_loop_eq]
    induction entries.filter is_subdir with
    | nil => rfl
    | cons e rest ih => simpa [visited_events] using ih
  have hd : ∀ entries, diagnostic_events (readdir_loop path entries) = [] := by
    intro entries
    rw [readdir_loop_eq]
    induction entries.filter is_subdir with
    | nil => rfl
    | cons e rest ih => simpa [diagnostic_events] using ih
  unfold process_directory
  cases opendir path with
  | none => simp [visited_events, diagnostic_events]
  | some entries => simp [visited_events, diagnostic_events, hv, hd]

/-! ## Joining paths -/

theorem cstr_append_nul (pre rest : List Char) (hpre : ∀ c ∈ pre, c ≠ NUL) :
    cstr (pre ++ NUL :: rest) = pre := by
  induction pre with
  | nil => simp [cstr]
  | cons c r ih =>
    have hc : c ≠ NUL := hpre c (by simp)
    have hr := ih (fun x hx => hpre x (List.mem_cons_of_mem _ hx))
    unfold cstr at hr ⊢
    rw [List.cons_append, List.takeWhile_cons_of_pos (by simpa using hc), hr]

theorem strcat_at_fits (mem : Nat → Option (List Char)) (f : Nat) (pre src : List Char)
    (n : Nat) (hmem : mem f = some (pre ++ List.replicate n NUL))
    (hpre : ∀ c ∈ pre, c ≠ NUL) (hn : (cstr src).length + 1 ≤ n) :
    strcat_at mem f (some src) =
      some (Function.update mem f
        (some ((pre ++ cstr src) ++ List.replicate (n - (cstr src).length) NUL))) := by
  simp only [strcat_at, hmem, strcat_fits pre src n hpre hn, Option.map_some']

theorem int_of_size_t_eq (n : Nat) (h : (n : Int) ≤ INT_MAX) : int_of_size_t n = n := by
  unfold int_of_size_t
  unfold INT_MAX at h
  rw [Int.emod_eq_of_lt (by omega) (by omega)]
  omega

theorem int_of_size_t_neg (n : Nat) (h1 : INT_MAX < (n : Int)) (h2 : (n : Int) < 4294967296) :
    int_of_size_t n < 0 := by
  unfold int_of_size_t
  unfold INT_MAX at h1
  rw [Int.emod_eq_sub_self_emod, Int.emod_eq_of_lt (by omega) (by omega)]
  omega

/-- The three `strcat` calls of `join_path` on a zeroed buffer of the full size. -/
theorem strcat_at_chain (mem : Nat → Option (List Char)) (pb pn f : Nat) (bb nb : List Char)
    (hpb : mem pb = some bb) (hpn : mem pn = some nb) (hf : mem f = none) :
    ((strcat_at (Function.update mem f (some (memset0 (strlen bb + 1 + strlen nb + 1)))) f
        ((Function.update mem f (some (memset0 (strlen bb + 1 + strlen nb + 1)))) pb)).bind
      fun mem2 => (strcat_at mem2 f (some ['/'])).bind fun mem3 =>
        (strcat_at mem3 f (mem3 pn)).map fun mem4 => (mem4, f)) =
      some (Function.update mem f (some (cstr bb ++ '/' :: cstr nb ++ [NUL])), f) := by
  have hbf : pb ≠ f := fun h => by rw [h, hf] at hpb; cases hpb
  have hnf : pn ≠ f := fun h => by rw [h, hf] at hpn; cases hpn
  have hslash : cstr ['/'] = ['/'] := by decide
  simp only [strlen, memset0]
  rw [Function.update_noteq hbf, hpb]
  have h1 := strcat_at_fits
    (Function.update mem f (some (List.replicate ((cstr bb).length + 1 + (cstr nb).length + 1) NUL)))
    f [] bb ((cstr bb).length + 1 + (cstr nb).length + 1) (by simp) (by simp) (by omega)
  rw [h1]
  simp only [Option.some_bind, List.nil_append, Function.update_idem]
  have h2 := strcat_at_fits
    (Function.update mem f (some (cstr bb ++
      List.replicate ((cstr bb).length + 1 + (cstr nb).length + 1 - (cstr bb).length) NUL)))
    f (cstr bb) ['/'] ((cstr bb).length + 1 + (cstr nb).length + 1 - (cstr bb).length)
    (by simp) (cstr_no_nul bb) (by rw [hslash]; simp; omega)
  rw [h2]
  simp only [Option.some_bind, Function.update_idem, Function.update_noteq hnf, hpn]
  have h3 := strcat_at_fits
    (Function.update mem f (some ((cstr bb ++ cstr ['/']) ++
      List.replicate ((cstr bb).length + 1 + (cstr nb).length + 1 - (cstr bb).length -
        (cstr ['/']).length) NUL)))
    f (cstr bb ++ cstr ['/']) nb
    ((cstr bb).length + 1 + (cstr nb).length + 1 - (cstr bb).length - (cstr ['/']).length)
    (by simp)
    (by
      intro c hc
      rw [List.mem_append] at hc
      rcases hc with hc | hc
      · exact cstr_no_nul bb c hc
      · exact cstr_no_nul _ c hc)
    (by rw [hslash]; simp; omega)
  rw [h3]
  simp only [Option.map_some', Function.update_idem, hslash, List.length_singleton]
  rw [show (cstr bb).length + 1 + (cstr nb).length + 1 - (cstr bb).length - 1 -
      (cstr nb).length = 1 by omega]
  simp

theorem join_path_at_eq (mem : Nat → Option (List Char)) (pb pn f : Nat) (bb nb : List Char)
    (hpb : mem pb = some bb) (hpn : mem pn = some nb) (hf : mem f = none)
    (hlen : ((strlen bb + 1 + strlen nb + 1 : Nat) : Int) ≤ INT_MAX) :
    join_path_at mem pb pn (some f) =
      some (Function.update mem f (some (cstr bb ++ '/' :: cstr nb ++ [NUL])), f) := by
  have hconv := int_of_size_t_eq _ hlen
  unfold join_path_at
  rw [hpb, hpn]
  show (if int_of_size_t (strlen bb + 1 + strlen nb + 1) < 0 then none else _) = _
  rw [hconv, if_neg (by omega), Int.toNat_ofNat]
  exact strcat_at_chain mem pb pn f bb nb hpb hpn hf

theorem join_path_at_abort (mem : Nat → Option (List Char)) (pb pn : Nat) (f : Option Nat)
    (bb nb : List Char) (hpb : mem pb = some bb) (hpn : mem pn = some nb)
    (hneg : int_of_size_t (strlen bb + 1 + strlen nb + 1) < 0) :
    join_path_at mem pb pn f = none := by
  unfold join_path_at
  rw [hpb, hpn]
  cases f with
  | none => rfl
  | some f =>
    show (if int_of_size_t (strlen bb + 1 + strlen nb + 1) < 0 then none else _) = none
    rw [if_pos hneg]

/-- C18. `join_path` is concatenation: for strings `base` and `name` without a
NUL, stored NUL-terminated in two buffers, and a fresh buffer `f` from `malloc`:
when `len(base) + 1 + len(name) + 1` fits the `int total_length`, the call
returns `f`, the buffer at `f` holds `base ++ "/" ++ name` and the closing NUL,
every other buffer (those of `base` and `name` among them) is as it was, and the
string returned is `base ++ "/" ++ name`, of length `len(base) + 1 + len(name)`;
when the sum is above `INT_MAX` and below `2^32`, `total_length` is negative and
the call stops at its assertion, whatever `malloc` returns. -/
theorem join_path_is_concatenation (base name : String)
    (hbase : ∀ c ∈ base.data, c ≠ NUL) (hname : ∀ c ∈ name.data, c ≠ NUL)
    (mem : Nat → Option (List Char)) (pb pn f : Nat) (jb jn : List Char)
    (hpb : mem pb = some (base.data ++ NUL :: jb))
    (hpn : mem pn = some (name.data ++ NUL :: jn)) (hfresh : mem f = none) :
    (((base.length + 1 + name.length + 1 : Nat) : Int) ≤ INT_MAX →
        join_path base name = base ++ "/" ++ name ∧
          (join_path base name).length = base.length + 1 + name.length ∧
          ∃ mem1, join_path_at mem pb pn (some f) = some (mem1, f) ∧
            mem1 f = some ((base ++ "/" ++ name).data ++ [NUL]) ∧
            mem1 pb = mem pb ∧ mem1 pn = mem pn ∧ ∀ x, x ≠ f → mem1 x = mem x) ∧
      (INT_MAX < ((base.length + 1 + name.length + 1 : Nat) : Int) →
        ((base.length + 1 + name.length + 1 : Nat) : Int) < 4294967296 →
        ∀ full_path, join_path_at mem pb pn full_path = none) := by
  have hsb : strlen (base.data ++ NUL :: jb) = base.length := by
    unfold strlen
    rw [cstr_append_nul _ _ hbase]
    rfl
  have hsn : strlen (name.data ++ NUL :: jn) = name.length := by
    unfold strlen
    rw [cstr_append_nul _ _ hname]
    rfl
  constructor
  · intro hlen
    have heq := join_path_eq_append base name hbase hname
    have hbf : pb ≠ f := fun h => by rw [h, hfresh] at hpb; cases hpb
    have hnf : pn ≠ f := fun h => by rw [h, hfresh] at hpn; cases hpn
    refine ⟨heq, ?_, _,
      join_path_at_eq mem pb pn f _ _ hpb hpn hfresh (by rw [hsb, hsn]; exact hlen), ?_,
      Function.update_noteq hbf _ _, Function.update_noteq hnf _ _,
      fun x hx => Function.update_noteq hx _ _⟩
    · rw [heq, String.length_append, String.length_append]
      rfl
    · rw [Function.update_same, cstr_append_nul _ _ hbase, cstr_append_nul _ _ hname]
      simp [String.data_append]
  · intro hbig hsmall full_path
    apply join_path_at_abort mem pb pn full_path _ _ hpb hpn
    rw [hsb, hsn]
    exact int_of_size_t_neg _ hbig hsmall

/-- C18 on `/usr` and `bin`, with the result in a fresh buffer at address 30. -/
theorem join_path_usr_bin :
    join_path "/usr" "bin" = "/usr" ++ "/" ++ "bin" ∧
      (join_path "/usr" "bin").length = "/usr".length + 1 + "bin".length ∧
      ∃ mem1, join_path_at memory_example 10 20 (some 30) = some (mem1, 30) ∧
        mem1 30 = some (("/usr" ++ "/" ++ "bin").data ++ [NUL]) ∧
        mem1 10 = memory_example 10 ∧ mem1 20 = memory_example 20 ∧
        ∀ x, x ≠ 30 → mem1 x = memory_example x :=
  (join_path_is_concatenation "/usr" "bin" (by decide) (by decide) memory_example 10 20 30
    [] "junk".data (by decide) (by decide) (by decide)).1 (by decide)

/-! ## Shape and frame of the queue -/

theorem Queue.Holds.head_tail {q : Queue} {nodes : List (Nat × Option String)}
    (h : q.Holds nodes) : q.queue_head = none ↔ q.queue_tail = none := by
  rw [h.head_none_iff, h.2.1]
  cases nodes with
  | nil => simp
  | cons n r =>
    constructor
    · intro hc
      cases hc
    · intro hc
      rw [Option.map_eq_none', List.getLast?_eq_none_iff] at hc
      exact hc

theorem Queue.Holds.tail_last {q : Queue} {nodes : List (Nat × Option String)}
    (h : q.Holds nodes) (t : Nat) (ht : q.queue_tail = some t) :
    ∃ s, nodes.getLast? = some (t, s) ∧ q.heap t = some { next := none, path := s } := by
  obtain ⟨hseg, htail, _⟩ := h
  rcases List.eq_nil_or_concat nodes with hnil | ⟨init, ⟨t1, s⟩, hcat⟩
  · subst hnil
    rw [ht] at htail
    simp at htail
  · subst hcat
    simp only [List.concat_eq_append] at *
    simp at htail
    rw [ht] at htail
    cases htail
    rw [lseg_append] at hseg
    obtain ⟨m, _, hlast⟩ := hseg
    rw [lseg_cons] at hlast
    obtain ⟨_, nx, hheap, hnx⟩ := hlast
    rw [lseg_nil] at hnx
    subst hnx
    exact ⟨s, by simp, hheap⟩

theorem Queue.Holds.dequeue_ne_fails {q : Queue} {nodes : List (Nat × Option String)}
    (h : q.Holds nodes) : dequeue q ≠ .fails := by
  cases nodes with
  | nil =>
    have hhead : q.queue_head = none := h.head_none_iff.mpr rfl
    simp [dequeue, hhead]
  | cons n rest =>
    obtain ⟨a, s⟩ := n
    obtain ⟨q1, hd, _, _⟩ := dequeue_holds h
    rw [hd]
    simp

theorem dequeue_length {q q1 : Queue} {path : Option String}
    (h : dequeue q = .returns path q1) : q1.queue_length = q.queue_length := by
  cases hh : q.queue_head with
  | none => simp [dequeue, hh] at h
  | some item =>
    cases hn : q.heap item with
    | none => simp [dequeue, hh, hn] at h
    | some node =>
      simp only [dequeue, hh, hn] at h
      split_ifs at h <;> cases h <;> rfl

theorem dequeue_heap {q q1 : Queue} {path : Option String} {a : Nat}
    (h : dequeue q = .returns path q1) (hh : q.queue_head = some a) :
    q1.heap = Function.update q.heap a none := by
  cases hn : q.heap a with
  | none => simp [dequeue, hh, hn] at h
  | some node =>
    simp only [dequeue, hh, hn] at h
    split_ifs at h <;> cases h <;> rfl

theorem enqueue_length {q q1 : Queue} {path : Option String} {a : Option Nat}
    (h : enqueue path a q = some q1) : q1.queue_length = q.queue_length + 1 := by
  unfold enqueue at h
  split at h
  · cases h
  · split at h
    · cases h
    · simp only at h
      split at h
      · cases h
      · cases h
        rfl

theorem step_live_count {cfg : Config} {s s1 : Sys} {act : Action}
    (h : step cfg s act = some s1) :
    s1.q.queue_length - (enqueue_calls s1.calls : Int) + (queue_processed_calls s1.calls : Int) =
      s.q.queue_length - (enqueue_calls s.calls : Int) + (queue_processed_calls s.calls : Int) := by
  have henq : ∀ (c : String) (a : Nat) (s2 : Sys), s.enqueue c a = some s2 →
      s2.q.queue_length - (enqueue_calls s2.calls : Int) + (queue_processed_calls s2.calls : Int) =
        s.q.queue_length - (enqueue_calls s.calls : Int) +
          (queue_processed_calls s.calls : Int) ∧ s2.workers = s.workers := by
    intro c a s2 he
    unfold Sys.enqueue at he
    split at he
    · cases he
    · cases hq : Crawl.enqueue (some c) (some a) s.q with
      | none => rw [hq] at he; cases he
      | some q1 =>
        rw [hq] at he
        cases he
        simp only [enqueue_length hq, enqueue_calls_append, queue_processed_calls_append]
        simp
  cases act with
  | main a =>
    simp only [step, main_step] at h
    split at h
    · cases he : s.enqueue cfg.root a with
      | none => rw [he] at h; cases h
      | some s2 =>
        rw [he] at h
        cases h
        exact (henq _ _ _ he).1
    · split at h <;> cases h <;> rfl
    · split at h <;> cases h <;> rfl
    · cases h
  | worker i a =>
    simp only [step] at h
    split at h
    · cases h
    · unfold crawl_step at h
      split at h
      · cases h
      · split at h
        · cases h
          rfl
        · cases h
        · rename_i hd
          cases h
          simp only [dequeue_length hd, enqueue_calls_append, queue_processed_calls_append]
          simp
        · rename_i hd
          cases h
          simp only [dequeue_length hd, enqueue_calls_append, queue_processed_calls_append]
          simp
      · cases h
        rfl
      · cases h
        rfl
      · rename_i c todo _
        cases he : s.enqueue c a with
        | none => rw [he] at h; cases h
        | some s2 =>
          rw [he] at h
          cases h
          exact (henq _ _ _ he).1
      · cases h
        simp only [queue_processed, enqueue_calls_append, queue_processed_calls_append]
        simp
        ring

theorem run_ops_append (ops1 ops2 : List QueueOp) :
    ∀ q, run_ops q (ops1 ++ ops2) =
      (run_ops q ops1).bind fun r1 =>
        (run_ops r1.1 ops2).map fun r2 => (r2.1, r1.2 ++ r2.2) := by
  induction ops1 with
  | nil =>
    intro q
    simp only [List.nil_append, run_ops, Option.some_bind, List.nil_append]
    cases run_ops q ops2 <;> rfl
  | cons op rest ih =>
    intro q
    cases op with
    | enqueue path a =>
      simp only [List.cons_append, run_ops, List.append_eq]
      split
      · rfl
      · cases enqueue path (some a) q with
        | none => rfl
        | some q1 => simp only [Option.some_bind, ih]
    | dequeue =>
      simp only [List.cons_append, run_ops, List.append_eq]
      cases dequeue q with
      | blocks => rfl
      | fails => rfl
      | returns path q1 =>
        simp only [ih]
        cases run_ops q1 rest with
        | none => rfl
        | some r1 =>
          simp only [Option.some_bind, Option.map_some']
          cases run_ops r1.1 ops2 with
          | none => rfl
          | some r2 => simp

/-- C19. Linked-list well-formedness: in every state reached from the empty
queue by `enqueue` and `dequeue` calls, `queue_head` is `NULL` exactly when
`queue_tail` is, the nodes are linked from `queue_head` to `NULL` without a node
occurring twice (no cycle), `queue_tail` when not `NULL` is the last of them and
its `next` is `NULL`; so for the head item neither disjunct of the sanity check
of `dequeue` holds and `dequeue` does not reach `assert(0)`. -/
theorem queue_stays_well_formed (ops : List QueueOp) (q : Queue)
    (outs : List (Option String)) (hrun : run_ops Queue.init ops = some (q, outs)) :
    (q.queue_head = none ↔ q.queue_tail = none) ∧
      (∃ nodes, lseg q.heap q.queue_head nodes none = true ∧ (nodes.map Prod.fst).Nodup ∧
        ∀ t, q.queue_tail = some t →
          ∃ s, nodes.getLast? = some (t, s) ∧ q.heap t = some { next := none, path := s }) ∧
      (∀ item node, q.queue_head = some item → q.heap item = some node →
        ¬ (node.next = some item ∨
          (if q.queue_tail = some item then none else q.queue_tail) = some item)) ∧
      dequeue q ≠ .fails := by
  obtain ⟨nodes, hh, _⟩ := run_ops_fifo ops Queue.init q [] outs Queue.init_holds hrun
  refine ⟨hh.head_tail, ⟨nodes, hh.1, hh.2.2, hh.tail_last⟩, ?_, hh.dequeue_ne_fails⟩
  intro item node hhead hnode hcheck
  have hne := hh.dequeue_ne_fails
  apply hne
  simp only [dequeue, hhead, hnode]
  rw [if_pos hcheck]

/-- C19 on `ops_example`. -/
theorem queue_stays_well_formed_example :
    (queue_after_ops_example.queue_head = none ↔ queue_after_ops_example.queue_tail = none) ∧
      (∃ nodes, lseg queue_after_ops_example.heap queue_after_ops_example.queue_head nodes none
          = true ∧ (nodes.map Prod.fst).Nodup ∧
        ∀ t, queue_after_ops_example.queue_tail = some t →
          ∃ s, nodes.getLast? = some (t, s) ∧
            queue_after_ops_example.heap t = some { next := none, path := s }) ∧
      (∀ item node, queue_after_ops_example.queue_head = some item →
        queue_after_ops_example.heap item = some node →
        ¬ (node.next = some item ∨
          (if queue_after_ops_example.queue_tail = some item then none
            else queue_after_ops_example.queue_tail) = some item)) ∧
      dequeue queue_after_ops_example ≠ .fails :=
  queue_stays_well_formed ops_example queue_after_ops_example [some "/usr", some "/usr/bin"] rfl

/-- C20. Frame of `dequeue`: on a well-formed non-empty queue `dequeue` returns,
unlinks the head node and leaves `queue_length` and every other node as they
were; while the result is in the range of `int`, `enqueue` adds one to
`queue_length` and `queue_processed` takes one off; over a step of the program
from a live count strictly inside that range, `queue_length` changes by the
`enqueue` calls minus the `queue_processed` calls of that step and by nothing
else; and in every reachable state `queue_length` is at least the number of
linked nodes. -/
theorem dequeue_keeps_live_count (q : Queue) (nodes : List (Nat × Option String))
    (hwf : q.Holds nodes) (hne : nodes ≠ []) :
    (∃ path q1, dequeue q = .returns path q1 ∧ q1.queue_length = q.queue_length ∧
        q1.Holds nodes.tail ∧ ∀ x, q.queue_head ≠ some x → q1.heap x = q.heap x) ∧
      (∀ path a q1, INT_MIN ≤ q.queue_length → q.queue_length < INT_MAX →
        enqueue path a q = some q1 → q1.queue_length = q.queue_length + 1) ∧
      (INT_MIN < q.queue_length → q.queue_length ≤ INT_MAX →
        (queue_processed q).queue_length = q.queue_length - 1) ∧
      (∀ (cfg : Config) (s s1 : Sys) (act : Action),
        INT_MIN < s.q.queue_length → s.q.queue_length < INT_MAX →
        step cfg s act = some s1 →
        s1.q.queue_length - s.q.queue_length =
          ((enqueue_calls s1.calls : Int) - (enqueue_calls s.calls : Int)) -
            ((queue_processed_calls s1.calls : Int) - (queue_processed_calls s.calls : Int))) ∧
      (∀ (cfg : Config) (s : Sys), Reachable cfg s →
        ∀ linked, s.q.Holds linked → (linked.length : Int) ≤ s.q.queue_length) := by
  refine ⟨?_, fun _ _ _ _ _ h => enqueue_length h, fun _ _ => rfl, ?_, ?_⟩
  · cases nodes with
    | nil => exact absurd rfl hne
    | cons n rest =>
      obtain ⟨a, s⟩ := n
      obtain ⟨q1, hd, hh, hl⟩ := dequeue_holds hwf
      refine ⟨s, q1, hd, hl, hh, ?_⟩
      intro x hx
      have hhead : q.queue_head = some a := by
        have := hwf.1
        rw [lseg_cons] at this
        exact this.1
      have hxa : x ≠ a := fun e => hx (by rw [hhead, e])
      rw [dequeue_heap hd hhead]
      exact Function.update_noteq hxa _ _
  · intro cfg s s1 act _ _ hstep
    have := step_live_count hstep
    omega
  · intro cfg s hreach linked hl
    obtain ⟨ns, hinv⟩ := reachable_inv 0 hreach
    have := hl.unique hinv.holds
    rw [hinv.live, this, List.length_map]
    omega

/-- C20 on the seeded queue: `dequeue` returns `/usr` and the live count stays at
one while no node is linked any more. -/
theorem dequeue_keeps_live_count_example :
    ∃ path q1, dequeue queue_seeded = .returns path q1 ∧
      q1.queue_length = queue_seeded.queue_length ∧
      q1.Holds ([(1, some "/usr")] : List (Nat × Option String)).tail ∧
      ∀ x, queue_seeded.queue_head ≠ some x → q1.heap x = queue_seeded.heap x :=
  (dequeue_keeps_live_count queue_seeded [(1, some "/usr")] (by decide) (by decide)).1

/-- C14. No duplicate or lost work: after every sequence of `enqueue` and
`dequeue` calls from the empty queue, and after every initial part of it, the
paths enqueued are, as a multiset, the paths still linked in the queue together
with the paths returned by `dequeue`; so no path is returned more often than it
was enqueued and none is dropped. -/
theorem no_duplicate_or_lost_work (ops : List QueueOp) (q : Queue)
    (outs : List (Option String)) (hrun : run_ops Queue.init ops = some (q, outs)) :
    ∀ ops1 ops2, ops = ops1 ++ ops2 →
      ∃ q1 outs1 nodes1, run_ops Queue.init ops1 = some (q1, outs1) ∧ q1.Holds nodes1 ∧
        (enqueued ops1 : Multiset (Option String)) =
          (nodes1.map Prod.snd : Multiset (Option String)) + (outs1 : Multiset (Option String)) ∧
        ∀ p, outs1.count p ≤ (enqueued ops1).count p := by
  intro ops1 ops2 hsplit
  rw [hsplit, run_ops_append] at hrun
  cases h1 : run_ops Queue.init ops1 with
  | none => rw [h1] at hrun; cases hrun
  | some r1 =>
    obtain ⟨q1, outs1⟩ := r1
    obtain ⟨nodes1, hh, heq⟩ := run_ops_fifo ops1 Queue.init q1 [] outs1 Queue.init_holds h1
    simp only [List.map_nil, List.nil_append] at heq
    refine ⟨q1, outs1, nodes1, rfl, hh, ?_, ?_⟩
    · rw [← heq, ← Multiset.coe_add, add_comm]
    · intro p
      rw [← heq, List.count_append]
      omega

/-- C14 on `ops_example`, at its end. -/
theorem no_duplicate_or_lost_work_example :
    ∃ q1 outs1 nodes1, run_ops Queue.init ops_example = some (q1, outs1) ∧ q1.Holds nodes1 ∧
      (enqueued ops_example : Multiset (Option String)) =
        (nodes1.map Prod.snd : Multiset (Option String)) + (outs1 : Multiset (Option String)) ∧
      ∀ p, outs1.count p ≤ (enqueued ops_example).count p :=
  no_duplicate_or_lost_work ops_example queue_after_ops_example [some "/usr", some "/usr/bin"]
    rfl ops_example [] (by simp)

/-! ## Processing one directory -/

theorem enqueue_events_readdir_loop (p : String) (entries : List dirent) :
    enqueue_events (readdir_loop p entries) =
      (entries.filter is_subdir).map fun e => join_path p e.d_name := by
  rw [readdir_loop_eq]
  induction entries.filter is_subdir with
  | nil => rfl
  | cons e rest ih => simp [enqueue_events, ih]

theorem diagnostic_events_readdir_loop (p : String) (entries : List dirent) :
    diagnostic_events (readdir_loop p entries) = [] := by
  rw [readdir_loop_eq]
  induction entries.filter is_subdir with
  | nil => rfl
  | cons e rest ih => simpa [diagnostic_events] using ih

/-- C11. Open failure is local: when `opendir` fails for the path a thread has
just taken, `process_directory` has the diagnostic line naming the path as its
only diagnostic event and no `enqueue`; the two steps of the thread through the
call leave the queue, item sequence and live count, as it was, put that line on
the diagnostic stream, and end with the call returned. -/
theorem open_failure_is_local (cfg : Config) (s : Sys) (i a b : Nat) (path : String)
    (hfail : cfg.opendir path = none) (hmain : s.main ≠ .returned)
    (hheld : s.workers[i]? = some (.busy path (process_directory cfg.opendir path))) :
    diagnostic_events (process_directory cfg.opendir path) = ["failed to opendir: " ++ path] ∧
      enqueue_events (process_directory cfg.opendir path) = [] ∧
      ∃ s2, run cfg s [.worker i a, .worker i b] = some s2 ∧ s2.q = s.q ∧
        s2.err = s.err ++ ["failed to opendir: " ++ path] ∧
        s2.workers[i]? = some (.busy path []) := by
  have hpd : process_directory cfg.opendir path =
      [.stdout path, .stderr ("failed to opendir: " ++ path)] := by
    simp [process_directory, hfail]
  rw [hpd] at hheld ⊢
  have hi : i < s.workers.length := by
    rcases List.getElem?_eq_some_iff.mp hheld with ⟨h, _⟩
    exact h
  refine ⟨rfl, rfl, ?_⟩
  simp only [run, step, if_neg hmain, crawl_step, hheld, Option.some_bind,
    List.getElem?_set_self hi, List.set_set]
  exact ⟨_, rfl, rfl, rfl, by simp [hi]⟩

/-- C11 on Scenario B: the thread holds `/tmp/testB/locked`. -/
theorem open_failure_is_local_scenario_B :
    ∃ s2, run config_B held_B [.worker 0 0, .worker 0 0] = some s2 ∧ s2.q = held_B.q ∧
      s2.err = held_B.err ++ ["failed to opendir: " ++ "/tmp/testB/locked"] ∧
      s2.workers[0]? = some (.busy "/tmp/testB/locked" []) :=
  (open_failure_is_local config_B held_B 0 0 0 "/tmp/testB/locked" (by decide) (by decide)
    (by decide)).2.2

/-- C12. Child discovery: for a directory `P` that `opendir` opens with the
listing `L`, the paths that `process_directory` passes to `enqueue` are, in
listing order, `join_path(P, e.d_name)` for exactly the entries `e` of `L` with
`d_type == DT_DIR` and a name other than `.` and `..`; no other entry leads to
an `enqueue`. -/
theorem child_discovery (opendir : String → Option (List dirent)) (P : String)
    (L : List dirent) (hopen : opendir P = some L) :
    enqueue_events (process_directory opendir P) =
      (L.filter fun e => decide (e.d_type = DT_DIR ∧ e.d_name ≠ "." ∧ e.d_name ≠ "..")).map
        fun e => join_path P e.d_name := by
  have hpred : (fun e : dirent =>
      decide (e.d_type = DT_DIR ∧ e.d_name ≠ "." ∧ e.d_name ≠ "..")) = is_subdir := by
    funext e
    simp only [is_subdir]
    by_cases h1 : e.d_type = DT_DIR <;> by_cases h2 : e.d_name = "." <;>
      by_cases h3 : e.d_name = ".." <;> simp [h1, h2, h3]
  rw [hpred]
  simp only [process_directory, hopen, enqueue_events]
  exact enqueue_events_readdir_loop P L

/-- C12 on the root of Scenario A: of `.`, `..`, `b`, the file `f` and `c`, the
directories `b` and `c` are enqueued. -/
theorem child_discovery_scenario_A :
    enqueue_events (process_directory opendir_A "/tmp/testA") =
      ["/tmp/testA/b", "/tmp/testA/c"] :=
  child_discovery opendir_A "/tmp/testA"
    [⟨".", DT_DIR⟩, ⟨"..", DT_DIR⟩, ⟨"b", DT_DIR⟩, ⟨"f", DT_REG⟩, ⟨"c", DT_DIR⟩] (by decide)

/-! ## The loop of a thread -/

theorem run_append (cfg : Config) (sched1 sched2 : List Action) :
    ∀ s, run cfg s (sched1 ++ sched2) = (run cfg s sched1).bind fun s1 => run cfg s1 sched2 := by
  induction sched1 with
  | nil => intro s; rfl
  | cons act rest ih =>
    intro s
    simp only [List.cons_append, run, List.append_eq]
    cases step cfg s act with
    | none => rfl
    | some s1 => simp only [Option.some_bind, ih]

theorem Sys.enqueue_workers {s s1 : Sys} {c : String} {a : Nat}
    (h : s.enqueue c a = some s1) :
    s1.workers = s.workers ∧ s1.main = s.main ∧ s1.out = s.out ∧ s1.err = s.err ∧
      s1.calls = s.calls ++ [.enqueue c] := by
  unfold Sys.enqueue at h
  split at h
  · cases h
  · cases hq : Crawl.enqueue (some c) (some a) s.q with
    | none => rw [hq] at h; cases h
    | some q1 =>
      rw [hq] at h
      cases h
      exact ⟨rfl, rfl, rfl, rfl, rfl⟩

/-- A step of another thread leaves the `i`-th thread where it stands. -/
theorem step_frame {cfg : Config} {s s1 : Sys} {act : Action} {i : Nat} {w : Worker}
    (h : step cfg s act = some s1) (hother : ∀ a, act ≠ .worker i a)
    (hw : s.workers[i]? = some w) : s1.workers[i]? = some w := by
  have hi : i < s.workers.length := (List.getElem?_eq_some_iff.mp hw).1
  cases act with
  | main a =>
    simp only [step, main_step] at h
    split at h
    · cases he : s.enqueue cfg.root a with
      | none => rw [he] at h; cases h
      | some s2 =>
        rw [he] at h
        cases h
        show s2.workers[i]? = some w
        rw [(Sys.enqueue_workers he).1]
        exact hw
    · split at h
      · cases h
        show (s.workers ++ [Worker.idle])[i]? = some w
        rw [List.getElem?_append_left hi]
        exact hw
      · cases h
        exact hw
    · split at h <;> cases h <;> exact hw
    · cases h
  | worker j a =>
    have hji : j ≠ i := fun e => hother a (by rw [e])
    simp only [step] at h
    split at h
    · cases h
    · unfold crawl_step at h
      split at h
      · cases h
      · split at h
        · cases h
          exact hw
        · cases h
        · cases h
          exact hw
        · cases h
          show (s.workers.set j _)[i]? = some w
          rw [List.getElem?_set_ne hji]
          exact hw
      · cases h
        show (s.workers.set j _)[i]? = some w
        rw [List.getElem?_set_ne hji]
        exact hw
      · cases h
        show (s.workers.set j _)[i]? = some w
        rw [List.getElem?_set_ne hji]
        exact hw
      · rename_i c todo _
        cases he : s.enqueue c a with
        | none => rw [he] at h; cases h
        | some s2 =>
          rw [he] at h
          cases h
          show (s2.workers.set j _)[i]? = some w
          rw [List.getElem?_set_ne hji, (Sys.enqueue_workers he).1]
          exact hw
      · cases h
        show (s.workers.set j _)[i]? = some w
        rw [List.getElem?_set_ne hji]
        exact hw

/-- A step of a thread inside `process_directory` performs the next effect and
calls no `queue_processed`. -/
theorem step_effect {cfg : Config} {s s1 : Sys} {i a : Nat} {p : String} {e : Effect}
    {todo : List Effect} (h : step cfg s (.worker i a) = some s1)
    (hw : s.workers[i]? = some (.busy p (e :: todo))) :
    s1.workers[i]? = some (.busy p todo) ∧
      queue_processed_calls s1.calls = queue_processed_calls s.calls := by
  have hi : i < s.workers.length := (List.getElem?_eq_some_iff.mp hw).1
  simp only [step] at h
  split at h
  · cases h
  · unfold crawl_step at h
    rw [hw] at h
    cases e with
    | stdout l =>
      cases h
      exact ⟨List.getElem?_set_self hi, rfl⟩
    | stderr l =>
      cases h
      exact ⟨List.getElem?_set_self hi, rfl⟩
    | enqueue c =>
      simp only at h
      cases he : s.enqueue c a with
      | none => rw [he] at h; cases h
      | some s2 =>
        rw [he] at h
        cases h
        obtain ⟨hws, _, _, _, hcalls⟩ := Sys.enqueue_workers he
        refine ⟨?_, ?_⟩
        · show (s2.workers.set i _)[i]? = _
          exact List.getElem?_set_self (by rw [hws]; exact hi)
        · show queue_processed_calls s2.calls = _
          rw [hcalls, queue_processed_calls_append]
          simp

/-- The step of a thread after `process_directory` has returned calls
`queue_processed` once and takes the thread back to `dequeue`. -/
theorem step_acknowledge {cfg : Config} {s s1 : Sys} {i a : Nat} {p : String}
    (h : step cfg s (.worker i a) = some s1) (hw : s.workers[i]? = some (.busy p [])) :
    s1.workers[i]? = some .idle ∧
      queue_processed_calls s1.calls = queue_processed_calls s.calls + 1 ∧
      s1.q = queue_processed s.q := by
  have hi : i < s.workers.length := (List.getElem?_eq_some_iff.mp hw).1
  simp only [step] at h
  split at h
  · cases h
  · unfold crawl_step at h
    rw [hw] at h
    cases h
    refine ⟨List.getElem?_set_self hi, ?_, rfl⟩
    show queue_processed_calls (s.calls ++ [Call.queue_processed]) = _
    rw [queue_processed_calls_append]
    simp

theorem run_frame {cfg : Config} {i : Nat} {w : Worker} :
    ∀ (sched : List Action) (s s2 : Sys), s.workers[i]? = some w →
      run cfg s sched = some s2 → own_steps i sched = 0 →
      s2.workers[i]? = some w ∧ queue_processed_by cfg i s sched = 0 := by
  intro sched
  induction sched with
  | nil =>
    intro s s2 hw hrun _
    simp only [run, Option.some.injEq] at hrun
    subst hrun
    exact ⟨hw, rfl⟩
  | cons act rest ih =>
    intro s s2 hw hrun hown
    simp only [run] at hrun
    cases hstep : step cfg s act with
    | none => rw [hstep] at hrun; cases hrun
    | some s1 =>
      rw [hstep] at hrun
      simp only [Option.some_bind] at hrun
      have hother : ∀ a, act ≠ .worker i a := by
        intro a e
        rw [e] at hown
        simp [own_steps] at hown
      have hrest : own_steps i rest = 0 := by
        cases act with
        | main a => simpa [own_steps] using hown
        | worker j a =>
          simp only [own_steps] at hown
          omega
      obtain ⟨h1, h2⟩ := ih s1 s2 (step_frame hstep hother hw) hrun hrest
      refine ⟨h1, ?_⟩
      simp only [queue_processed_by, hstep, h2]
      cases act with
      | main a => rfl
      | worker j a =>
        have hji : j ≠ i := fun e => hother a (by rw [e])
        simp [hji]

theorem worker_lifecycle {cfg : Config} {i : Nat} {p : String} :
    ∀ (sched : List Action) (s s2 : Sys) (todo : List Effect),
      s.workers[i]? = some (.busy p todo) → run cfg s sched = some s2 →
      (own_steps i sched ≤ todo.length →
        s2.workers[i]? = some (.busy p (todo.drop (own_steps i sched))) ∧
          queue_processed_by cfg i s sched = 0) ∧
      (own_steps i sched = todo.length + 1 →
        s2.workers[i]? = some .idle ∧ queue_processed_by cfg i s sched = 1) := by
  intro sched
  induction sched with
  | nil =>
    intro s s2 todo hw hrun
    simp only [run, Option.some.injEq] at hrun
    subst hrun
    simp [own_steps, queue_processed_by, hw]
  | cons act rest ih =>
    intro s s2 todo hw hrun
    simp only [run] at hrun
    cases hstep : step cfg s act with
    | none => rw [hstep] at hrun; cases hrun
    | some s1 =>
      rw [hstep] at hrun
      simp only [Option.some_bind] at hrun
      by_cases hown : ∃ a, act = .worker i a
      · obtain ⟨a, rfl⟩ := hown
        have hcount : own_steps i (Action.worker i a :: rest) = 1 + own_steps i rest := by
          simp [own_steps]
        rw [hcount]
        cases todo with
        | nil =>
          obtain ⟨hidle, hcalls, _⟩ := step_acknowledge hstep hw
          constructor
          · intro hle
            simp at hle
          · intro heq
            have h0 : own_steps i rest = 0 := by simpa using heq
            obtain ⟨h1, h2⟩ := run_frame rest s1 s2 hidle hrun h0
            refine ⟨h1, ?_⟩
            simp only [queue_processed_by, hstep, h2, if_true, hcalls]
            omega
        | cons e todo1 =>
          obtain ⟨hnext, hcalls⟩ := step_effect hstep hw
          obtain ⟨ih1, ih2⟩ := ih s1 s2 todo1 hnext hrun
          constructor
          · intro hle
            have hle1 : own_steps i rest ≤ todo1.length := by
              simp only [List.length_cons] at hle
              omega
            obtain ⟨h1, h2⟩ := ih1 hle1
            refine ⟨?_, ?_⟩
            · rw [h1, Nat.add_comm 1, List.drop_succ_cons]
            · simp only [queue_processed_by, hstep, h2, if_true, hcalls]
              omega
          · intro heq
            have heq1 : own_steps i rest = todo1.length + 1 := by
              simp only [List.length_cons] at heq
              omega
            obtain ⟨h1, h2⟩ := ih2 heq1
            refine ⟨h1, ?_⟩
            simp only [queue_processed_by, hstep, h2, if_true, hcalls]
            omega
      · have hother : ∀ a, act ≠ .worker i a := fun a e => hown ⟨a, e⟩
        have hcount : own_steps i (act :: rest) = own_steps i rest := by
          cases act with
          | main a => rfl
          | worker j a =>
            have hji : j ≠ i := fun e => hother a (by rw [e])
            simp [own_steps, hji]
        have hq : queue_processed_by cfg i s (act :: rest) = queue_processed_by cfg i s1 rest := by
          simp only [queue_processed_by, hstep]
          cases act with
          | main a => simp
          | worker j a =>
            have hji : j ≠ i := fun e => hother a (by rw [e])
            simp [hji]
        rw [hcount, hq]
        exact ih s1 s2 todo (step_frame hstep hother hw) hrun

/-- A thread that holds an item is never blocked: its next step is possible
with every free address. -/
theorem busy_step_enabled {cfg : Config} {D : Nat} {s : Sys} {nodes : List (Nat × String)}
    {i a : Nat} {p : String} {todo : List Effect} (hinv : Inv cfg D s nodes)
    (hmain : s.main ≠ .returned) (hw : s.workers[i]? = some (.busy p todo))
    (ha : s.q.heap a = none) : ∃ s1, step cfg s (.worker i a) = some s1 := by
  simp only [step, if_neg hmain, crawl_step, hw]
  cases todo with
  | nil => exact ⟨_, rfl⟩
  | cons e rest =>
    cases e with
    | stdout l => exact ⟨_, rfl⟩
    | stderr l => exact ⟨_, rfl⟩
    | enqueue c =>
      obtain ⟨q1, he, _, _⟩ := enqueue_holds hinv.holds c a ha
      simp only [Sys.enqueue, ha, Option.isSome_none, he, Option.map_some']
      exact ⟨_, rfl⟩

/-! ## The steps that change the state -/

theorem lift_nodes_injective {n1 n2 : List (Nat × String)}
    (h : lift_nodes n1 = lift_nodes n2) : n1 = n2 := by
  unfold lift_nodes at h
  refine List.map_injective_iff.mpr ?_ h
  intro x y hxy
  simp only [Prod.mk.injEq, Option.some.injEq] at hxy
  exact Prod.ext hxy.1 hxy.2

theorem enqueue_alloc {q q1 : Queue} {p : String} {a : Nat}
    (h : enqueue (some p) (some a) q = some q1) :
    ∀ x, q1.heap x ≠ none → x = a ∨ q.heap x ≠ none := by
  intro x hx
  by_cases hxa : x = a
  · exact Or.inl hxa
  · right
    unfold enqueue at h
    simp only at h
    cases ht : q.queue_tail with
    | none =>
      rw [ht] at h
      simp only [Option.some.injEq] at h
      subst h
      simpa [Function.update_noteq hxa] using hx
    | some t =>
      rw [ht] at h
      simp only at h
      cases h0 : Function.update q.heap a (some { next := none, path := some p }) t with
      | none => rw [h0] at h; cases h
      | some n =>
        rw [h0] at h
        simp only [Option.some.injEq] at h
        subst h
        by_cases hxt : x = t
        · subst hxt
          rw [Function.update_noteq hxa] at h0
          rw [h0]
          simp
        · simpa [Function.update_noteq hxt, Function.update_noteq hxa] using hx

theorem Sys.enqueue_heap_grows {s s1 : Sys} {c : String} {a : Nat} (h : s.enqueue c a = some s1) :
    ∀ x, s1.q.heap x ≠ none → x = a ∨ s.q.heap x ≠ none := by
  unfold Sys.enqueue at h
  split at h
  · cases h
  · cases hq : Crawl.enqueue (some c) (some a) s.q with
    | none => rw [hq] at h; cases h
    | some q1 =>
      rw [hq] at h
      cases h
      exact Crawl.enqueue_alloc hq

theorem step_trans {cfg : Config} {D : Nat} {s s1 : Sys} {nodes : List (Nat × String)}
    {act : Action} (hinv : Inv cfg D s nodes) (hs : step cfg s act = some s1) :
    s1 = s ∨ ∃ nodes1, Trans cfg s nodes s1 nodes1 := by
  cases act with
  | main a =>
    simp only [step, main_step] at hs
    split at hs
    · rename_i hmain
      cases he : s.enqueue cfg.root a with
      | none => rw [he] at hs; cases hs
      | some s2 =>
        rw [he] at hs
        simp only [Option.map_some', Option.some.injEq] at hs
        have halloc := Sys.enqueue_heap_grows he
        obtain ⟨q1, hs2, hh, _⟩ := Sys.enqueue_spec hinv.holds he
        subst hs2
        subst hs
        right
        exact ⟨_, Trans.seed a q1 hmain (by simpa [lift_nodes] using hh) halloc⟩
    · rename_i k hmain
      split at hs
      · rename_i hk
        cases hs
        exact Or.inr ⟨_, Trans.create k hmain hk⟩
      · rename_i hk
        cases hs
        exact Or.inr ⟨_, Trans.wait k hmain hk⟩
    · rename_i hmain
      split at hs
      · rename_i hpass
        cases hs
        exact Or.inr ⟨_, Trans.finish hmain
          (by simpa [wait_for_all_processed_pass] using hpass)⟩
      · cases hs
        exact Or.inl rfl
    · cases hs
  | worker i a =>
    simp only [step] at hs
    split at hs
    · cases hs
    · rename_i hmain
      unfold crawl_step at hs
      cases hget : s.workers[i]? with
      | none => rw [hget] at hs; cases hs
      | some w =>
        rw [hget] at hs
        cases w with
        | idle =>
          simp only at hs
          cases nodes with
          | nil =>
            have hhead : s.q.queue_head = none := hinv.holds.head_none_iff.mpr rfl
            have hb : dequeue s.q = .blocks := by simp [dequeue, hhead]
            rw [hb] at hs
            cases hs
            exact Or.inl rfl
          | cons n rest =>
            obtain ⟨b, p⟩ := n
            have hholds := hinv.holds
            obtain ⟨q1, hdeq, hh, _⟩ := dequeue_holds hholds
            have hhead : s.q.queue_head = some b := by
              have := hholds.1
              simp only [List.map_cons] at this
              rw [lseg_cons] at this
              exact this.1
            have hheap := dequeue_heap hdeq hhead
            rw [hdeq] at hs
            cases hs
            exact Or.inr ⟨_, Trans.take i b p rest q1 hmain hget rfl hh hheap⟩
        | busy p todo =>
          cases todo with
          | nil =>
            simp only at hs
            cases hs
            exact Or.inr ⟨_, Trans.acknowledge i p hmain hget⟩
          | cons eff todo =>
            cases eff with
            | stdout l =>
              simp only at hs
              cases hs
              exact Or.inr ⟨_, Trans.print i p l todo hmain hget⟩
            | stderr l =>
              simp only at hs
              cases hs
              exact Or.inr ⟨_, Trans.complain i p l todo hmain hget⟩
            | enqueue c =>
              simp only at hs
              cases he : s.enqueue c a with
              | none => rw [he] at hs; cases hs
              | some s2 =>
                rw [he] at hs
                simp only [Option.map_some', Option.some.injEq] at hs
                have halloc := Sys.enqueue_heap_grows he
                obtain ⟨q1, hs2, hh, _⟩ := Sys.enqueue_spec hinv.holds he
                subst hs2
                subst hs
                exact Or.inr ⟨_, Trans.discover i a p c todo q1 hmain hget
                  (by simpa [lift_nodes] using hh) halloc⟩

theorem Trans.holds {cfg : Config} {D : Nat} {s s1 : Sys} {nodes nodes1 : List (Nat × String)}
    (hinv : Inv cfg D s nodes) (ht : Trans cfg s nodes s1 nodes1) :
    s1.q.Holds (lift_nodes nodes1) := by
  cases ht with
  | seed a q1 _ hh _ => exact hh
  | create k _ _ => exact hinv.holds
  | wait k _ _ => exact hinv.holds
  | finish _ _ => exact hinv.holds
  | take i b p rest q1 _ _ _ hh _ => exact hh
  | print i p l todo _ _ => exact hinv.holds
  | complain i p l todo _ _ => exact hinv.holds
  | discover i a p c todo q1 _ _ hh _ => exact hh
  | acknowledge i p _ _ => exact hinv.holds

theorem Trans.inv {cfg : Config} {D : Nat} {s s1 : Sys} {nodes nodes1 : List (Nat × String)}
    {act : Action} (hinv : Inv cfg D s nodes) (hs : step cfg s act = some s1)
    (ht : Trans cfg s nodes s1 nodes1) : Inv cfg D s1 nodes1 := by
  obtain ⟨nodes2, hinv2⟩ := step_inv hinv hs
  have heq : nodes2 = nodes1 :=
    lift_nodes_injective (hinv2.holds.unique (ht.holds hinv))
  rw [← heq]
  exact hinv2

/-! ## The history invariant -/

theorem has_stdout_readdir_loop (p : String) (entries : List dirent) :
    has_stdout (readdir_loop p entries) = false := by
  rw [readdir_loop_eq]
  induction entries.filter is_subdir with
  | nil => rfl
  | cons e rest ih => simpa [has_stdout] using ih

theorem has_stdout_tail (opendir : String → Option (List dirent)) (p : String) :
    has_stdout (process_directory opendir p).tail = false := by
  unfold process_directory
  cases opendir p with
  | none => rfl
  | some entries => exact has_stdout_readdir_loop p entries

theorem has_stdout_of_suffix {l1 l2 : List Effect} (h : l1 <:+ l2)
    (h2 : has_stdout l2 = false) : has_stdout l1 = false := by
  obtain ⟨t, rfl⟩ := h
  induction t with
  | nil => exact h2
  | cons e rest ih =>
    cases e with
    | stdout l => simp [has_stdout] at h2
    | stderr l => exact ih (by simpa [has_stdout] using h2)
    | enqueue c => exact ih (by simpa [has_stdout] using h2)

theorem suffix_process_directory {opendir : String → Option (List dirent)} {p : String}
    {todo : List Effect} (h : todo <:+ process_directory opendir p) :
    todo = process_directory opendir p ∨
      (todo <:+ (process_directory opendir p).tail ∧ has_stdout todo = false) := by
  have hpd : process_directory opendir p =
      Effect.stdout p :: (process_directory opendir p).tail := by
    unfold process_directory
    rfl
  rw [hpd, List.suffix_cons_iff] at h
  rcases h with h | h
  · exact Or.inl (by rw [hpd]; exact h)
  · exact Or.inr ⟨h, has_stdout_of_suffix h (has_stdout_tail opendir p)⟩

theorem suffix_stdout_head {opendir : String → Option (List dirent)} {p l : String}
    {todo : List Effect} (h : (Effect.stdout l :: todo) <:+ process_directory opendir p) :
    l = p ∧ has_stdout todo = false := by
  rcases suffix_process_directory h with h1 | ⟨_, h2⟩
  · have hpd : process_directory opendir p =
        Effect.stdout p :: (process_directory opendir p).tail := by
      unfold process_directory
      rfl
    rw [hpd] at h1
    simp only [List.cons.injEq, Effect.stdout.injEq] at h1
    refine ⟨h1.1, ?_⟩
    rw [h1.2]
    exact has_stdout_tail opendir p
  · simp [has_stdout] at h2

theorem suffix_other_head {opendir : String → Option (List dirent)} {p : String} {e : Effect}
    {todo : List Effect} (h : (e :: todo) <:+ process_directory opendir p)
    (he : ∀ l, e ≠ Effect.stdout l) : has_stdout (e :: todo) = false := by
  rcases suffix_process_directory h with h1 | ⟨_, h2⟩
  · have hpd : process_directory opendir p =
        Effect.stdout p :: (process_directory opendir p).tail := by
      unfold process_directory
      rfl
    rw [hpd] at h1
    simp only [List.cons.injEq] at h1
    exact absurd h1.1 (he p)
  · exact h2

theorem suffix_enqueue_mem {opendir : String → Option (List dirent)} {p c : String}
    {todo : List Effect} (h : todo <:+ process_directory opendir p)
    (hc : Effect.enqueue c ∈ todo) : c ∈ dir_children opendir p :=
  (enqueue_mem_process_directory opendir p c).mp (h.subset hc)

theorem justified_append {cfg : Config} {out : List String} {x : String} (l : String)
    (h : justified cfg out x) : justified cfg (out ++ [l]) x := by
  rcases h with h | ⟨p, hp, hx⟩
  · exact Or.inl h
  · exact Or.inr ⟨p, List.mem_append_left _ hp, hx⟩

theorem not_mem_sum_succ (l : List Nat) : l.sum + 1 ∉ l := by
  have hle : ∀ x ∈ l, x ≤ l.sum := by
    intro x hx
    induction l with
    | nil => cases hx
    | cons y rest ih =>
      rw [List.sum_cons]
      rcases List.mem_cons.mp hx with h | h
      · omega
      · have := ih h
        omega
  intro hmem
  have := hle _ hmem
  omega

theorem mem_set_busy {ws : List Worker} {i : Nat} {w : Worker} {p : String}
    {todo : List Effect} (h : Worker.busy p todo ∈ ws.set i w) :
    Worker.busy p todo ∈ ws ∨ Worker.busy p todo = w :=
  List.mem_or_eq_of_mem_set h

/-! ## The history invariant is kept by every step -/

theorem Hist.at_start (cfg : Config) (D : Nat) : Hist cfg D Sys.init [] where
  alloc := by intro a h; exact absurd rfl h
  spawned_start := by intro _; rfl
  spawned_count := by intro k h; cases h
  spawned_all := by intro h; rcases h with h | h <;> cases h
  suffix := by intro p todo h; cases h
  taken := by intro p todo h; cases h
  parent_busy := by intro p todo h; cases h
  printed_busy := by intro p todo h; cases h
  parent_queue := by intro n h; cases h
  order_out := by intro j x h; simp [Sys.init] at h
  order_calls := by intro k c h; simp [Sys.init] at h
  n_deq := by decide
  n_out := by decide
  steps := by
    intro _
    simp [steps_done, Sys.cost, steps_total, Sys.init]

theorem Trans.alloc {cfg : Config} {D : Nat} {s s1 : Sys}
    {nodes nodes1 : List (Nat × String)} (h : Hist cfg D s nodes)
    (ht : Trans cfg s nodes s1 nodes1) :
    ∀ a, s1.q.heap a ≠ none → a ∈ nodes1.map Prod.fst := by
  cases ht with
  | seed a q1 _ _ halloc =>
    intro x hx
    rw [List.map_append, List.mem_append]
    rcases halloc x hx with rfl | hx2
    · exact Or.inr (by simp)
    · exact Or.inl (h.alloc x hx2)
  | take i b p rest q1 _ _ hnodes _ hheap =>
    intro x hx
    simp only [hheap] at hx
    by_cases hxb : x = b
    · rw [hxb, Function.update_same] at hx
      exact absurd rfl hx
    · rw [Function.update_noteq hxb] at hx
      have := h.alloc x hx
      rw [hnodes] at this
      simp only [List.map_cons, List.mem_cons] at this
      rcases this with h1 | h1
      · exact absurd h1 hxb
      · exact h1
  | discover i a p c todo q1 _ _ _ halloc =>
    intro x hx
    rw [List.map_append, List.mem_append]
    rcases halloc x hx with rfl | hx2
    · exact Or.inr (by simp)
    · exact Or.inl (h.alloc x hx2)
  | _ => exact h.alloc

theorem Trans.spawned_start {cfg : Config} {D : Nat} {s s1 : Sys}
    {nodes nodes1 : List (Nat × String)} (h : Hist cfg D s nodes)
    (ht : Trans cfg s nodes s1 nodes1) :
    s1.main = .start → s1.workers = [] := by
  cases ht with
  | seed a q1 _ _ _ => intro hm; cases hm
  | create k _ _ => intro hm; cases hm
  | wait k _ _ => intro hm; cases hm
  | finish _ _ => intro hm; cases hm
  | take i b p rest q1 _ hget _ _ _ =>
    intro hm
    have := h.spawned_start hm
    rw [this] at hget
    cases hget
  | print i p l todo _ hget =>
    intro hm
    have := h.spawned_start hm
    rw [this] at hget
    cases hget
  | complain i p l todo _ hget =>
    intro hm
    have := h.spawned_start hm
    rw [this] at hget
    cases hget
  | discover i a p c todo q1 _ hget _ _ =>
    intro hm
    have := h.spawned_start hm
    rw [this] at hget
    cases hget
  | acknowledge i p _ hget =>
    intro hm
    have := h.spawned_start hm
    rw [this] at hget
    cases hget

theorem Trans.spawned_count {cfg : Config} {D : Nat} {s s1 : Sys}
    {nodes nodes1 : List (Nat × String)} (h : Hist cfg D s nodes)
    (ht : Trans cfg s nodes s1 nodes1) :
    ∀ k, s1.main = .spawn k → s1.workers.length = k ∧ k ≤ cfg.pool := by
  cases ht with
  | seed a q1 hmain _ _ =>
    intro k hm
    cases hm
    exact ⟨by rw [h.spawned_start hmain]; rfl, Nat.zero_le _⟩
  | create k hmain hk =>
    intro k1 hm
    cases hm
    obtain ⟨h1, _⟩ := h.spawned_count k hmain
    exact ⟨by simp [h1], hk⟩
  | wait k _ _ => intro k1 hm; cases hm
  | finish _ _ => intro k1 hm; cases hm
  | take i b p rest q1 _ _ _ _ _ =>
    intro k hm
    have := h.spawned_count k hm
    simpa using this
  | print i p l todo _ _ =>
    intro k hm
    have := h.spawned_count k hm
    simpa using this
  | complain i p l todo _ _ =>
    intro k hm
    have := h.spawned_count k hm
    simpa using this
  | discover i a p c todo q1 _ _ _ _ =>
    intro k hm
    have := h.spawned_count k hm
    simpa using this
  | acknowledge i p _ _ =>
    intro k hm
    have := h.spawned_count k hm
    simpa using this

theorem Trans.spawned_all {cfg : Config} {D : Nat} {s s1 : Sys}
    {nodes nodes1 : List (Nat × String)} (h : Hist cfg D s nodes)
    (ht : Trans cfg s nodes s1 nodes1) :
    s1.main = .waiting ∨ s1.main = .returned → s1.workers.length = cfg.pool := by
  cases ht with
  | seed a q1 _ _ _ => intro hm; rcases hm with hm | hm <;> cases hm
  | create k _ _ => intro hm; rcases hm with hm | hm <;> cases hm
  | wait k hmain hk =>
    intro _
    obtain ⟨h1, h2⟩ := h.spawned_count k hmain
    show s.workers.length = cfg.pool
    omega
  | finish hmain _ =>
    intro _
    exact h.spawned_all (Or.inl hmain)
  | take i b p rest q1 _ _ _ _ _ =>
    intro hm
    have := h.spawned_all hm
    simpa using this
  | print i p l todo _ _ =>
    intro hm
    have := h.spawned_all hm
    simpa using this
  | complain i p l todo _ _ =>
    intro hm
    have := h.spawned_all hm
    simpa using this
  | discover i a p c todo q1 _ _ _ _ =>
    intro hm
    have := h.spawned_all hm
    simpa using this
  | acknowledge i p _ _ =>
    intro hm
    have := h.spawned_all hm
    simpa using this

theorem Trans.suffix {cfg : Config} {D : Nat} {s s1 : Sys}
    {nodes nodes1 : List (Nat × String)} (h : Hist cfg D s nodes)
    (ht : Trans cfg s nodes s1 nodes1) :
    ∀ p todo, Worker.busy p todo ∈ s1.workers →
      todo <:+ process_directory cfg.opendir p := by
  cases ht with
  | create k _ _ =>
    intro p todo hw
    simp only [List.mem_append, List.mem_singleton] at hw
    rcases hw with hw | hw
    · exact h.suffix p todo hw
    · cases hw
  | take i b p rest q1 _ _ _ _ _ =>
    intro p2 todo2 hw
    rcases mem_set_busy hw with hw | hw
    · exact h.suffix p2 todo2 hw
    · cases hw
      exact List.suffix_refl _
  | print i p l todo _ hget =>
    intro p2 todo2 hw
    rcases mem_set_busy hw with hw | hw
    · exact h.suffix p2 todo2 hw
    · cases hw
      exact (List.suffix_cons _ _).trans (h.suffix _ _ (List.getElem?_mem hget))
  | complain i p l todo _ hget =>
    intro p2 todo2 hw
    rcases mem_set_busy hw with hw | hw
    · exact h.suffix p2 todo2 hw
    · cases hw
      exact (List.suffix_cons _ _).trans (h.suffix _ _ (List.getElem?_mem hget))
  | discover i a p c todo q1 _ hget _ _ =>
    intro p2 todo2 hw
    rcases mem_set_busy hw with hw | hw
    · exact h.suffix p2 todo2 hw
    · cases hw
      exact (List.suffix_cons _ _).trans (h.suffix _ _ (List.getElem?_mem hget))
  | acknowledge i p _ _ =>
    intro p2 todo2 hw
    rcases mem_set_busy hw with hw | hw
    · exact h.suffix p2 todo2 hw
    · cases hw
  | _ => exact h.suffix

theorem Trans.taken {cfg : Config} {D : Nat} {s s1 : Sys}
    {nodes nodes1 : List (Nat × String)} (h : Hist cfg D s nodes)
    (ht : Trans cfg s nodes s1 nodes1) :
    ∀ p todo, Worker.busy p todo ∈ s1.workers → Call.dequeue (some p) ∈ s1.calls := by
  cases ht with
  | seed a q1 _ _ _ =>
    intro p todo hw
    exact List.mem_append_left _ (h.taken p todo hw)
  | create k _ _ =>
    intro p todo hw
    simp only [List.mem_append, List.mem_singleton] at hw
    rcases hw with hw | hw
    · exact h.taken p todo hw
    · cases hw
  | take i b p rest q1 _ _ _ _ _ =>
    intro p2 todo2 hw
    rcases mem_set_busy hw with hw | hw
    · exact List.mem_append_left _ (h.taken p2 todo2 hw)
    · cases hw
      exact List.mem_append_right _ (by simp)
  | print i p l todo _ hget =>
    intro p2 todo2 hw
    rcases mem_set_busy hw with hw | hw
    · exact h.taken p2 todo2 hw
    · cases hw
      exact h.taken _ _ (List.getElem?_mem hget)
  | complain i p l todo _ hget =>
    intro p2 todo2 hw
    rcases mem_set_busy hw with hw | hw
    · exact h.taken p2 todo2 hw
    · cases hw
      exact h.taken _ _ (List.getElem?_mem hget)
  | discover i a p c todo q1 _ hget _ _ =>
    intro p2 todo2 hw
    rcases mem_set_busy hw with hw | hw
    · exact List.mem_append_left _ (h.taken p2 todo2 hw)
    · cases hw
      exact List.mem_append_left _ (h.taken _ _ (List.getElem?_mem hget))
  | acknowledge i p _ _ =>
    intro p2 todo2 hw
    rcases mem_set_busy hw with hw | hw
    · exact List.mem_append_left _ (h.taken p2 todo2 hw)
    · cases hw
  | _ => exact h.taken

theorem Trans.parent_busy {cfg : Config} {D : Nat} {s s1 : Sys}
    {nodes nodes1 : List (Nat × String)} (h : Hist cfg D s nodes)
    (ht : Trans cfg s nodes s1 nodes1) :
    ∀ p todo, Worker.busy p todo ∈ s1.workers → has_stdout todo = true →
      justified cfg s1.out p := by
  cases ht with
  | create k _ _ =>
    intro p todo hw
    simp only [List.mem_append, List.mem_singleton] at hw
    rcases hw with hw | hw
    · exact h.parent_busy p todo hw
    · cases hw
  | take i b p rest q1 _ _ hnodes _ _ =>
    intro p2 todo2 hw hs
    rcases mem_set_busy hw with hw | hw
    · exact h.parent_busy p2 todo2 hw hs
    · cases hw
      exact h.parent_queue (b, p) (by rw [hnodes]; simp)
  | print i p l todo _ hget =>
    intro p2 todo2 hw hs
    apply justified_append
    rcases mem_set_busy hw with hw | hw
    · exact h.parent_busy p2 todo2 hw hs
    · cases hw
      exact h.parent_busy _ _ (List.getElem?_mem hget) rfl
  | complain i p l todo _ hget =>
    intro p2 todo2 hw hs
    rcases mem_set_busy hw with hw | hw
    · exact h.parent_busy p2 todo2 hw hs
    · cases hw
      exact h.parent_busy _ _ (List.getElem?_mem hget) (by simpa [has_stdout] using hs)
  | discover i a p c todo q1 _ hget _ _ =>
    intro p2 todo2 hw hs
    rcases mem_set_busy hw with hw | hw
    · exact h.parent_busy p2 todo2 hw hs
    · cases hw
      exact h.parent_busy _ _ (List.getElem?_mem hget) (by simpa [has_stdout] using hs)
  | acknowledge i p _ _ =>
    intro p2 todo2 hw hs
    rcases mem_set_busy hw with hw | hw
    · exact h.parent_busy p2 todo2 hw hs
    · cases hw
  | _ => exact h.parent_busy

theorem Trans.printed_busy {cfg : Config} {D : Nat} {s s1 : Sys}
    {nodes nodes1 : List (Nat × String)} (h : Hist cfg D s nodes)
    (ht : Trans cfg s nodes s1 nodes1) :
    ∀ p todo, Worker.busy p todo ∈ s1.workers → has_stdout todo = false → p ∈ s1.out := by
  cases ht with
  | create k _ _ =>
    intro p todo hw
    simp only [List.mem_append, List.mem_singleton] at hw
    rcases hw with hw | hw
    · exact h.printed_busy p todo hw
    · cases hw
  | take i b p rest q1 _ _ _ _ _ =>
    intro p2 todo2 hw hs
    rcases mem_set_busy hw with hw | hw
    · exact h.printed_busy p2 todo2 hw hs
    · cases hw
      simp [process_directory, has_stdout] at hs
  | print i p l todo _ hget =>
    intro p2 todo2 hw hs
    rcases mem_set_busy hw with hw | hw
    · exact List.mem_append_left _ (h.printed_busy p2 todo2 hw hs)
    · cases hw
      have := (suffix_stdout_head (h.suffix _ _ (List.getElem?_mem hget))).1
      rw [this]
      exact List.mem_append_right _ (by simp)
  | complain i p l todo _ hget =>
    intro p2 todo2 hw hs
    rcases mem_set_busy hw with hw | hw
    · exact h.printed_busy p2 todo2 hw hs
    · cases hw
      exact h.printed_busy _ _ (List.getElem?_mem hget) (by simpa [has_stdout] using hs)
  | discover i a p c todo q1 _ hget _ _ =>
    intro p2 todo2 hw hs
    rcases mem_set_busy hw with hw | hw
    · exact h.printed_busy p2 todo2 hw hs
    · cases hw
      exact h.printed_busy _ _ (List.getElem?_mem hget) (by simpa [has_stdout] using hs)
  | acknowledge i p _ _ =>
    intro p2 todo2 hw hs
    rcases mem_set_busy hw with hw | hw
    · exact h.printed_busy p2 todo2 hw hs
    · cases hw
  | _ => exact h.printed_busy

theorem Trans.parent_queue {cfg : Config} {D : Nat} {s s1 : Sys}
    {nodes nodes1 : List (Nat × String)} (h : Hist cfg D s nodes)
    (ht : Trans cfg s nodes s1 nodes1) :
    ∀ n ∈ nodes1, justified cfg s1.out n.2 := by
  cases ht with
  | seed a q1 _ _ _ =>
    intro n hn
    rw [List.mem_append, List.mem_singleton] at hn
    rcases hn with hn | rfl
    · exact h.parent_queue n hn
    · exact Or.inl rfl
  | take i b p rest q1 _ _ hnodes _ _ =>
    intro n hn
    exact h.parent_queue n (by rw [hnodes]; exact List.mem_cons_of_mem _ hn)
  | print i p l todo _ _ =>
    intro n hn
    exact justified_append l (h.parent_queue n hn)
  | discover i a p c todo q1 _ hget _ _ =>
    intro n hn
    rw [List.mem_append, List.mem_singleton] at hn
    rcases hn with hn | rfl
    · exact h.parent_queue n hn
    · have hsuf := h.suffix _ _ (List.getElem?_mem hget)
      have hprinted := h.printed_busy _ _ (List.getElem?_mem hget)
        (suffix_other_head hsuf (fun l e => by cases e))
      exact Or.inr ⟨p, hprinted, suffix_enqueue_mem hsuf (by simp)⟩
  | _ => exact h.parent_queue

theorem Trans.order_out {cfg : Config} {D : Nat} {s s1 : Sys}
    {nodes nodes1 : List (Nat × String)} (h : Hist cfg D s nodes)
    (ht : Trans cfg s nodes s1 nodes1) :
    ∀ (j : Nat) (x : String), s1.out[j]? = some x →
      x = cfg.root ∨
        ∃ (i : Nat) (p : String), i < j ∧ s1.out[i]? = some p ∧
          x ∈ dir_children cfg.opendir p := by
  cases ht with
  | print i p l todo _ hget =>
    intro j x hj
    have hlp := (suffix_stdout_head (h.suffix _ _ (List.getElem?_mem hget))).1
    show x = cfg.root ∨ ∃ (i : Nat) (p : String), i < j ∧ (s.out ++ [l])[i]? = some p ∧ _
    have hj2 : (s.out ++ [l])[j]? = some x := hj
    by_cases hlt : j < s.out.length
    · rw [List.getElem?_append_left hlt] at hj2
      rcases h.order_out j x hj2 with h1 | ⟨i1, p1, hi1, hp1, hx⟩
      · exact Or.inl h1
      · exact Or.inr ⟨i1, p1, hi1,
          by rw [List.getElem?_append_left (by omega)]; exact hp1, hx⟩
    · have hjlen : j = s.out.length := by
        have := (List.getElem?_eq_some_iff.mp hj2).1
        simp only [List.length_append, List.length_singleton] at this
        omega
      subst hjlen
      rw [List.getElem?_concat_length] at hj2
      cases hj2
      rcases h.parent_busy _ _ (List.getElem?_mem hget) rfl with h1 | ⟨q, hq, hx⟩
      · exact Or.inl (hlp.trans h1)
      · obtain ⟨i1, hi1, hq1⟩ := List.getElem_of_mem hq
        refine Or.inr ⟨i1, q, hi1, ?_, by rw [hlp]; exact hx⟩
        rw [List.getElem?_append_left hi1, List.getElem?_eq_getElem hi1, hq1]
  | _ => exact h.order_out

theorem order_calls_append {cfg : Config} {calls : List Call} {c1 : Call}
    (h : ∀ (k : Nat) (c : String), calls[k]? = some (.enqueue c) →
      c = cfg.root ∨
        ∃ (j : Nat) (p : String), j < k ∧ calls[j]? = some (.dequeue (some p)) ∧
          c ∈ dir_children cfg.opendir p)
    (hnew : ∀ c, c1 = .enqueue c →
      c = cfg.root ∨ ∃ p, Call.dequeue (some p) ∈ calls ∧ c ∈ dir_children cfg.opendir p) :
    ∀ (k : Nat) (c : String), (calls ++ [c1])[k]? = some (.enqueue c) →
      c = cfg.root ∨
        ∃ (j : Nat) (p : String), j < k ∧ (calls ++ [c1])[j]? = some (.dequeue (some p)) ∧
          c ∈ dir_children cfg.opendir p := by
  intro k c hk
  by_cases hlt : k < calls.length
  · rw [List.getElem?_append_left hlt] at hk
    rcases h k c hk with h1 | ⟨j, p, hj, hp, hc⟩
    · exact Or.inl h1
    · exact Or.inr ⟨j, p, hj, by rw [List.getElem?_append_left (by omega)]; exact hp, hc⟩
  · have hklen : k = calls.length := by
      have := (List.getElem?_eq_some_iff.mp hk).1
      simp only [List.length_append, List.length_singleton] at this
      omega
    subst hklen
    rw [List.getElem?_concat_length] at hk
    cases hk
    rcases hnew c rfl with h1 | ⟨p, hp, hc⟩
    · exact Or.inl h1
    · obtain ⟨j, hj, hpj⟩ := List.getElem_of_mem hp
      refine Or.inr ⟨j, p, hj, ?_, hc⟩
      rw [List.getElem?_append_left hj, List.getElem?_eq_getElem hj, hpj]

theorem Trans.order_calls {cfg : Config} {D : Nat} {s s1 : Sys}
    {nodes nodes1 : List (Nat × String)} (h : Hist cfg D s nodes)
    (ht : Trans cfg s nodes s1 nodes1) :
    ∀ (k : Nat) (c : String), s1.calls[k]? = some (.enqueue c) →
      c = cfg.root ∨
        ∃ (j : Nat) (p : String), j < k ∧ s1.calls[j]? = some (.dequeue (some p)) ∧
          c ∈ dir_children cfg.opendir p := by
  cases ht with
  | seed a q1 _ _ _ =>
    exact order_calls_append h.order_calls (fun c hc => by cases hc; exact Or.inl rfl)
  | take i b p rest q1 _ _ _ _ _ =>
    exact order_calls_append h.order_calls (fun c hc => by cases hc)
  | discover i a p c todo q1 _ hget _ _ =>
    refine order_calls_append h.order_calls (fun c2 hc => ?_)
    cases hc
    have hsuf := h.suffix _ _ (List.getElem?_mem hget)
    exact Or.inr ⟨p, h.taken _ _ (List.getElem?_mem hget), suffix_enqueue_mem hsuf (by simp)⟩
  | acknowledge i p _ _ =>
    exact order_calls_append h.order_calls (fun c hc => by cases hc)
  | _ => exact h.order_calls

theorem dequeue_calls_append (cs : List Call) (c : Call) :
    dequeue_calls (cs ++ [c]) =
      dequeue_calls cs + (match c with | .dequeue _ => 1 | _ => 0) := by
  unfold dequeue_calls
  rw [List.filter_append, List.length_append]
  cases c <;> simp

theorem Trans.n_deq {cfg : Config} {D : Nat} {s s1 : Sys}
    {nodes nodes1 : List (Nat × String)} (h : Hist cfg D s nodes)
    (ht : Trans cfg s nodes s1 nodes1) :
    dequeue_calls s1.calls + nodes1.length = enqueue_calls s1.calls := by
  have h0 := h.n_deq
  cases ht with
  | seed a q1 _ _ _ =>
    simp only [dequeue_calls_append, enqueue_calls_append, List.length_append,
      List.length_singleton]
    omega
  | take i b p rest q1 _ _ hnodes _ _ =>
    rw [hnodes] at h0
    simp only [dequeue_calls_append, enqueue_calls_append, List.length_cons] at h0 ⊢
    omega
  | discover i a p c todo q1 _ _ _ _ =>
    simp only [dequeue_calls_append, enqueue_calls_append, List.length_append,
      List.length_singleton]
    omega
  | acknowledge i p _ _ =>
    simp only [dequeue_calls_append, enqueue_calls_append]
    omega
  | _ => exact h0

theorem Trans.n_out {cfg : Config} {D : Nat} {s s1 : Sys}
    {nodes nodes1 : List (Nat × String)} (h : Hist cfg D s nodes)
    (ht : Trans cfg s nodes s1 nodes1) :
    s1.out.length + (s1.workers.map Worker.unprinted).sum = dequeue_calls s1.calls := by
  have h0 := h.n_out
  have hidle : Worker.unprinted Worker.idle = 0 := rfl
  cases ht with
  | seed a q1 _ _ _ =>
    show s.out.length + (s.workers.map Worker.unprinted).sum =
      dequeue_calls (s.calls ++ [Call.enqueue cfg.root])
    rw [dequeue_calls_append]
    exact h0
  | create k _ _ =>
    show s.out.length + ((s.workers ++ [Worker.idle]).map Worker.unprinted).sum =
      dequeue_calls s.calls
    rw [List.map_append, List.sum_append]
    simp only [List.map_cons, List.map_nil, List.sum_cons, List.sum_nil, hidle]
    omega
  | wait k _ _ => exact h0
  | finish _ _ => exact h0
  | take i b p rest q1 _ hget _ _ _ =>
    have hset := sum_map_set Worker.unprinted s.workers i _
      (Worker.busy p (process_directory cfg.opendir p)) hget
    have hbusy : Worker.unprinted (Worker.busy p (process_directory cfg.opendir p)) = 1 := by
      simp [Worker.unprinted, process_directory, has_stdout]
    rw [hidle, hbusy] at hset
    show s.out.length +
      ((s.workers.set i (Worker.busy p (process_directory cfg.opendir p))).map
        Worker.unprinted).sum = dequeue_calls (s.calls ++ [Call.dequeue (some p)])
    rw [dequeue_calls_append]
    simp only []
    omega
  | print i p l todo _ hget =>
    have hset := sum_map_set Worker.unprinted s.workers i _ (Worker.busy p todo) hget
    have hno := (suffix_stdout_head (h.suffix _ _ (List.getElem?_mem hget))).2
    have hold : Worker.unprinted (Worker.busy p (Effect.stdout l :: todo)) = 1 := by
      simp [Worker.unprinted, has_stdout]
    have hnew : Worker.unprinted (Worker.busy p todo) = 0 := by
      simp [Worker.unprinted, hno]
    rw [hold, hnew] at hset
    show (s.out ++ [l]).length + ((s.workers.set i (Worker.busy p todo)).map
      Worker.unprinted).sum = dequeue_calls s.calls
    rw [List.length_append, List.length_singleton]
    omega
  | complain i p l todo _ hget =>
    have hset := sum_map_set Worker.unprinted s.workers i _ (Worker.busy p todo) hget
    have hold : Worker.unprinted (Worker.busy p (Effect.stderr l :: todo)) =
        Worker.unprinted (Worker.busy p todo) := by
      simp [Worker.unprinted, has_stdout]
    rw [hold] at hset
    show s.out.length + ((s.workers.set i (Worker.busy p todo)).map
      Worker.unprinted).sum = dequeue_calls s.calls
    omega
  | discover i a p c todo q1 _ hget _ _ =>
    have hset := sum_map_set Worker.unprinted s.workers i _ (Worker.busy p todo) hget
    have hold : Worker.unprinted (Worker.busy p (Effect.enqueue c :: todo)) =
        Worker.unprinted (Worker.busy p todo) := by
      simp [Worker.unprinted, has_stdout]
    rw [hold] at hset
    show s.out.length + ((s.workers.set i (Worker.busy p todo)).map
      Worker.unprinted).sum = dequeue_calls (s.calls ++ [Call.enqueue c])
    rw [dequeue_calls_append]
    simp only []
    omega
  | acknowledge i p _ hget =>
    have hset := sum_map_set Worker.unprinted s.workers i _ Worker.idle hget
    have hold : Worker.unprinted (Worker.busy p []) = 0 := by
      simp [Worker.unprinted, has_stdout]
    rw [hold, hidle] at hset
    show s.out.length + ((s.workers.set i Worker.idle).map
      Worker.unprinted).sum = dequeue_calls (s.calls ++ [Call.queue_processed])
    rw [dequeue_calls_append]
    simp only []
    omega

theorem sum_map_flatMap {α β : Type} (f : α → List β) (g : β → Nat) (l : List α) :
    ((l.flatMap f).map g).sum = (l.map fun c => ((f c).map g).sum).sum := by
  induction l with
  | nil => rfl
  | cons x rest ih =>
    rw [List.flatMap_cons, List.map_append, List.sum_append, ih, List.map_cons, List.sum_cons]

theorem effect_cost_sum (opendir : String → Option (List dirent)) (D : Nat)
    (effs : List Effect) :
    (effs.map (Effect.cost opendir D)).sum =
      effs.length + ((enqueue_events effs).map (cost opendir D)).sum := by
  induction effs with
  | nil => rfl
  | cons e rest ih =>
    cases e with
    | stdout l =>
      simp only [List.map_cons, List.sum_cons, Effect.cost, enqueue_events, List.length_cons, ih]
      omega
    | stderr l =>
      simp only [List.map_cons, List.sum_cons, Effect.cost, enqueue_events, List.length_cons, ih]
      omega
    | enqueue c =>
      simp only [List.map_cons, List.sum_cons, Effect.cost, enqueue_events, List.length_cons, ih]
      omega

theorem enqueue_events_process_directory (opendir : String → Option (List dirent))
    (p : String) : enqueue_events (process_directory opendir p) = dir_children opendir p := by
  unfold process_directory dir_children
  cases opendir p with
  | none => rfl
  | some entries =>
    simp only [enqueue_events]
    exact enqueue_events_readdir_loop p entries

theorem cost_succ (opendir : String → Option (List dirent)) (n : Nat) (p : String)
    (h : depth_le opendir n p = true) : cost opendir (n + 1) p = cost opendir n p := by
  unfold cost
  rw [reachable_dirs_succ opendir n p h]

theorem cost_unfold (opendir : String → Option (List dirent)) (D : Nat) (p : String)
    (h : depth_le opendir D p = true) :
    cost opendir D p = ((process_directory opendir p).map (Effect.cost opendir D)).sum + 2 := by
  cases D with
  | zero => simp [depth_le] at h
  | succ n =>
    rw [depth_le, List.all_eq_true] at h
    rw [effect_cost_sum, enqueue_events_process_directory]
    have hsum : ∀ l : List String, (∀ c ∈ l, depth_le opendir n c = true) →
        (l.map (cost opendir (n + 1))).sum = (l.map (cost opendir n)).sum := by
      intro l
      induction l with
      | nil => intro _; rfl
      | cons c rest ihl =>
        intro hl
        rw [List.map_cons, List.map_cons, List.sum_cons, List.sum_cons,
          ihl (fun d hd => hl d (by simp [hd])), cost_succ opendir n c (hl c (by simp))]
    rw [hsum _ h]
    conv_lhs => unfold cost
    rw [reachable_dirs, List.map_cons, List.sum_cons, sum_map_flatMap]
    unfold cost
    omega

theorem Trans.steps {cfg : Config} {D : Nat} {s s1 : Sys}
    {nodes nodes1 : List (Nat × String)} (h : Hist cfg D s nodes) (hinv : Inv cfg D s nodes)
    (ht : Trans cfg s nodes s1 nodes1) (hd : depth_le cfg.opendir D cfg.root = true) :
    steps_done s1 + s1.cost cfg D nodes1 = steps_total cfg D := by
  have h0 := h.steps hd
  simp only [steps_done, Sys.cost] at h0 ⊢
  cases ht with
  | seed a q1 hmain _ _ =>
    simp only [hmain, if_true] at h0
    simp only [List.length_append, List.length_singleton, List.map_append, List.sum_append,
      List.map_cons, List.map_nil, List.sum_cons, List.sum_nil]
    rw [if_neg (by simp)]
    omega
  | create k hmain _ =>
    simp only [hmain] at h0
    rw [if_neg (by simp)] at h0 ⊢
    simp only [List.map_append, List.sum_append, List.map_cons, List.map_nil, List.sum_cons,
      List.sum_nil, Worker.cost]
    omega
  | wait k hmain _ =>
    simp only [hmain] at h0
    rw [if_neg (by simp)] at h0 ⊢
    exact h0
  | finish hmain _ =>
    simp only [hmain] at h0
    rw [if_neg (by simp)] at h0 ⊢
    exact h0
  | take i b p rest q1 _ hget hnodes _ _ =>
    have hset := sum_map_set (Worker.cost cfg.opendir D) s.workers i _
      (Worker.busy p (process_directory cfg.opendir p)) hget
    have hp := cost_unfold cfg.opendir D p (hinv.fits_queue hd (b, p) (by rw [hnodes]; simp))
    rw [hnodes] at h0
    simp only [Worker.cost, List.map_cons, List.sum_cons] at hset h0
    simp only [List.length_append, List.length_singleton]
    omega
  | print i p l todo _ hget =>
    have hset := sum_map_set (Worker.cost cfg.opendir D) s.workers i _
      (Worker.busy p todo) hget
    simp only [Worker.cost, List.map_cons, List.sum_cons, Effect.cost] at hset
    simp only [List.length_append, List.length_singleton]
    omega
  | complain i p l todo _ hget =>
    have hset := sum_map_set (Worker.cost cfg.opendir D) s.workers i _
      (Worker.busy p todo) hget
    simp only [Worker.cost, List.map_cons, List.sum_cons, Effect.cost] at hset
    simp only [List.length_append, List.length_singleton]
    omega
  | discover i a p c todo q1 _ hget _ _ =>
    have hset := sum_map_set (Worker.cost cfg.opendir D) s.workers i _
      (Worker.busy p todo) hget
    simp only [Worker.cost, List.map_cons, List.sum_cons, Effect.cost] at hset
    simp only [List.length_append, List.length_singleton, List.map_append, List.sum_append,
      List.map_cons, List.map_nil, List.sum_cons, List.sum_nil]
    omega
  | acknowledge i p _ hget =>
    have hset := sum_map_set (Worker.cost cfg.opendir D) s.workers i _ Worker.idle hget
    simp only [Worker.cost, List.map_nil, List.sum_nil] at hset
    simp only [List.length_append, List.length_singleton]
    omega

theorem Trans.hist {cfg : Config} {D : Nat} {s s1 : Sys}
    {nodes nodes1 : List (Nat × String)} (h : Hist cfg D s nodes) (hinv : Inv cfg D s nodes)
    (ht : Trans cfg s nodes s1 nodes1) : Hist cfg D s1 nodes1 where
  alloc := ht.alloc h
  spawned_start := ht.spawned_start h
  spawned_count := ht.spawned_count h
  spawned_all := ht.spawned_all h
  suffix := ht.suffix h
  taken := ht.taken h
  parent_busy := ht.parent_busy h
  printed_busy := ht.printed_busy h
  parent_queue := ht.parent_queue h
  order_out := ht.order_out h
  order_calls := ht.order_calls h
  n_deq := ht.n_deq h
  n_out := ht.n_out h
  steps := ht.steps h hinv

theorem run_hist {cfg : Config} {D : Nat} :
    ∀ (sched : List Action) {s s1 : Sys} {nodes : List (Nat × String)},
      Inv cfg D s nodes → Hist cfg D s nodes → run cfg s sched = some s1 →
      ∃ nodes1, Inv cfg D s1 nodes1 ∧ Hist cfg D s1 nodes1 := by
  intro sched
  induction sched with
  | nil =>
    intro s s1 nodes hinv h hs
    simp only [run, Option.some.injEq] at hs
    subst hs
    exact ⟨nodes, hinv, h⟩
  | cons act rest ih =>
    intro s s1 nodes hinv h hs
    simp only [run] at hs
    cases hstep : step cfg s act with
    | none => rw [hstep] at hs; cases hs
    | some s2 =>
      rw [hstep] at hs
      rcases step_trans hinv hstep with heq | ⟨nodes2, ht⟩
      · rw [heq] at hs
        exact ih hinv h hs
      · exact ih (ht.inv hinv hstep) (ht.hist h hinv) hs

theorem reachable_hist {cfg : Config} {s : Sys} (D : Nat) (h : Reachable cfg s) :
    ∃ nodes, Inv cfg D s nodes ∧ Hist cfg D s nodes := by
  obtain ⟨sched, hs⟩ := h
  exact run_hist sched (Inv.init cfg D) (Hist.at_start cfg D) hs

/-! ## Causal order -/

theorem opened_of_child {opendir : String → Option (List dirent)} {p c : String}
    (h : c ∈ dir_children opendir p) : opendir p ≠ none := by
  intro hn
  simp [dir_children, hn] at h

/-- The steps of a thread that call `enqueue` are those inside
`process_directory` on the parent. -/
theorem enqueue_step_parent {cfg : Config} {s s1 : Sys} {i a : Nat} {c : String}
    (hs : step cfg s (.worker i a) = some s1) (hc : s1.calls = s.calls ++ [.enqueue c]) :
    ∃ p todo, s.workers[i]? = some (.busy p (.enqueue c :: todo)) := by
  have hne : ∀ x : Call, x ≠ Call.enqueue c →
      s.calls ++ [x] ≠ s.calls ++ [Call.enqueue c] := by
    intro x hx e
    have := List.append_cancel_left e
    simp only [List.cons.injEq, and_true] at this
    exact hx this
  have hself : s.calls ≠ s.calls ++ [Call.enqueue c] := by
    intro e
    have := congrArg List.length e
    simp at this
  simp only [step] at hs
  split at hs
  · cases hs
  · unfold crawl_step at hs
    cases hget : s.workers[i]? with
    | none => rw [hget] at hs; cases hs
    | some w =>
      rw [hget] at hs
      cases w with
      | idle =>
        simp only at hs
        split at hs
        · cases hs
          exact absurd hc hself
        · cases hs
        · cases hs
          exact absurd hc (hne _ (by simp))
        · cases hs
          exact absurd hc (hne _ (by simp))
      | busy p todo =>
        cases todo with
        | nil =>
          cases hs
          exact absurd hc (hne _ (by simp))
        | cons e rest =>
          cases e with
          | stdout l =>
            cases hs
            exact absurd hc hself
          | stderr l =>
            cases hs
            exact absurd hc hself
          | enqueue c2 =>
            simp only at hs
            cases he : s.enqueue c2 a with
            | none => rw [he] at hs; cases hs
            | some s2 =>
              rw [he] at hs
              cases hs
              have hcalls := (Sys.enqueue_workers he).2.2.2.2
              have : s2.calls = s.calls ++ [Call.enqueue c] := hc
              rw [hcalls] at this
              have := List.append_cancel_left this
              simp only [List.cons.injEq, Call.enqueue.injEq, and_true] at this
              subst this
              exact ⟨p, rest, rfl⟩

/-- C15. Causal order: in every reachable state, every `enqueue` call in the
call log for a path other than the root comes after a `dequeue` call that
returned a directory which `opendir` opens and of which the path is a
subdirectory; a step of a thread that calls `enqueue(c)` is taken inside
`process_directory` on such a parent, whose line is already printed; and on
the visited stream every line other than the root comes after the line of a
directory of which it is a subdirectory. -/
theorem causal_order (cfg : Config) (s : Sys) (hreach : Reachable cfg s) :
    (∀ (k : Nat) (c : String), s.calls[k]? = some (.enqueue c) → c ≠ cfg.root →
        ∃ (j : Nat) (p : String), j < k ∧ s.calls[j]? = some (.dequeue (some p)) ∧
          cfg.opendir p ≠ none ∧ c ∈ dir_children cfg.opendir p) ∧
      (∀ (i a : Nat) (c : String) (s1 : Sys), step cfg s (.worker i a) = some s1 →
        s1.calls = s.calls ++ [.enqueue c] →
        ∃ p todo, s.workers[i]? = some (.busy p (.enqueue c :: todo)) ∧
          c ∈ dir_children cfg.opendir p ∧ cfg.opendir p ≠ none ∧ p ∈ s.out ∧
          Call.dequeue (some p) ∈ s.calls) ∧
      (∀ (j : Nat) (x : String), s.out[j]? = some x → x ≠ cfg.root →
        ∃ (i : Nat) (p : String), i < j ∧ s.out[i]? = some p ∧
          x ∈ dir_children cfg.opendir p) := by
  obtain ⟨nodes, _, h⟩ := reachable_hist 0 hreach
  refine ⟨?_, ?_, ?_⟩
  · intro k c hk hroot
    rcases h.order_calls k c hk with h1 | ⟨j, p, hj, hp, hc⟩
    · exact absurd h1 hroot
    · exact ⟨j, p, hj, hp, opened_of_child hc, hc⟩
  · intro i a c s1 hs hc
    obtain ⟨p, todo, hget⟩ := enqueue_step_parent hs hc
    have hmem := List.getElem?_mem hget
    have hsuf := h.suffix _ _ hmem
    have hchild := suffix_enqueue_mem hsuf (List.mem_cons_self _ _)
    exact ⟨p, todo, hget, hchild, opened_of_child hchild,
      h.printed_busy _ _ hmem (suffix_other_head hsuf (fun l e => by cases e)),
      h.taken _ _ hmem⟩
  · intro j x hj hroot
    rcases h.order_out j x hj with h1 | h1
    · exact absurd h1 hroot
    · exact h1

/-- C15 on Scenario A: `/tmp/testA/b/d`, the fourth line printed, comes after
the line of its parent. -/
theorem causal_order_scenario_A :
    ∃ (i : Nat) (p : String), i < 3 ∧ final_A.out[i]? = some p ∧
      "/tmp/testA/b/d" ∈ dir_children config_A.opendir p :=
  (causal_order config_A final_A ⟨schedule_A, rfl⟩).2.2 3 "/tmp/testA/b/d" (by decide)
    (by decide)

/-! ## Termination -/

/-- A step of a thread leaves the state as it is, which is a thread blocked in
`dequeue`, or is one more step done. -/
theorem worker_step_counts {cfg : Config} {s s1 : Sys} {i a : Nat}
    (hs : step cfg s (.worker i a) = some s1) :
    s1 = s ∨ steps_done s1 = steps_done s + 1 := by
  simp only [step] at hs
  split at hs
  · cases hs
  · unfold crawl_step at hs
    cases hget : s.workers[i]? with
    | none => rw [hget] at hs; cases hs
    | some w =>
      rw [hget] at hs
      cases w with
      | idle =>
        simp only at hs
        split at hs
        · cases hs
          exact Or.inl rfl
        · cases hs
        · cases hs
          right
          simp only [steps_done, List.length_append, List.length_singleton]
          omega
        · cases hs
          right
          simp only [steps_done, List.length_append, List.length_singleton]
          omega
      | busy p todo =>
        right
        cases todo with
        | nil =>
          cases hs
          simp only [steps_done, List.length_append, List.length_singleton]
          omega
        | cons e rest =>
          cases e with
          | stdout l =>
            cases hs
            simp only [steps_done, List.length_append, List.length_singleton]
            omega
          | stderr l =>
            cases hs
            simp only [steps_done, List.length_append, List.length_singleton]
            omega
          | enqueue c =>
            simp only at hs
            cases he : s.enqueue c a with
            | none => rw [he] at hs; cases hs
            | some s2 =>
              rw [he] at hs
              cases hs
              obtain ⟨_, _, hout, herr, hcalls⟩ := Sys.enqueue_workers he
              simp only [steps_done, hout, herr, hcalls, List.length_append,
                List.length_singleton]
              omega

/-- A step of `main` after the seeding is no step of the work. -/
theorem main_step_counts {cfg : Config} {s s1 : Sys} {a : Nat}
    (hs : step cfg s (.main a) = some s1) (hseeded : s.main ≠ .start) :
    steps_done s1 = steps_done s := by
  simp only [step, main_step] at hs
  split at hs
  · rename_i hm
    exact absurd hm hseeded
  · split at hs <;> cases hs <;> rfl
  · split at hs <;> cases hs <;> rfl
  · cases hs

theorem cost_pos (opendir : String → Option (List dirent)) (D : Nat) (p : String)
    (h : depth_le opendir D p = true) : 0 < cost opendir D p := by
  rw [cost_unfold opendir D p h]
  omega

theorem in_flight_pos {ws : List Worker} (h : 0 < in_flight ws) :
    ∃ p todo, Worker.busy p todo ∈ ws := by
  unfold in_flight at h
  obtain ⟨w, hw⟩ := List.exists_mem_of_length_pos h
  rw [List.mem_filter] at hw
  cases w with
  | idle => simp at hw
  | busy p todo => exact ⟨p, todo, hw.1⟩

/-! ## No step of a thread is an abort -/

theorem run_reachable {cfg : Config} {s s1 : Sys} {sched : List Action}
    (h : Reachable cfg s) (hr : run cfg s sched = some s1) : Reachable cfg s1 := by
  obtain ⟨sched0, h0⟩ := h
  refine ⟨sched0 ++ sched, ?_⟩
  rw [run_append, h0]
  exact hr

theorem step_reachable {cfg : Config} {s s1 : Sys} {act : Action}
    (h : Reachable cfg s) (hs : step cfg s act = some s1) : Reachable cfg s1 := by
  have hr : run cfg s [act] = some s1 := by
    simp only [run, hs, Option.some_bind]
  exact run_reachable h hr

theorem Trans.workers_length {cfg : Config} {s s1 : Sys} {nodes nodes1 : List (Nat × String)}
    (ht : Trans cfg s nodes s1 nodes1) : s.workers.length ≤ s1.workers.length := by
  cases ht <;> simp

theorem run_workers_length {cfg : Config} {D : Nat} :
    ∀ (sched : List Action) {s s1 : Sys} {nodes : List (Nat × String)},
      Inv cfg D s nodes → run cfg s sched = some s1 →
      s.workers.length ≤ s1.workers.length := by
  intro sched
  induction sched with
  | nil =>
    intro s s1 nodes _ hs
    simp only [run, Option.some.injEq] at hs
    subst hs
    exact Nat.le_refl _
  | cons act rest ih =>
    intro s s1 nodes hinv hs
    simp only [run] at hs
    cases hstep : step cfg s act with
    | none => rw [hstep] at hs; cases hs
    | some s2 =>
      rw [hstep] at hs
      obtain ⟨nodes2, hinv2⟩ := step_inv hinv hstep
      have h2 := ih hinv2 hs
      rcases step_trans hinv hstep with heq | ⟨nodes3, ht⟩
      · rw [heq] at h2
        exact h2
      · exact Nat.le_trans ht.workers_length h2

/-- The step of a thread at the top of its loop is the `dequeue`: it waits on
an empty queue and takes the head item of any other. -/
theorem idle_step {cfg : Config} {D : Nat} {s : Sys} {nodes : List (Nat × String)} {i : Nat}
    (hinv : Inv cfg D s nodes) (hmain : s.main ≠ .returned)
    (hw : s.workers[i]? = some .idle) (a : Nat) :
    (s.q.queue_head = none → step cfg s (.worker i a) = some s) ∧
      (s.q.queue_head ≠ none → ∃ p1 q1, dequeue s.q = .returns (some p1) q1 ∧
        step cfg s (.worker i a) = some { s with
          q := q1
          workers := s.workers.set i (.busy p1 (process_directory cfg.opendir p1))
          calls := s.calls ++ [.dequeue (some p1)] }) := by
  constructor
  · intro hhead
    have hb : dequeue s.q = .blocks := by simp [dequeue, hhead]
    simp only [step, if_neg hmain, crawl_step, hw, hb]
  · intro hhead
    cases nodes with
    | nil => exact absurd (hinv.holds.head_none_iff.mpr rfl) hhead
    | cons n rest =>
      obtain ⟨q1, hd, _, _⟩ := dequeue_holds hinv.holds
      refine ⟨n.2, q1, hd, ?_⟩
      simp only [step, if_neg hmain, crawl_step, hw, hd]

/-- Every thread that `main` has created can take its next step, with every
free address, as long as the process runs. -/
theorem worker_step_enabled {cfg : Config} {D : Nat} {s : Sys} {nodes : List (Nat × String)}
    {i a : Nat} (hinv : Inv cfg D s nodes) (hmain : s.main ≠ .returned)
    (hi : i < s.workers.length) (ha : s.q.heap a = none) :
    ∃ s1, step cfg s (.worker i a) = some s1 := by
  have hget : s.workers[i]? = some s.workers[i] := List.getElem?_eq_getElem hi
  cases hw : s.workers[i] with
  | idle =>
    rw [hw] at hget
    by_cases hhead : s.q.queue_head = none
    · exact ⟨s, (idle_step hinv hmain hget a).1 hhead⟩
    · obtain ⟨p1, q1, _, hs⟩ := (idle_step hinv hmain hget a).2 hhead
      exact ⟨_, hs⟩
  | busy p todo =>
    rw [hw] at hget
    exact busy_step_enabled hinv hmain hget ha

/-- Until it has returned, `main` can take its next step with every free address. -/
theorem main_step_enabled {cfg : Config} {D : Nat} {s : Sys} {nodes : List (Nat × String)}
    {a : Nat} (hinv : Inv cfg D s nodes) (hmain : s.main ≠ .returned)
    (ha : s.q.heap a = none) : ∃ s1, step cfg s (.main a) = some s1 := by
  simp only [step, main_step]
  split
  · obtain ⟨q1, he, _, _⟩ := enqueue_holds hinv.holds cfg.root a ha
    simp only [Sys.enqueue, ha, Option.isSome_none, he, Option.map_some']
    exact ⟨_, rfl⟩
  · split <;> exact ⟨_, rfl⟩
  · split <;> exact ⟨_, rfl⟩
  · rename_i h
    exact absurd h hmain

/-- The steps of one thread through the rest of `process_directory` and its
`queue_processed`, each with a free address. -/
theorem own_run {cfg : Config} {D : Nat} {i : Nat} {p : String} :
    ∀ (todo : List Effect) (s : Sys) (nodes : List (Nat × String)) (addrs : List Nat),
      Inv cfg D s nodes → s.main ≠ .returned → s.workers[i]? = some (.busy p todo) →
      addrs.length = todo.length + 1 → addrs.Nodup → (∀ a ∈ addrs, s.q.heap a = none) →
      ∃ s2, run cfg s (addrs.map (Action.worker i)) = some s2 ∧
        s2.workers[i]? = some .idle ∧
        queue_processed_calls s2.calls = queue_processed_calls s.calls + 1 ∧
        s2.out = s.out ++ visited_events todo ∧
        s2.err = s.err ++ diagnostic_events todo ∧ s2.main = s.main := by
  intro todo
  induction todo with
  | nil =>
    intro s nodes addrs hinv hmain hw hlen _ _
    have hi : i < s.workers.length := (List.getElem?_eq_some_iff.mp hw).1
    match addrs, hlen with
    | [a], _ =>
      refine ⟨{ s with
        q := queue_processed s.q
        workers := s.workers.set i .idle
        calls := s.calls ++ [.queue_processed] }, ?_, ?_, ?_, ?_, ?_, rfl⟩
      · simp only [List.map_cons, List.map_nil, run, step, if_neg hmain, crawl_step, hw,
          Option.some_bind]
      · exact List.getElem?_set_self hi
      · show queue_processed_calls (s.calls ++ [Call.queue_processed]) = _
        rw [queue_processed_calls_append]
        simp
      · simp [visited_events]
      · simp [diagnostic_events]
  | cons e rest ih =>
    intro s nodes addrs hinv hmain hw hlen hnd hfree
    have hi : i < s.workers.length := (List.getElem?_eq_some_iff.mp hw).1
    match addrs, hlen, hnd, hfree with
    | a :: more, hlen, hnd, hfree =>
      have ha : s.q.heap a = none := hfree a (by simp)
      obtain ⟨s1, hs1⟩ := busy_step_enabled hinv hmain hw ha
      obtain ⟨nodes1, hinv1⟩ := step_inv hinv hs1
      obtain ⟨hnext, hcalls⟩ := step_effect hs1 hw
      have hlen1 : more.length = rest.length + 1 := by
        simp only [List.length_cons] at hlen
        omega
      have hnd1 : more.Nodup := (List.nodup_cons.mp hnd).2
      have hnotin : a ∉ more := (List.nodup_cons.mp hnd).1
      have hfacts : s1.main = s.main ∧
          s1.out = s.out ++ visited_events [e] ∧ s1.err = s.err ++ diagnostic_events [e] ∧
          ∀ x, s1.q.heap x ≠ none → x = a ∨ s.q.heap x ≠ none := by
        simp only [step, if_neg hmain, crawl_step, hw] at hs1
        cases e with
        | stdout l =>
          cases hs1
          exact ⟨rfl, rfl, by simp [diagnostic_events], fun x hx => Or.inr hx⟩
        | stderr l =>
          cases hs1
          exact ⟨rfl, by simp [visited_events], rfl, fun x hx => Or.inr hx⟩
        | enqueue c =>
          simp only at hs1
          cases he : s.enqueue c a with
          | none => rw [he] at hs1; cases hs1
          | some s3 =>
            rw [he] at hs1
            cases hs1
            obtain ⟨_, hm, ho, hr, _⟩ := Sys.enqueue_workers he
            exact ⟨hm, by simp [visited_events, ho], by simp [diagnostic_events, hr],
              fun x hx => Sys.enqueue_heap_grows he x hx⟩
      obtain ⟨hm1, hout1, herr1, hheap1⟩ := hfacts
      have hfree1 : ∀ b ∈ more, s1.q.heap b = none := by
        intro b hb
        by_contra hne
        rcases hheap1 b hne with hba | hold
        · exact hnotin (hba ▸ hb)
        · exact hold (hfree b (List.mem_cons_of_mem _ hb))
      obtain ⟨s2, hrun, hidle, hq, hout, herr, hm2⟩ :=
        ih s1 nodes1 more hinv1 (by rw [hm1]; exact hmain) hnext hlen1 hnd1 hfree1
      refine ⟨s2, ?_, hidle, by rw [hq, hcalls], ?_, ?_, by rw [hm2, hm1]⟩
      · simp only [List.map_cons, run, hs1, Option.some_bind]
        exact hrun
      · rw [hout, hout1, List.append_assoc]
        cases e <;> rfl
      · rw [herr, herr1, List.append_assoc]
        cases e <;> rfl

/-- C13. Worker failure semantics: in every reachable state in which the
process runs, for every thread created: the next step of the thread is never an
abort, it is possible with every free address; at `dequeue` the step waits on an
empty queue and takes the head item of any other, entering `process_directory`
on it; and when the thread holds an item `p`, with the effects `todo` of
`process_directory(p)` still to come (all of them right after the `dequeue`,
whether `opendir` succeeds or fails), then over every schedule in which the
thread takes `todo.length + 1` steps it ends back at `dequeue` with exactly one
`queue_processed` call made in its steps, while it had taken no more than
`todo.length` steps it was still inside `process_directory(p)` and had made
none, run alone with a free address at each step it takes exactly these
`todo.length + 1` steps back to `dequeue`, printing the lines of `todo`, and for
a path that cannot be opened `todo` is at most the visited line and the
diagnostic. -/
theorem worker_acknowledges_once (cfg : Config) (s : Sys) (i : Nat)
    (hreach : Reachable cfg s) (hmain : s.main ≠ .returned) (hi : i < s.workers.length) :
    (∀ a, s.q.heap a = none → ∃ s1, step cfg s (.worker i a) = some s1) ∧
      (s.workers[i]? = some .idle → ∀ a,
        (s.q.queue_head = none → step cfg s (.worker i a) = some s) ∧
        (s.q.queue_head ≠ none → ∃ p1 s2, step cfg s (.worker i a) = some s2 ∧
          s2.workers[i]? = some (.busy p1 (process_directory cfg.opendir p1)) ∧
          s2.calls = s.calls ++ [.dequeue (some p1)])) ∧
      (∀ p todo, s.workers[i]? = some (.busy p todo) →
        (∀ sched s2, run cfg s sched = some s2 → own_steps i sched = todo.length + 1 →
          s2.workers[i]? = some .idle ∧ queue_processed_by cfg i s sched = 1) ∧
        (∀ sched s1, run cfg s sched = some s1 → own_steps i sched ≤ todo.length →
          s1.workers[i]? = some (.busy p (todo.drop (own_steps i sched))) ∧
            queue_processed_by cfg i s sched = 0) ∧
        (∀ addrs : List Nat, addrs.length = todo.length + 1 → addrs.Nodup →
          (∀ a ∈ addrs, s.q.heap a = none) →
          ∃ s2, run cfg s (addrs.map (Action.worker i)) = some s2 ∧
            s2.workers[i]? = some .idle ∧
            queue_processed_calls s2.calls = queue_processed_calls s.calls + 1 ∧
            s2.out = s.out ++ visited_events todo ∧
            s2.err = s.err ++ diagnostic_events todo) ∧
        (cfg.opendir p = none →
          process_directory cfg.opendir p =
              [.stdout p, .stderr ("failed to opendir: " ++ p)] ∧
            todo.length ≤ 2)) := by
  obtain ⟨nodes, hinv, hhist⟩ := reachable_hist 0 hreach
  refine ⟨fun a ha => worker_step_enabled hinv hmain hi ha, ?_, ?_⟩
  · intro hidle a
    refine ⟨(idle_step hinv hmain hidle a).1, ?_⟩
    intro hhead
    obtain ⟨p1, q1, _, hs⟩ := (idle_step hinv hmain hidle a).2 hhead
    exact ⟨p1, _, hs, List.getElem?_set_self hi, rfl⟩
  · intro p todo hheld
    refine ⟨?_, ?_, ?_, ?_⟩
    · intro sched s2 hrun hown
      exact (worker_lifecycle sched s s2 todo hheld hrun).2 hown
    · intro sched s1 hrun hle
      exact (worker_lifecycle sched s s1 todo hheld hrun).1 hle
    · intro addrs hlen hnd hfree
      obtain ⟨s2, h1, h2, h3, h4, h5, _⟩ :=
        own_run todo s nodes addrs hinv hmain hheld hlen hnd hfree
      exact ⟨s2, h1, h2, h3, h4, h5⟩
    · intro hopen
      have hpd : process_directory cfg.opendir p =
          [.stdout p, .stderr ("failed to opendir: " ++ p)] := by
        simp only [process_directory, hopen]
      refine ⟨hpd, ?_⟩
      have hsuf := hhist.suffix p todo (List.mem_iff_getElem?.mpr ⟨i, hheld⟩)
      rw [hpd] at hsuf
      have := hsuf.length_le
      simpa using this

/-- C13 on Scenario B: the thread holds `/tmp/testB/locked`, which cannot be
opened; its next step is possible; after its three steps it is back at `dequeue`
with one `queue_processed` call made; and run alone with the free addresses 7, 8
and 9 it prints the visited line and the diagnostic, calls `queue_processed`
once and is back at `dequeue`. -/
theorem worker_acknowledges_once_scenario_B :
    (∃ s1, step config_B held_B (.worker 0 7) = some s1) ∧
      done_B.workers[0]? = some .idle ∧
      queue_processed_by config_B 0 held_B schedule_B_item = 1 ∧
      ∃ s2, run config_B held_B ([7, 8, 9].map (Action.worker 0)) = some s2 ∧
        s2.workers[0]? = some .idle ∧
        queue_processed_calls s2.calls = queue_processed_calls held_B.calls + 1 ∧
        s2.out = held_B.out ++ ["/tmp/testB/locked"] ∧
        s2.err = held_B.err ++ ["failed to opendir: /tmp/testB/locked"] := by
  have h := worker_acknowledges_once config_B held_B 0 ⟨schedule_B, rfl⟩ (by decide)
    (by decide)
  have hheld := h.2.2 "/tmp/testB/locked" (process_directory opendir_B "/tmp/testB/locked")
    (by decide)
  exact ⟨h.1 7 (by decide), (hheld.1 schedule_B_item done_B rfl (by decide)).1,
    (hheld.1 schedule_B_item done_B rfl (by decide)).2,
    hheld.2.2.1 [7, 8, 9] (by decide) (by decide) (by decide)⟩

/-! ## The events of the process -/

theorem proc_step_spurious {cfg : Config} {c c1 : Proc} {t : Thread}
    (h : proc_step cfg c (.spurious t) = some c1) :
    c.sys.main ≠ .returned ∧ c1.sys = c.sys ∧ c1.queue_cond = unblock c.queue_cond [t] ∧
      c1.finish_cond = unblock c.finish_cond [t] := by
  simp only [proc_step] at h
  split at h
  · cases h
  · rename_i hm
    cases h
    exact ⟨hm, rfl, rfl, rfl⟩

theorem proc_step_run {cfg : Config} {c c1 : Proc} {act : Action} {woken : List Thread}
    (h : proc_step cfg c (.run act woken) = some c1) :
    act.thread ∉ c.queue_cond ∧ act.thread ∉ c.finish_cond ∧
      step cfg c.sys act = some c1.sys ∧
      ((sync c.sys act = .nothing ∧ c1.queue_cond = c.queue_cond ∧
          c1.finish_cond = c.finish_cond) ∨
        (sync c.sys act = .wait_queue_cond ∧ c1.queue_cond = act.thread :: c.queue_cond ∧
          c1.finish_cond = c.finish_cond) ∨
        (sync c.sys act = .wait_finish_cond ∧ c1.queue_cond = c.queue_cond ∧
          c1.finish_cond = act.thread :: c.finish_cond) ∨
        (sync c.sys act = .signal_queue_cond ∧ pthread_cond_signal c.queue_cond woken ∧
          c1.queue_cond = unblock c.queue_cond woken ∧ c1.finish_cond = c.finish_cond) ∨
        (sync c.sys act = .signal_finish_cond ∧ pthread_cond_signal c.finish_cond woken ∧
          c1.queue_cond = c.queue_cond ∧ c1.finish_cond = unblock c.finish_cond woken)) := by
  simp only [proc_step] at h
  split at h
  · cases h
  · rename_i hnb
    rw [not_or] at hnb
    refine ⟨hnb.1, hnb.2, ?_⟩
    cases hs : step cfg c.sys act with
    | none => rw [hs] at h; cases h
    | some s1 =>
      rw [hs] at h
      cases hy : sync c.sys act with
      | nothing =>
        rw [hy] at h
        cases h
        exact ⟨rfl, Or.inl ⟨rfl, rfl, rfl⟩⟩
      | wait_queue_cond =>
        rw [hy] at h
        cases h
        exact ⟨rfl, Or.inr (Or.inl ⟨rfl, rfl, rfl⟩)⟩
      | wait_finish_cond =>
        rw [hy] at h
        cases h
        exact ⟨rfl, Or.inr (Or.inr (Or.inl ⟨rfl, rfl, rfl⟩))⟩
      | signal_queue_cond =>
        rw [hy] at h
        simp only at h
        split at h
        · rename_i hsig
          cases h
          exact ⟨rfl, Or.inr (Or.inr (Or.inr (Or.inl ⟨rfl, hsig, rfl, rfl⟩)))⟩
        · cases h
      | signal_finish_cond =>
        rw [hy] at h
        simp only at h
        split at h
        · rename_i hsig
          cases h
          exact ⟨rfl, Or.inr (Or.inr (Or.inr (Or.inr ⟨rfl, hsig, rfl, rfl⟩)))⟩
        · cases h

theorem mem_unblock {waiters woken : List Thread} {t : Thread} :
    t ∈ unblock waiters woken ↔ t ∈ waiters ∧ t ∉ woken := by
  simp [unblock]

/-- A thread blocked on `queue_cond` after an event was blocked on it before,
or has just waited on it. -/
theorem queue_cond_grows {cfg : Config} {c c1 : Proc} {act : Action} {woken : List Thread}
    (h : proc_step cfg c (.run act woken) = some c1) {t : Thread} (ht : t ∈ c1.queue_cond) :
    t ∈ c.queue_cond ∨ (t = act.thread ∧ sync c.sys act = .wait_queue_cond) := by
  obtain ⟨_, _, _, hc⟩ := proc_step_run h
  rcases hc with ⟨_, hq, _⟩ | ⟨hy, hq, _⟩ | ⟨_, hq, _⟩ | ⟨_, _, hq, _⟩ | ⟨_, _, hq, _⟩
  · rw [hq] at ht; exact Or.inl ht
  · rw [hq, List.mem_cons] at ht
    rcases ht with ht | ht
    · exact Or.inr ⟨ht, hy⟩
    · exact Or.inl ht
  · rw [hq] at ht; exact Or.inl ht
  · rw [hq, mem_unblock] at ht; exact Or.inl ht.1
  · rw [hq] at ht; exact Or.inl ht

/-- A thread blocked on `finish_cond` after an event was blocked on it before
and not unblocked by a signal on it, or has just waited on it. -/
theorem finish_cond_grows {cfg : Config} {c c1 : Proc} {act : Action} {woken : List Thread}
    (h : proc_step cfg c (.run act woken) = some c1) {t : Thread} (ht : t ∈ c1.finish_cond) :
    (t ∈ c.finish_cond ∧ (sync c.sys act = .signal_finish_cond → t ∉ woken)) ∨
      (t = act.thread ∧ sync c.sys act = .wait_finish_cond) := by
  obtain ⟨_, _, _, hc⟩ := proc_step_run h
  rcases hc with ⟨hy, _, hf⟩ | ⟨hy, _, hf⟩ | ⟨hy, _, hf⟩ | ⟨hy, _, _, hf⟩ | ⟨hy, _, _, hf⟩
  · rw [hf] at ht; exact Or.inl ⟨ht, fun e => by rw [hy] at e; cases e⟩
  · rw [hf] at ht; exact Or.inl ⟨ht, fun e => by rw [hy] at e; cases e⟩
  · rw [hf, List.mem_cons] at ht
    rcases ht with ht | ht
    · exact Or.inr ⟨ht, hy⟩
    · exact Or.inl ⟨ht, fun e => by rw [hy] at e; cases e⟩
  · rw [hf] at ht; exact Or.inl ⟨ht, fun e => by rw [hy] at e; cases e⟩
  · rw [hf, mem_unblock] at ht; exact Or.inl ⟨ht.1, fun _ => ht.2⟩

/-! ## The calls on the condition variables -/

theorem dequeue_blocks_iff (q : Queue) : dequeue q = .blocks ↔ q.queue_head = none := by
  constructor
  · intro h
    cases hh : q.queue_head with
    | none => rfl
    | some item =>
      exfalso
      cases hn : q.heap item with
      | none => simp [dequeue, hh, hn] at h
      | some node =>
        simp only [dequeue, hh, hn] at h
        split_ifs at h
  · intro h
    simp [dequeue, h]

theorem sync_wait_queue_cond {s : Sys} {act : Action} (h : sync s act = .wait_queue_cond) :
    ∃ i a, act = .worker i a ∧ s.workers[i]? = some .idle ∧ s.q.queue_head = none := by
  cases act with
  | main a =>
    simp only [sync] at h
    split at h
    · cases h
    · cases h
    · split at h <;> cases h
    · cases h
  | worker i a =>
    refine ⟨i, a, rfl, ?_⟩
    simp only [sync] at h
    split at h
    · rename_i hw
      refine ⟨hw, ?_⟩
      split at h
      · rename_i hd
        exact (dequeue_blocks_iff s.q).mp hd
      · cases h
    · cases h
    · split at h <;> cases h
    · cases h

theorem sync_wait_finish_cond {s : Sys} {act : Action} (h : sync s act = .wait_finish_cond) :
    ∃ a, act = .main a ∧ s.main = .waiting ∧ s.q.queue_length ≠ 0 := by
  cases act with
  | main a =>
    refine ⟨a, rfl, ?_⟩
    simp only [sync] at h
    split at h
    · cases h
    · cases h
    · rename_i hm
      refine ⟨hm, ?_⟩
      split at h
      · cases h
      · rename_i hp
        simpa [wait_for_all_processed_pass] using hp
    · cases h
  | worker i a =>
    simp only [sync] at h
    split at h
    · split at h <;> cases h
    · cases h
    · split at h <;> cases h
    · cases h

theorem sync_signal_finish_cond {s : Sys} {act : Action} (h : sync s act = .signal_finish_cond) :
    ∃ i a p, act = .worker i a ∧ s.workers[i]? = some (.busy p []) ∧
      (queue_processed s.q).queue_length = 0 := by
  cases act with
  | main a =>
    simp only [sync] at h
    split at h
    · cases h
    · cases h
    · split at h <;> cases h
    · cases h
  | worker i a =>
    simp only [sync] at h
    split at h
    · split at h <;> cases h
    · cases h
    · rename_i p hw
      split at h
      · rename_i hz
        exact ⟨i, a, p, rfl, hw, hz⟩
      · cases h
    · cases h

/-! ## The steps of the program, case by case -/

theorem main_step_cases {cfg : Config} {s s1 : Sys} {a : Nat}
    (h : step cfg s (.main a) = some s1) :
    (s.main = .start ∧ s1.workers = s.workers ∧ s1.main = .spawn 0 ∧
        steps_done s1 = steps_done s + 1) ∨
      (∃ k, s.main = .spawn k ∧ k < cfg.pool ∧
        s1 = { s with workers := s.workers ++ [.idle], main := .spawn (k + 1) }) ∨
      (∃ k, s.main = .spawn k ∧ ¬ k < cfg.pool ∧ s1 = { s with main := .waiting }) ∨
      (s.main = .waiting ∧ s.q.queue_length = 0 ∧ s1 = { s with main := .returned }) ∨
      (s.main = .waiting ∧ s.q.queue_length ≠ 0 ∧ s1 = s) := by
  simp only [step, main_step] at h
  split at h
  · rename_i hm
    cases he : s.enqueue cfg.root a with
    | none => rw [he] at h; cases h
    | some s2 =>
      rw [he] at h
      cases h
      obtain ⟨hw, _, ho, hr, hc⟩ := Sys.enqueue_workers he
      refine Or.inl ⟨hm, hw, rfl, ?_⟩
      show s2.calls.length + s2.out.length + s2.err.length = _
      rw [hc, ho, hr]
      simp only [steps_done, List.length_append, List.length_singleton]
      omega
  · rename_i k hm
    split at h
    · rename_i hk
      cases h
      exact Or.inr (Or.inl ⟨k, hm, hk, rfl⟩)
    · rename_i hk
      cases h
      exact Or.inr (Or.inr (Or.inl ⟨k, hm, hk, rfl⟩))
  · rename_i hm
    split at h
    · rename_i hp
      cases h
      exact Or.inr (Or.inr (Or.inr (Or.inl
        ⟨hm, by simpa [wait_for_all_processed_pass] using hp, rfl⟩)))
    · rename_i hp
      cases h
      exact Or.inr (Or.inr (Or.inr (Or.inr
        ⟨hm, by simpa [wait_for_all_processed_pass] using hp, rfl⟩)))
  · cases h

theorem worker_step_cases {cfg : Config} {D : Nat} {s s1 : Sys} {nodes : List (Nat × String)}
    {i a : Nat} (hinv : Inv cfg D s nodes) (h : step cfg s (.worker i a) = some s1) :
    s.main ≠ .returned ∧
      ((s.workers[i]? = some .idle ∧ s.q.queue_head = none ∧ s1 = s) ∨
        (s.workers[i]? = some .idle ∧ s.q.queue_head ≠ none ∧
          ∃ p1 q1, dequeue s.q = .returns (some p1) q1 ∧
            s1 = { s with
              q := q1
              workers := s.workers.set i (.busy p1 (process_directory cfg.opendir p1))
              calls := s.calls ++ [.dequeue (some p1)] }) ∨
        (∃ p l todo, s.workers[i]? = some (.busy p (.stdout l :: todo)) ∧
          s1 = { s with out := s.out ++ [l], workers := s.workers.set i (.busy p todo) }) ∨
        (∃ p l todo, s.workers[i]? = some (.busy p (.stderr l :: todo)) ∧
          s1 = { s with err := s.err ++ [l], workers := s.workers.set i (.busy p todo) }) ∨
        (∃ p c todo q1, s.workers[i]? = some (.busy p (.enqueue c :: todo)) ∧
          s1 = { s with
            q := q1
            calls := s.calls ++ [.enqueue c]
            workers := s.workers.set i (.busy p todo) } ∧
          q1.queue_length = s.q.queue_length + 1 ∧ q1.queue_head ≠ none) ∨
        (∃ p, s.workers[i]? = some (.busy p []) ∧
          s1 = { s with
            q := queue_processed s.q
            workers := s.workers.set i .idle
            calls := s.calls ++ [.queue_processed] })) := by
  have hm : s.main ≠ .returned := by
    intro hm
    simp [step, hm] at h
  refine ⟨hm, ?_⟩
  cases hw : s.workers[i]? with
  | none => simp [step, hm, crawl_step, hw] at h
  | some w =>
    cases w with
    | idle =>
      by_cases hhead : s.q.queue_head = none
      · rw [(idle_step hinv hm hw a).1 hhead] at h
        cases h
        exact Or.inl ⟨rfl, hhead, rfl⟩
      · obtain ⟨p1, q1, hd, hs⟩ := (idle_step hinv hm hw a).2 hhead
        rw [hs] at h
        cases h
        exact Or.inr (Or.inl ⟨rfl, hhead, p1, q1, hd, rfl⟩)
    | busy p todo =>
      simp only [step, if_neg hm, crawl_step, hw] at h
      cases todo with
      | nil =>
        cases h
        exact Or.inr (Or.inr (Or.inr (Or.inr (Or.inr ⟨p, rfl, rfl⟩))))
      | cons e rest =>
        cases e with
        | stdout l =>
          cases h
          exact Or.inr (Or.inr (Or.inl ⟨p, l, rest, rfl, rfl⟩))
        | stderr l =>
          cases h
          exact Or.inr (Or.inr (Or.inr (Or.inl ⟨p, l, rest, rfl, rfl⟩)))
        | enqueue c =>
          simp only at h
          cases he : s.enqueue c a with
          | none => rw [he] at h; cases h
          | some s2 =>
            rw [he] at h
            cases h
            obtain ⟨q1, hs2, hh, hl⟩ := Sys.enqueue_spec hinv.holds he
            refine Or.inr (Or.inr (Or.inr (Or.inr (Or.inl ⟨p, c, rest, q1, rfl, ?_, hl, ?_⟩))))
            · rw [hs2]
            · intro hn
              have := hh.head_none_iff.mp hn
              simp at this

/-! ## The invariant of the condition variables -/

theorem ProcInv.initially (cfg : Config) : ProcInv cfg Proc.init where
  reach := ⟨[], rfl⟩
  queue_waiters := by
    intro t ht
    cases ht
  finish_waiters := by
    intro t ht
    cases ht
  awake := by
    intro h
    exact absurd rfl h

theorem step_workers_length {cfg : Config} {s s1 : Sys} {act : Action}
    (hreach : Reachable cfg s) (hs : step cfg s act = some s1) :
    s.workers.length ≤ s1.workers.length := by
  obtain ⟨nodes, hinv⟩ := reachable_inv 0 hreach
  apply run_workers_length [act] hinv
  simp only [run, hs, Option.some_bind]

theorem signal_wakes_main {waiters woken : List Thread}
    (hsig : pthread_cond_signal waiters woken) (hall : ∀ t ∈ waiters, t = Thread.main)
    {t : Thread} (ht : t ∈ waiters) : t ∈ woken := by
  obtain ⟨hsub, hsome⟩ := hsig
  have hne : woken ≠ [] := hsome (List.ne_nil_of_mem ht)
  obtain ⟨u, hu⟩ := List.exists_mem_of_ne_nil woken hne
  have hum : u = Thread.main := hall u (hsub u hu)
  rw [hall t ht, ← hum]
  exact hu

theorem proc_step_signal_finish {cfg : Config} {c c1 : Proc} {act : Action}
    {woken : List Thread} (h : proc_step cfg c (.run act woken) = some c1)
    (hy : sync c.sys act = .signal_finish_cond) :
    pthread_cond_signal c.finish_cond woken ∧ c1.queue_cond = c.queue_cond ∧
      c1.finish_cond = unblock c.finish_cond woken := by
  obtain ⟨_, _, _, hc⟩ := proc_step_run h
  rcases hc with ⟨hy1, _⟩ | ⟨hy1, _⟩ | ⟨hy1, _⟩ | ⟨hy1, _⟩ | ⟨_, h1, h2, h3⟩
  · rw [hy] at hy1; cases hy1
  · rw [hy] at hy1; cases hy1
  · rw [hy] at hy1; cases hy1
  · rw [hy] at hy1; cases hy1
  · exact ⟨h1, h2, h3⟩

theorem proc_step_inv {cfg : Config} {c c1 : Proc} {e : Event} (hinv : ProcInv cfg c)
    (h : proc_step cfg c e = some c1) : ProcInv cfg c1 := by
  cases e with
  | spurious t =>
    obtain ⟨_, hs, hq, hf⟩ := proc_step_spurious h
    refine ⟨by rw [hs]; exact hinv.reach, ?_, ?_, ?_⟩
    · intro u hu
      rw [hq, mem_unblock] at hu
      rw [hs]
      exact hinv.queue_waiters u hu.1
    · intro u hu
      rw [hf, mem_unblock] at hu
      rw [hs]
      exact hinv.finish_waiters u hu.1
    · rw [hs]
      intro hhead hne
      obtain ⟨i, hi, hni⟩ := hinv.awake hhead hne
      refine ⟨i, hi, ?_⟩
      rw [hq, mem_unblock]
      exact fun hc => hni hc.1
  | run act woken =>
    obtain ⟨hnq, hnf, hstep, hcases⟩ := proc_step_run h
    obtain ⟨nodes, hI, hH⟩ := reachable_hist 0 hinv.reach
    refine ⟨step_reachable hinv.reach hstep, ?_, ?_, ?_⟩
    · intro t ht
      rcases queue_cond_grows h ht with hold | ⟨rfl, hy⟩
      · obtain ⟨i, rfl, hw⟩ := hinv.queue_waiters t hold
        refine ⟨i, rfl, step_frame hstep ?_ hw⟩
        intro a e
        apply hnq
        rw [e]
        exact hold
      · obtain ⟨i, a, rfl, hw, hhead⟩ := sync_wait_queue_cond hy
        refine ⟨i, rfl, ?_⟩
        have hm := (worker_step_cases hI hstep).1
        rw [(idle_step hI hm hw a).1 hhead] at hstep
        rw [← Option.some.inj hstep]
        exact hw
    · intro t ht
      rcases finish_cond_grows h ht with ⟨hold, hnw⟩ | ⟨rfl, hy⟩
      · obtain ⟨rfl, hmw, hql⟩ := hinv.finish_waiters t hold
        refine ⟨rfl, ?_⟩
        cases act with
        | main a => exact absurd hold hnf
        | worker i a =>
          obtain ⟨hm, hc⟩ := worker_step_cases hI hstep
          have hlive := hI.live
          rcases hc with ⟨_, _, hs1⟩ | ⟨_, _, p1, q1, hd, hs1⟩ | ⟨p, l, todo, _, hs1⟩ |
            ⟨p, l, todo, _, hs1⟩ | ⟨p, c0, todo, q1, _, hs1, hl, _⟩ | ⟨p, hw, hs1⟩
          · rw [hs1]; exact ⟨hmw, hql⟩
          · rw [hs1]
            refine ⟨hmw, ?_⟩
            show q1.queue_length ≠ 0
            rw [dequeue_length hd]
            exact hql
          · rw [hs1]; exact ⟨hmw, hql⟩
          · rw [hs1]; exact ⟨hmw, hql⟩
          · rw [hs1]
            refine ⟨hmw, ?_⟩
            show q1.queue_length ≠ 0
            rw [hl]
            omega
          · rw [hs1]
            refine ⟨hmw, ?_⟩
            show (queue_processed c.sys.q).queue_length ≠ 0
            intro hz
            have hy : sync c.sys (.worker i a) = .signal_finish_cond := by
              simp only [sync, hw, hz, if_true]
            obtain ⟨hsig, _, _⟩ := proc_step_signal_finish h hy
            exact hnw hy (signal_wakes_main hsig
              (fun u hu => (hinv.finish_waiters u hu).1) hold)
      · obtain ⟨a, rfl, hmw, hql⟩ := sync_wait_finish_cond hy
        refine ⟨rfl, ?_⟩
        rcases main_step_cases hstep with ⟨hm, _⟩ | ⟨k, hm, _⟩ | ⟨k, hm, _⟩ | ⟨_, hz, _⟩ |
          ⟨_, _, hs1⟩
        · rw [hmw] at hm; cases hm
        · rw [hmw] at hm; cases hm
        · rw [hmw] at hm; cases hm
        · exact absurd hz hql
        · rw [hs1]; exact ⟨hmw, hql⟩
    · intro hhead hne
      cases act with
      | main a =>
        have hkeep : ∀ i, Thread.crawl i ∉ c.queue_cond → Thread.crawl i ∉ c1.queue_cond := by
          intro i hni hc
          rcases queue_cond_grows h hc with hold | ⟨he, _⟩
          · exact hni hold
          · cases he
        rcases main_step_cases hstep with ⟨hm, hw, _⟩ | ⟨k, hm, hk, hs1⟩ | ⟨k, hm, hk, hs1⟩ |
          ⟨hm, hz, hs1⟩ | ⟨hm, hz, hs1⟩
        · rw [hw, hH.spawned_start hm] at hne
          exact absurd rfl hne
        · refine ⟨c.sys.workers.length, by rw [hs1]; simp, ?_⟩
          apply hkeep
          intro hc
          obtain ⟨i, hi, hw⟩ := hinv.queue_waiters _ hc
          cases hi
          have := (List.getElem?_eq_some_iff.mp hw).1
          omega
        · rw [hs1] at hhead hne
          obtain ⟨i, hi, hni⟩ := hinv.awake hhead hne
          exact ⟨i, by rw [hs1]; exact hi, hkeep i hni⟩
        · rw [hs1] at hhead hne
          obtain ⟨i, hi, hni⟩ := hinv.awake hhead hne
          exact ⟨i, by rw [hs1]; exact hi, hkeep i hni⟩
        · rw [hs1] at hhead hne
          obtain ⟨i, hi, hni⟩ := hinv.awake hhead hne
          exact ⟨i, by rw [hs1]; exact hi, hkeep i hni⟩
      | worker i a =>
        obtain ⟨hm, hc⟩ := worker_step_cases hI hstep
        have hi : i < c.sys.workers.length := by
          rcases hc with ⟨hw, _⟩ | ⟨hw, _⟩ | ⟨_, _, _, hw, _⟩ | ⟨_, _, _, hw, _⟩ |
            ⟨_, _, _, _, hw, _⟩ | ⟨_, hw, _⟩ <;>
          exact (List.getElem?_eq_some_iff.mp hw).1
        refine ⟨i, Nat.lt_of_lt_of_le hi (step_workers_length hinv.reach hstep), ?_⟩
        intro hin
        rcases queue_cond_grows h hin with hold | ⟨_, hy⟩
        · exact hnq hold
        · obtain ⟨j, b, he, hw, hnone⟩ := sync_wait_queue_cond hy
          cases he
          rw [(idle_step hI hm hw a).1 hnone] at hstep
          rw [← Option.some.inj hstep] at hhead
          exact hhead hnone

theorem proc_run_inv {cfg : Config} :
    ∀ (events : List Event) {c c1 : Proc}, ProcInv cfg c →
      proc_run cfg c events = some c1 → ProcInv cfg c1 := by
  intro events
  induction events with
  | nil =>
    intro c c1 hinv h
    simp only [proc_run, Option.some.injEq] at h
    subst h
    exact hinv
  | cons e rest ih =>
    intro c c1 hinv h
    simp only [proc_run] at h
    cases hs : proc_step cfg c e with
    | none => rw [hs] at h; cases h
    | some c2 =>
      rw [hs] at h
      exact ih (proc_step_inv hinv hs) h

theorem proc_reachable_inv {cfg : Config} {c : Proc} (h : ProcReachable cfg c) :
    ProcInv cfg c := by
  obtain ⟨events, hr⟩ := h
  exact proc_run_inv events (ProcInv.initially cfg) hr

theorem proc_trace_inv {cfg : Config} (σ : Nat → Event) :
    ∀ (n : Nat) {c : Proc}, proc_trace cfg σ n = some c → ProcInv cfg c := by
  intro n
  induction n with
  | zero =>
    intro c h
    simp only [proc_trace, Option.some.injEq] at h
    subst h
    exact ProcInv.initially cfg
  | succ n ih =>
    intro c h
    simp only [proc_trace] at h
    cases hp : proc_trace cfg σ n with
    | none => rw [hp] at h; cases h
    | some c0 =>
      rw [hp] at h
      exact proc_step_inv (ih hp) h

/-! ## Progress -/

theorem steps_done_le {cfg : Config} {D : Nat} {s : Sys}
    (hfinite : depth_le cfg.opendir D cfg.root = true) (hreach : Reachable cfg s) :
    steps_done s ≤ steps_total cfg D := by
  obtain ⟨nodes, _, hH⟩ := reachable_hist D hreach
  have := hH.steps hfinite
  omega

/-- A step of the program leaves the state as it is or uses up fuel. -/
theorem step_fuel {cfg : Config} {D : Nat} {s s1 : Sys} {act : Action}
    (hfinite : depth_le cfg.opendir D cfg.root = true) (hreach : Reachable cfg s)
    (hs : step cfg s act = some s1) : s1 = s ∨ fuel cfg D s1 < fuel cfg D s := by
  cases act with
  | main a =>
    rcases main_step_cases hs with ⟨hm, _, hm1, hsd⟩ | ⟨k, hm, hk, hs1⟩ | ⟨k, hm, hk, hs1⟩ |
      ⟨hm, _, hs1⟩ | ⟨_, _, hs1⟩
    · right
      simp only [fuel, hm, hm1, main_left, hsd]
      omega
    · right
      rw [hs1]
      simp only [fuel, hm, main_left, steps_done]
      omega
    · right
      rw [hs1]
      simp only [fuel, hm, main_left, steps_done]
      omega
    · right
      rw [hs1]
      simp only [fuel, hm, main_left, steps_done]
      omega
    · exact Or.inl hs1
  | worker i a =>
    rcases worker_step_counts hs with h | h
    · exact Or.inl h
    · right
      have hle := steps_done_le hfinite (step_reachable hreach hs) (D := D)
      obtain ⟨nodes, hinv⟩ := reachable_inv 0 hreach
      have hmain : s1.main = s.main := by
        obtain ⟨_, hc⟩ := worker_step_cases hinv hs
        rcases hc with ⟨_, _, hs1⟩ | ⟨_, _, _, _, _, hs1⟩ | ⟨_, _, _, _, hs1⟩ |
          ⟨_, _, _, _, hs1⟩ | ⟨_, _, _, _, _, hs1, _⟩ | ⟨_, _, hs1⟩ <;> rw [hs1]
      simp only [fuel, hmain, h]
      omega

/-- The step of a thread that is ready changes the program state. -/
theorem ready_step {cfg : Config} {D : Nat} {s s1 : Sys} {nodes : List (Nat × String)}
    {act : Action} (hinv : Inv cfg D s nodes) (hready : ready s act.thread = true)
    (hs : step cfg s act = some s1) : s1 ≠ s := by
  intro heq
  cases act with
  | main a =>
    simp only [Action.thread, ready] at hready
    rcases main_step_cases hs with ⟨hm, _, hm1, _⟩ | ⟨k, hm, _, hs1⟩ | ⟨k, hm, _, hs1⟩ |
      ⟨hm, _, hs1⟩ | ⟨hm, hz, _⟩
    · rw [heq, hm] at hm1; cases hm1
    · have : s1.main = .spawn (k + 1) := by rw [hs1]
      rw [heq, hm] at this
      simp at this
    · have : s1.main = .waiting := by rw [hs1]
      rw [heq, hm] at this
      cases this
    · have : s1.main = .returned := by rw [hs1]
      rw [heq, hm] at this
      cases this
    · rw [hm] at hready
      simp only [decide_eq_true_eq] at hready
      exact hz hready
  | worker i a =>
    simp only [Action.thread, ready] at hready
    obtain ⟨_, hc⟩ := worker_step_cases hinv hs
    rcases hc with ⟨hw, hh, _⟩ | ⟨hw, _, p1, q1, _, hs1⟩ | ⟨p, l, todo, hw, hs1⟩ |
      ⟨p, l, todo, hw, hs1⟩ | ⟨p, c0, todo, q1, hw, hs1, _⟩ | ⟨p, hw, hs1⟩
    · rw [hw] at hready
      simp only [decide_eq_true_eq] at hready
      exact hready hh
    all_goals
      have hi : i < s.workers.length := (List.getElem?_eq_some_iff.mp hw).1
      have h1 : s1.workers[i]? = s.workers[i]? := by rw [heq]
      rw [hs1, hw] at h1
      simp only [List.getElem?_set_self hi, Option.some.injEq] at h1
      cases h1

/-- The blocked threads after an event are those blocked before it and, at
most, the thread that took the step. -/
theorem blocked_frame {cfg : Config} {c c1 : Proc} {e : Event} {t : Thread}
    (h : proc_step cfg c e = some c1) (hb : c.blocked t = false) :
    e.runs t = true ∨ c1.blocked t = false := by
  simp only [Proc.blocked, decide_eq_false_iff_not, not_or] at hb
  cases e with
  | spurious u =>
    right
    obtain ⟨_, _, hq, hf⟩ := proc_step_spurious h
    simp only [Proc.blocked, decide_eq_false_iff_not, not_or, hq, hf, mem_unblock]
    exact ⟨fun hc => hb.1 hc.1, fun hc => hb.2 hc.1⟩
  | run act woken =>
    by_cases hrun : act.thread = t
    · left
      simp [Event.runs, hrun]
    · right
      simp only [Proc.blocked, decide_eq_false_iff_not, not_or]
      constructor
      · intro hc
        rcases queue_cond_grows h hc with hold | ⟨he, _⟩
        · exact hb.1 hold
        · exact hrun he.symm
      · intro hc
        rcases finish_cond_grows h hc with ⟨hold, _⟩ | ⟨he, _⟩
        · exact hb.2 hold
        · exact hrun he.symm

/-- An event leaves the program state as it is or uses up fuel. -/
theorem proc_step_fuel {cfg : Config} {D : Nat} {c c1 : Proc} {e : Event}
    (hfinite : depth_le cfg.opendir D cfg.root = true) (hinv : ProcInv cfg c)
    (h : proc_step cfg c e = some c1) :
    c1.sys = c.sys ∨ fuel cfg D c1.sys < fuel cfg D c.sys := by
  cases e with
  | spurious u => exact Or.inl (proc_step_spurious h).2.1
  | run act woken => exact step_fuel hfinite hinv.reach (proc_step_run h).2.2.1

/-- The step of a thread that is ready uses up fuel. -/
theorem proc_step_ready {cfg : Config} {D : Nat} {c c1 : Proc} {e : Event} {t : Thread}
    (hfinite : depth_le cfg.opendir D cfg.root = true) (hinv : ProcInv cfg c)
    (hready : ready c.sys t = true) (hruns : e.runs t = true)
    (h : proc_step cfg c e = some c1) : fuel cfg D c1.sys < fuel cfg D c.sys := by
  cases e with
  | spurious u => simp [Event.runs] at hruns
  | run act woken =>
    simp only [Event.runs, decide_eq_true_eq] at hruns
    obtain ⟨nodes, hI⟩ := reachable_inv 0 hinv.reach
    have hs := (proc_step_run h).2.2.1
    rcases step_fuel hfinite hinv.reach hs with heq | hlt
    · exact absurd heq (ready_step hI (by rw [hruns]; exact hready) hs)
    · exact hlt

/-- A step of `main` other than the seeding `enqueue` does not look at the
address. -/
theorem main_step_malloc {cfg : Config} {s : Sys} (a b : Nat)
    (h : sync s (.main a) ≠ .signal_queue_cond) :
    step cfg s (.main a) = step cfg s (.main b) := by
  simp only [step, main_step]
  cases hm : s.main with
  | start => simp [sync, hm] at h
  | spawn k => rfl
  | waiting => rfl
  | returned => rfl

/-- A step of a thread other than an `enqueue` does not look at the address. -/
theorem worker_step_malloc {cfg : Config} {s : Sys} (i a b : Nat)
    (h : sync s (.worker i a) ≠ .signal_queue_cond) :
    step cfg s (.worker i a) = step cfg s (.worker i b) := by
  simp only [step]
  split
  · rfl
  · unfold crawl_step
    cases hw : s.workers[i]? with
    | none => rfl
    | some w =>
      cases w with
      | idle => rfl
      | busy p todo =>
        cases todo with
        | nil => rfl
        | cons e rest =>
          cases e with
          | stdout l => rfl
          | stderr l => rfl
          | enqueue c0 => simp [sync, hw] at h

/-- What the environment may do is possible: no admissible event aborts the
process. -/
theorem proc_step_enabled {cfg : Config} {c : Proc} {e : Event} (hinv : ProcInv cfg c)
    (hmain : c.sys.main ≠ .returned) (hadm : e.admissible c = true) :
    ∃ c1, proc_step cfg c e = some c1 := by
  cases e with
  | spurious u =>
    simp only [proc_step, if_neg hmain]
    exact ⟨_, rfl⟩
  | run act woken =>
    obtain ⟨nodes, hI, hH⟩ := reachable_hist 0 hinv.reach
    simp only [Event.admissible, Bool.and_eq_true, Bool.not_eq_true', decide_eq_true_eq,
      Proc.blocked, decide_eq_false_iff_not] at hadm
    obtain ⟨⟨hcreated, hnb⟩, hsig⟩ := hadm
    have hfresh : c.sys.q.heap ((nodes.map Prod.fst).sum + 1) = none := by
      by_contra hx
      exact not_mem_sum_succ _ (hH.alloc _ hx)
    have hfree : sync c.sys act = .signal_queue_cond → c.sys.q.heap act.malloc = none := by
      intro hy
      rw [hy] at hsig
      simp only [Bool.and_eq_true, decide_eq_true_eq] at hsig
      exact hsig.1
    have hstep : ∃ s1, step cfg c.sys act = some s1 := by
      cases act with
      | main a =>
        by_cases hy : sync c.sys (.main a) = .signal_queue_cond
        · exact main_step_enabled hI hmain (hfree hy)
        · rw [main_step_malloc a _ hy]
          exact main_step_enabled hI hmain hfresh
      | worker i a =>
        simp only [Action.thread, Proc.created, decide_eq_true_eq] at hcreated
        by_cases hy : sync c.sys (.worker i a) = .signal_queue_cond
        · exact worker_step_enabled hI hmain hcreated (hfree hy)
        · rw [worker_step_malloc i a _ hy]
          exact worker_step_enabled hI hmain hcreated hfresh
    obtain ⟨s1, hs1⟩ := hstep
    simp only [proc_step, if_neg hnb, hs1]
    cases hy : sync c.sys act with
    | nothing => exact ⟨_, rfl⟩
    | wait_queue_cond => exact ⟨_, rfl⟩
    | wait_finish_cond => exact ⟨_, rfl⟩
    | signal_queue_cond =>
      rw [hy] at hsig
      simp only [Bool.and_eq_true, decide_eq_true_eq] at hsig
      simp only [if_pos hsig.2]
      exact ⟨_, rfl⟩
    | signal_finish_cond =>
      rw [hy] at hsig
      simp only [decide_eq_true_eq] at hsig
      simp only [if_pos hsig]
      exact ⟨_, rfl⟩

theorem in_flight_zero_of_idle {ws : List Worker}
    (h : ∀ p todo, Worker.busy p todo ∉ ws) : in_flight ws = 0 := by
  by_contra hne
  obtain ⟨p, todo, hm⟩ := in_flight_pos (Nat.pos_of_ne_zero hne)
  exact h p todo hm

/-- While `main` has not returned and the pool is not empty, some thread is
ready and can be scheduled. -/
theorem exists_ready {cfg : Config} {c : Proc} (hinv : ProcInv cfg c)
    (hmain : c.sys.main ≠ .returned) (hpool : 0 < cfg.pool) :
    ∃ t, ready c.sys t = true ∧ c.created t = true ∧ c.blocked t = false := by
  obtain ⟨nodes, hI, hH⟩ := reachable_hist 0 hinv.reach
  have hmq : Thread.main ∉ c.queue_cond := by
    intro hc
    obtain ⟨i, hi, _⟩ := hinv.queue_waiters _ hc
    cases hi
  have hcf : ∀ i, Thread.crawl i ∉ c.finish_cond := by
    intro i hc
    have := (hinv.finish_waiters _ hc).1
    cases this
  have hmain_free : c.sys.main ≠ .waiting ∨ c.sys.q.queue_length = 0 →
      c.blocked Thread.main = false := by
    intro h
    simp only [Proc.blocked, decide_eq_false_iff_not, not_or]
    refine ⟨hmq, ?_⟩
    intro hc
    obtain ⟨_, hw, hq⟩ := hinv.finish_waiters _ hc
    rcases h with h | h
    · exact h hw
    · exact hq h
  cases hm : c.sys.main with
  | start =>
    exact ⟨.main, by simp [ready, hm], rfl, hmain_free (Or.inl (by rw [hm]; simp))⟩
  | spawn k =>
    exact ⟨.main, by simp [ready, hm], rfl, hmain_free (Or.inl (by rw [hm]; simp))⟩
  | returned => exact absurd hm hmain
  | waiting =>
    have hlen : c.sys.workers.length = cfg.pool := hH.spawned_all (Or.inl hm)
    by_cases hbusy : ∃ (i : Nat) (p : String) (todo : List Effect),
        c.sys.workers[i]? = some (Worker.busy p todo)
    · obtain ⟨i, p, todo, hw⟩ := hbusy
      have hi : i < c.sys.workers.length := (List.getElem?_eq_some_iff.mp hw).1
      refine ⟨.crawl i, by simp [ready, hw], by simp [Proc.created, hi], ?_⟩
      simp only [Proc.blocked, decide_eq_false_iff_not, not_or]
      refine ⟨?_, hcf i⟩
      intro hc
      obtain ⟨j, hj, hidle⟩ := hinv.queue_waiters _ hc
      cases hj
      rw [hw] at hidle
      cases hidle
    · have hall : ∀ p todo, Worker.busy p todo ∉ c.sys.workers := by
        intro p todo hmem
        obtain ⟨i, hi⟩ := List.mem_iff_getElem?.mp hmem
        exact hbusy ⟨i, p, todo, hi⟩
      by_cases hhead : c.sys.q.queue_head = none
      · have hnodes : nodes = [] := by
          have := hI.holds.head_none_iff.mp hhead
          simpa using this
        have hz : c.sys.q.queue_length = 0 := by
          rw [hI.live, hnodes, in_flight_zero_of_idle hall]
          rfl
        exact ⟨.main, by simp [ready, hm, hz], rfl, hmain_free (Or.inr hz)⟩
      · have hne : c.sys.workers ≠ [] := by
          intro he
          rw [he] at hlen
          simp at hlen
          omega
        obtain ⟨i, hi, hni⟩ := hinv.awake hhead hne
        have hw : c.sys.workers[i]? = some .idle := by
          rw [List.getElem?_eq_getElem hi]
          cases hwi : c.sys.workers[i] with
          | idle => rfl
          | busy p todo =>
            exact absurd (List.getElem?_eq_getElem hi ▸ hwi ▸ rfl) (fun h => hbusy ⟨i, p, todo, h⟩)
        refine ⟨.crawl i, by simp [ready, hw, hhead], by simp [Proc.created, hi], ?_⟩
        simp only [Proc.blocked, decide_eq_false_iff_not, not_or]
        exact ⟨hni, hcf i⟩

theorem proc_trace_succ {cfg : Config} {σ : Nat → Event} {n : Nat} {c c1 : Proc}
    (h : proc_trace cfg σ n = some c) (hs : proc_step cfg c (σ n) = some c1) :
    proc_trace cfg σ (n + 1) = some c1 := by
  simp only [proc_trace, h, Option.some_bind, hs]

/-- Under a fair schedule of admissible events, from every state in which
`main` has not returned a later event uses up fuel. -/
theorem progress {cfg : Config} {D : Nat} {σ : Nat → Event}
    (hfinite : depth_le cfg.opendir D cfg.root = true) (hpool : 0 < cfg.pool)
    (hadm : ∀ n c, proc_trace cfg σ n = some c → c.sys.main ≠ .returned →
      (σ n).admissible c = true)
    (hfair : ∀ n t, ∃ m, n ≤ m ∧ ∀ c, proc_trace cfg σ m = some c →
      (σ m).runs t = true ∨ c.runnable t = false)
    (n : Nat) (c : Proc) (hc : proc_trace cfg σ n = some c) (hmain : c.sys.main ≠ .returned) :
    ∃ m c1, n ≤ m ∧ proc_trace cfg σ (m + 1) = some c1 ∧
      fuel cfg D c1.sys < fuel cfg D c.sys := by
  obtain ⟨t, hready, hcreated, hfree⟩ := exists_ready (proc_trace_inv σ n hc) hmain hpool
  obtain ⟨m, hnm, hm⟩ := hfair n t
  have key : ∀ j, n ≤ j → j ≤ m →
      (∃ m1 c1, n ≤ m1 ∧ proc_trace cfg σ (m1 + 1) = some c1 ∧
        fuel cfg D c1.sys < fuel cfg D c.sys) ∨
      (∃ cj, proc_trace cfg σ j = some cj ∧ cj.sys = c.sys ∧ cj.blocked t = false) := by
    intro j hj
    induction j, hj using Nat.le_induction with
    | base => exact fun _ => Or.inr ⟨c, hc, rfl, hfree⟩
    | succ j hnj ih =>
      intro hjm
      rcases ih (by omega) with hdone | ⟨cj, htj, hsys, hbj⟩
      · exact Or.inl hdone
      · have hinvj := proc_trace_inv σ j htj
        have hmj : cj.sys.main ≠ .returned := by rw [hsys]; exact hmain
        obtain ⟨c1, hs1⟩ := proc_step_enabled hinvj hmj (hadm j cj htj hmj)
        have ht1 := proc_trace_succ htj hs1
        rcases proc_step_fuel hfinite hinvj hs1 (D := D) with hsame | hlt
        · rcases blocked_frame hs1 hbj with hruns | hb1
          · have := proc_step_ready hfinite hinvj (by rw [hsys]; exact hready) hruns hs1 (D := D)
            rw [hsys] at this
            exact Or.inl ⟨j, c1, hnj, ht1, this⟩
          · exact Or.inr ⟨c1, ht1, by rw [hsame, hsys], hb1⟩
        · rw [hsys] at hlt
          exact Or.inl ⟨j, c1, hnj, ht1, hlt⟩
  rcases key m hnm (Nat.le_refl m) with hdone | ⟨cm, htm, hsys, hbm⟩
  · exact hdone
  · have hinvm := proc_trace_inv σ m htm
    have hmm : cm.sys.main ≠ .returned := by rw [hsys]; exact hmain
    obtain ⟨c1, hs1⟩ := proc_step_enabled hinvm hmm (hadm m cm htm hmm)
    have hruns : (σ m).runs t = true := by
      rcases hm cm htm with h | h
      · exact h
      · exfalso
        have hcr : cm.created t = true := by
          cases t with
          | main => rfl
          | crawl i => simpa [Proc.created, hsys] using hcreated
        simp [Proc.runnable, hcr, hbm] at h
    have := proc_step_ready hfinite hinvm (by rw [hsys]; exact hready) hruns hs1 (D := D)
    rw [hsys] at this
    exact ⟨m, c1, hnm, proc_trace_succ htm hs1, this⟩

/-- Under a fair schedule of admissible events `main` returns. -/
theorem main_returns {cfg : Config} {D : Nat} {σ : Nat → Event}
    (hfinite : depth_le cfg.opendir D cfg.root = true) (hpool : 0 < cfg.pool)
    (hadm : ∀ n c, proc_trace cfg σ n = some c → c.sys.main ≠ .returned →
      (σ n).admissible c = true)
    (hfair : ∀ n t, ∃ m, n ≤ m ∧ ∀ c, proc_trace cfg σ m = some c →
      (σ m).runs t = true ∨ c.runnable t = false) :
    ∀ (k n : Nat) (c : Proc), proc_trace cfg σ n = some c → fuel cfg D c.sys ≤ k →
      ∃ m c1, n ≤ m ∧ proc_trace cfg σ m = some c1 ∧ c1.sys.main = .returned := by
  intro k
  induction k with
  | zero =>
    intro n c hc hk
    by_cases hmain : c.sys.main = .returned
    · exact ⟨n, c, Nat.le_refl n, hc, hmain⟩
    · obtain ⟨m, c1, _, _, hlt⟩ := progress hfinite hpool hadm hfair n c hc hmain
      omega
  | succ k ih =>
    intro n c hc hk
    by_cases hmain : c.sys.main = .returned
    · exact ⟨n, c, Nat.le_refl n, hc, hmain⟩
    · obtain ⟨m, c1, hnm, hc1, hlt⟩ := progress hfinite hpool hadm hfair n c hc hmain
      obtain ⟨m2, c2, hm2, hc2, hret⟩ := ih (m + 1) c1 hc1 (by omega)
      exact ⟨m2, c2, by omega, hc2, hret⟩

/-! ## The live count stays in the range of `int` -/

theorem card_sum_map {α : Type} (l : List α) (f : α → Multiset String) :
    Multiset.card (l.map f).sum = (l.map fun x => Multiset.card (f x)).sum := by
  induction l with
  | nil => rfl
  | cons x rest ih => rw [List.map_cons, List.sum_cons, Multiset.card_add, ih]; rfl

theorem sum_le_sum_map {α : Type} (l : List α) (f g : α → Nat) (h : ∀ x ∈ l, f x ≤ g x) :
    (l.map f).sum ≤ (l.map g).sum := by
  induction l with
  | nil => exact Nat.le_refl _
  | cons x rest ih =>
    simp only [List.map_cons, List.sum_cons]
    have h1 := h x (by simp)
    have h2 := ih (fun y hy => h y (List.mem_cons_of_mem _ hy))
    omega

theorem unprinted_le_pending (opendir : String → Option (List dirent)) (D : Nat)
    (w : Worker) : w.unprinted ≤ Multiset.card (w.pending opendir D) := by
  cases w with
  | idle => exact Nat.zero_le _
  | busy p todo =>
    simp only [Worker.unprinted, Worker.pending]
    induction todo with
    | nil => simp [has_stdout]
    | cons e rest ih =>
      rw [List.map_cons, List.sum_cons, Multiset.card_add]
      cases e with
      | stdout l =>
        simp only [has_stdout, if_true, Effect.pending, Multiset.card_singleton]
        omega
      | stderr l =>
        simp only [has_stdout]
        omega
      | enqueue c =>
        simp only [has_stdout]
        omega

/-- In every reachable state the number of `enqueue` calls made is at most the
number of directories of the tree. -/
theorem enqueue_calls_le {cfg : Config} {D : Nat} {s : Sys}
    (hfinite : depth_le cfg.opendir D cfg.root = true) (hreach : Reachable cfg s) :
    enqueue_calls s.calls ≤ (reachable_dirs cfg.opendir D cfg.root).length := by
  obtain ⟨nodes, hinv, h⟩ := reachable_hist D hreach
  have hv := congrArg Multiset.card (hinv.visited hfinite)
  simp only [Multiset.card_add, Multiset.coe_card, Sys.pending] at hv
  rw [card_sum_map, card_sum_map] at hv
  have hnodes : nodes.length ≤
      (nodes.map fun n =>
        Multiset.card (reachable_dirs cfg.opendir D n.2 : Multiset String)).sum := by
    have := sum_le_sum_map nodes (fun _ => 1)
      (fun n => Multiset.card (reachable_dirs cfg.opendir D n.2 : Multiset String))
      (fun n hn => by
        have hm := mem_reachable_dirs_self cfg.opendir D n.2 (hinv.fits_queue hfinite n hn)
        simp only [Multiset.coe_card]
        exact List.length_pos_of_mem hm)
    simpa using this
  have hworkers := sum_le_sum_map s.workers Worker.unprinted
    (fun w => Multiset.card (w.pending cfg.opendir D))
    (fun w _ => unprinted_le_pending cfg.opendir D w)
  have hdeq := h.n_deq
  have hout := h.n_out
  omega

/-- In every reachable state of a tree with at most `INT_MAX` directories the
live count is in the range of `int`. -/
theorem queue_length_in_range {cfg : Config} {D : Nat} {s : Sys}
    (hfinite : depth_le cfg.opendir D cfg.root = true)
    (hsize : ((reachable_dirs cfg.opendir D cfg.root).length : Int) ≤ INT_MAX)
    (hreach : Reachable cfg s) : 0 ≤ s.q.queue_length ∧ s.q.queue_length ≤ INT_MAX := by
  obtain ⟨nodes, hinv⟩ := reachable_inv D hreach
  have hle := enqueue_calls_le hfinite hreach
  have hlive := hinv.live
  have hcons := hinv.conserve
  constructor
  · omega
  · omega

/-! ## Drain and termination -/

/-- In a state with a live count of zero, after the seeding: the queue is empty,
no thread holds an item, and every directory of the tree was enqueued,
dequeued, printed and acknowledged once. -/
theorem drained_counts {cfg : Config} {D : Nat} {s : Sys}
    (hfinite : depth_le cfg.opendir D cfg.root = true) (hreach : Reachable cfg s)
    (hseeded : s.main ≠ .start) (hzero : s.q.queue_length = 0) :
    s.q.queue_head = none ∧ s.q.queue_tail = none ∧ (∀ w ∈ s.workers, w = .idle) ∧
      s.out.Perm (reachable_dirs cfg.opendir D cfg.root) ∧
      enqueue_calls s.calls = (reachable_dirs cfg.opendir D cfg.root).length ∧
      dequeue_calls s.calls = (reachable_dirs cfg.opendir D cfg.root).length ∧
      queue_processed_calls s.calls = (reachable_dirs cfg.opendir D cfg.root).length := by
  obtain ⟨nodes, hinv, h⟩ := reachable_hist D hreach
  obtain ⟨hnil, hall⟩ := hinv.drained hzero
  subst hnil
  have hholds := hinv.holds
  have hhead : s.q.queue_head = none := hholds.head_none_iff.mpr rfl
  have htail : s.q.queue_tail = none := by
    have := hholds.2.1
    simpa using this
  have hv := hinv.visited hfinite
  simp only [Sys.pending, List.map_nil, List.sum_nil, pending_all_idle cfg.opendir D hall,
    if_neg hseeded, add_zero] at hv
  have hperm : s.out.Perm (reachable_dirs cfg.opendir D cfg.root) := Multiset.coe_eq_coe.mp hv
  have hunp : (s.workers.map Worker.unprinted).sum = 0 := by
    apply List.sum_eq_zero
    intro x hx
    rw [List.mem_map] at hx
    obtain ⟨w, hw, rfl⟩ := hx
    rw [hall w hw]
    rfl
  have hout := h.n_out
  rw [hunp] at hout
  have hdeq := h.n_deq
  simp only [List.length_nil] at hdeq
  have hlen := hperm.length_eq
  have hcons := hinv.conserve
  rw [hzero] at hcons
  refine ⟨hhead, htail, hall, hperm, ?_, ?_, ?_⟩ <;> omega

/-- C16. Drain wake-up: in every state of the process in which a thread is
about to call `queue_processed`, the threads blocked in `wait_for_all_processed`
are blocked on `finish_cond`, and each of them is `main` inside that call; the
call is possible with every set of woken threads that `pthread_cond_signal`
allows; and whenever the call brings the live count to zero its signal unblocks
every thread blocked on `finish_cond`, so that none stays blocked, and `main`,
if it was blocked, returns from `wait_for_all_processed` at its next step; when
the live count stays above zero no thread is unblocked. -/
theorem drain_wakes_every_waiter (cfg : Config) (c : Proc) (i : Nat) (p : String)
    (hreach : ProcReachable cfg c) (hcall : c.sys.workers[i]? = some (.busy p [])) :
    (∀ t ∈ c.finish_cond, t = .main ∧ c.sys.main = .waiting) ∧
      (∀ a woken, pthread_cond_signal c.finish_cond woken →
        ∃ c1, proc_step cfg c (.run (.worker i a) woken) = some c1) ∧
      (∀ a woken c1, proc_step cfg c (.run (.worker i a) woken) = some c1 →
        c1.sys.q = queue_processed c.sys.q ∧
          (c1.sys.q.queue_length = 0 →
            pthread_cond_signal c.finish_cond woken ∧
              (∀ t ∈ c.finish_cond, t ∈ woken) ∧ c1.finish_cond = [] ∧
              (c.finish_cond ≠ [] → ∀ b w, ∃ c2,
                proc_step cfg c1 (.run (.main b) w) = some c2 ∧ c2.sys.main = .returned)) ∧
          (c1.sys.q.queue_length ≠ 0 → c1.finish_cond = c.finish_cond)) := by
  have hinv := proc_reachable_inv hreach
  obtain ⟨nodes, hI⟩ := reachable_inv 0 hinv.reach
  have hi : i < c.sys.workers.length := (List.getElem?_eq_some_iff.mp hcall).1
  have hmain : c.sys.main ≠ .returned := by
    intro hr
    have hall := (hI.drained (hI.returned hr)).2 _ (List.getElem?_mem hcall)
    cases hall
  have hstep : ∀ a, step cfg c.sys (.worker i a) = some { c.sys with
      q := queue_processed c.sys.q
      workers := c.sys.workers.set i .idle
      calls := c.sys.calls ++ [.queue_processed] } := by
    intro a
    simp only [step, if_neg hmain, crawl_step, hcall]
  have hnb : ¬ (Thread.crawl i ∈ c.queue_cond ∨ Thread.crawl i ∈ c.finish_cond) := by
    rintro (hc | hc)
    · obtain ⟨j, hj, hidle⟩ := hinv.queue_waiters _ hc
      cases hj
      rw [hcall] at hidle
      cases hidle
    · have := (hinv.finish_waiters _ hc).1
      cases this
  refine ⟨fun t ht => ⟨(hinv.finish_waiters t ht).1, (hinv.finish_waiters t ht).2.1⟩, ?_, ?_⟩
  · intro a woken hsig
    by_cases hz : (queue_processed c.sys.q).queue_length = 0
    · have hy : sync c.sys (.worker i a) = .signal_finish_cond := by
        simp only [sync, hcall, hz, if_true]
      simp only [proc_step, Action.thread, if_neg hnb, hstep a, hy, if_pos hsig]
      exact ⟨_, rfl⟩
    · have hy : sync c.sys (.worker i a) = .nothing := by
        simp only [sync, hcall, if_neg hz]
      simp only [proc_step, Action.thread, if_neg hnb, hstep a, hy]
      exact ⟨_, rfl⟩
  · intro a woken c1 h
    obtain ⟨_, _, hs, hcases⟩ := proc_step_run h
    rw [hstep a] at hs
    have hsys := (Option.some.inj hs).symm
    have hq : c1.sys.q = queue_processed c.sys.q := by rw [hsys]
    refine ⟨hq, ?_, ?_⟩
    · intro hz
      rw [hq] at hz
      have hy : sync c.sys (.worker i a) = .signal_finish_cond := by
        simp only [sync, hcall, hz, if_true]
      obtain ⟨hsig, _, hf⟩ := proc_step_signal_finish h hy
      have hwoken : ∀ t ∈ c.finish_cond, t ∈ woken := fun t ht =>
        signal_wakes_main hsig (fun u hu => (hinv.finish_waiters u hu).1) ht
      have hempty : c1.finish_cond = [] := by
        rw [hf]
        apply List.eq_nil_iff_forall_not_mem.mpr
        intro t ht
        rw [mem_unblock] at ht
        exact ht.2 (hwoken t ht.1)
      refine ⟨hsig, hwoken, hempty, ?_⟩
      intro hne b w
      obtain ⟨t, ht⟩ := List.exists_mem_of_ne_nil _ hne
      have hwait : c.sys.main = .waiting := (hinv.finish_waiters t ht).2.1
      have hinv1 := proc_step_inv hinv h
      have hnb1 : ¬ (Thread.main ∈ c1.queue_cond ∨ Thread.main ∈ c1.finish_cond) := by
        rintro (hc | hc)
        · obtain ⟨j, hj, _⟩ := hinv1.queue_waiters _ hc
          cases hj
        · rw [hempty] at hc
          cases hc
      have hwait1 : c1.sys.main = .waiting := by rw [hsys]; exact hwait
      have hz1 : c1.sys.q.queue_length = 0 := by rw [hq]; exact hz
      refine ⟨{ c1 with sys := { c1.sys with main := .returned } }, ?_, rfl⟩
      simp only [proc_step, Action.thread, if_neg hnb1, step, main_step, hwait1,
        wait_for_all_processed_pass, hz1, decide_True, if_true, sync]
    · intro hnz
      rw [hq] at hnz
      have hy : sync c.sys (.worker i a) = .nothing := by
        simp only [sync, hcall, if_neg hnz]
      rcases hcases with ⟨_, _, hf⟩ | ⟨hy1, _⟩ | ⟨hy1, _⟩ | ⟨hy1, _⟩ | ⟨hy1, _⟩
      · exact hf
      · rw [hy] at hy1; cases hy1
      · rw [hy] at hy1; cases hy1
      · rw [hy] at hy1; cases hy1
      · rw [hy] at hy1; cases hy1

/-- C16 on Scenario C: `main` is blocked on `finish_cond` when the thread calls
`queue_processed`; the call brings the live count to zero and its signal
unblocks `main`. -/
theorem drain_wakes_main_scenario_C :
    blocked_C.finish_cond = [.main] ∧
      ∃ c1, proc_step config_C blocked_C (.run (.worker 0 0) [.main]) = some c1 ∧
        c1.sys.q.queue_length = 0 ∧ c1.finish_cond = [] := by
  have h := drain_wakes_every_waiter config_C blocked_C 0 "/tmp/testC"
    ⟨events_C.take 6, rfl⟩ rfl
  obtain ⟨c1, hc1⟩ := h.2.1 0 [.main] (by decide)
  obtain ⟨hq, hzero, _⟩ := h.2.2 0 [.main] c1 hc1
  have hz : c1.sys.q.queue_length = 0 := by
    rw [hq]
    rfl
  exact ⟨rfl, c1, hc1, hz, (hzero hz).2.2.1⟩

theorem proc_trace_none {cfg : Config} {σ : Nat → Event} {n : Nat}
    (h : proc_trace cfg σ n = none) : ∀ m, n ≤ m → proc_trace cfg σ m = none := by
  intro m hnm
  induction m, hnm using Nat.le_induction with
  | base => exact h
  | succ m _ ih => simp only [proc_trace, ih, Option.none_bind]

/-- C17. Termination: for a file system whose tree under the root has at most
`D` levels and at most `INT_MAX` directories, and a pool that is not empty,
along every unending sequence of events in which the environment does only what
it may (it runs threads that exist and are not blocked, `malloc` returns free
addresses, `pthread_cond_signal` unblocks what its contract allows) and in which
every thread is, again and again, scheduled or not able to run: the live count
stays in the range of `int`, so that `queue_length` never overflows; no event
aborts; and after finitely many events `main` has returned from
`wait_for_all_processed`, in a drained state: the live count is zero, the queue
is empty, every thread is back at `dequeue`, and the numbers of `enqueue` calls,
of `dequeue` calls (one `process_directory` call follows each) and of
`queue_processed` calls are all the number of directories of the tree, which
are the lines printed. -/
theorem crawl_terminates (cfg : Config) (D : Nat)
    (hfinite : depth_le cfg.opendir D cfg.root = true)
    (hsize : ((reachable_dirs cfg.opendir D cfg.root).length : Int) ≤ INT_MAX)
    (hpool : 0 < cfg.pool) (σ : Nat → Event)
    (hadm : ∀ n c, proc_trace cfg σ n = some c → c.sys.main ≠ .returned →
      (σ n).admissible c = true)
    (hfair : ∀ n t, ∃ m, n ≤ m ∧ ∀ c, proc_trace cfg σ m = some c →
      (σ m).runs t = true ∨ c.runnable t = false) :
    (∀ m c, proc_trace cfg σ m = some c →
        0 ≤ c.sys.q.queue_length ∧ c.sys.q.queue_length ≤ INT_MAX) ∧
      ∃ n c, proc_trace cfg σ n = some c ∧ c.sys.main = .returned ∧
        c.sys.q.queue_length = 0 ∧ c.sys.q.queue_head = none ∧ c.sys.q.queue_tail = none ∧
        (∀ w ∈ c.sys.workers, w = .idle) ∧
        c.sys.out.Perm (reachable_dirs cfg.opendir D cfg.root) ∧
        enqueue_calls c.sys.calls = (reachable_dirs cfg.opendir D cfg.root).length ∧
        dequeue_calls c.sys.calls = (reachable_dirs cfg.opendir D cfg.root).length ∧
        queue_processed_calls c.sys.calls = (reachable_dirs cfg.opendir D cfg.root).length := by
  refine ⟨fun m c hc => queue_length_in_range hfinite hsize (proc_trace_inv σ m hc).reach, ?_⟩
  obtain ⟨n, c, _, hc, hret⟩ :=
    main_returns hfinite hpool hadm hfair (fuel cfg D Proc.init.sys) 0 Proc.init rfl
      (Nat.le_refl _) (D := D)
  have hinv := proc_trace_inv σ n hc
  obtain ⟨nodes, hI⟩ := reachable_inv 0 hinv.reach
  have hz := hI.returned hret
  have hseeded : c.sys.main ≠ .start := by rw [hret]; simp
  exact ⟨n, c, hc, hret, hz, drained_counts hfinite hinv.reach hseeded hz⟩

/-- Scenario C under C17: along `sigma_C` the process reaches a drained state
in which `main` has returned, with one `dequeue` call, so one
`process_directory` call, for the one directory of the tree; that is the state
after its eight events, with the root as the one line printed. -/
theorem scenario_C_one_processing_step :
    (∃ n c, proc_trace config_C sigma_C n = some c ∧ c.sys.main = .returned ∧
      c.sys.q.queue_length = 0 ∧ c.sys.q.queue_head = none ∧ c.sys.q.queue_tail = none ∧
      (∀ w ∈ c.sys.workers, w = .idle) ∧
      c.sys.out.Perm (reachable_dirs opendir_C 1 "/tmp/testC") ∧
      enqueue_calls c.sys.calls = (reachable_dirs opendir_C 1 "/tmp/testC").length ∧
      dequeue_calls c.sys.calls = (reachable_dirs opendir_C 1 "/tmp/testC").length ∧
      queue_processed_calls c.sys.calls = (reachable_dirs opendir_C 1 "/tmp/testC").length) ∧
      proc_trace config_C sigma_C 8 = some (state_C 8) ∧
      (state_C 8).sys.main = .returned ∧ (state_C 8).sys.out = ["/tmp/testC"] ∧
      dequeue_calls (state_C 8).sys.calls = 1 ∧
      (reachable_dirs opendir_C 1 "/tmp/testC").length = 1 := by
  have hnone : ∀ m, 9 ≤ m → proc_trace config_C sigma_C m = none :=
    proc_trace_none (n := 9) rfl
  refine ⟨(crawl_terminates config_C 1 (by decide) (by decide) (by decide) sigma_C ?_ ?_).2,
    rfl, rfl, rfl, rfl, rfl⟩
  · intro n c hc hm
    rcases Nat.lt_or_ge n 9 with hlt | hge
    · have hst : proc_trace config_C sigma_C n = some (state_C n) := by
        interval_cases n <;> rfl
      obtain rfl := Option.some.inj (hst.symm.trans hc)
      interval_cases n
      · rfl
      · rfl
      · rfl
      · rfl
      · rfl
      · rfl
      · rfl
      · rfl
      · exact absurd rfl hm
    · rw [hnone n hge] at hc
      cases hc
  · intro n t
    refine ⟨n + 9, by omega, ?_⟩
    intro c hc
    rw [hnone (n + 9) (by omega)] at hc
    cases hc

end Crawl
